import Mathlib

/-!
Verification of the spec language and constraint-satisfaction core of the
spack package manager: version algebra, lexer, parser, canonical rendering,
`satisfies`/`constrain`, and multimethod dispatch.

The repository snapshot under verification contains the test suites
(`spack/test/spec_syntax.py`, `spack/test/multimethod.py`) but not the
implementation modules (`spack/spec.py`, `spack/parse.py`, `spack/version.py`,
`spack/multimethod.py`).  Definitions for those missing modules are therefore
modelled from the specification document (marked `Modelled from the spec:`),
constrained by the behaviour the in-repository tests demand.
-/

namespace Spack

/-! ## Ordering toolkit

Generic laws for `Ordering`-valued comparators, used to derive the sorting
and normalization facts needed by the version algebra. -/

/-- Laws for a comparator that decides equality of its arguments. -/

structure CmpLaws {α : Type} (f : α → α → Ordering) : Prop where
  eq_iff : ∀ a b, f a b = .eq ↔ a = b
  swap : ∀ a b, (f a b).swap = f b a
  lt_trans : ∀ a b c, f a b = .lt → f b c = .lt → f a c = .lt

/-- Natural number comparator. -/
def natCmp (m n : Nat) : Ordering :=
  if m < n then .lt else if m = n then .eq else .gt

/-- Lexicographic comparator on lists; a list that runs out of elements
compares less than one with a remaining element. -/
def lcmp {α : Type} (f : α → α → Ordering) : List α → List α → Ordering
  | [], [] => .eq
  | [], _ :: _ => .lt
  | _ :: _, [] => .gt
  | a :: as, b :: bs =>
    match f a b with
    | .eq => lcmp f as bs
    | o => o

/-- Comparator refinement: compare by `f`, break ties by `g`. -/
def cmpThen {α : Type} (f g : α → α → Ordering) (a b : α) : Ordering :=
  match f a b with
  | .eq => g a b
  | o => o

/-! ## Version algebra

Modelled from the spec: a version string splits into alternating numeric and
non-numeric segments at `.`, `-`, `_` boundaries and at every transition
between digits and non-digits; comparison is segment-wise with numeric
segments comparing as integers, non-numeric lexicographically, numeric
greater than non-numeric, and a shorter segment list less than a longer
one (§3, §4.1). -/

def isSepChar (c : Char) : Bool := c = '.' || c = '-' || c = '_'

def isWordChar (c : Char) : Bool := !(isSepChar c) && !c.isDigit

/-- One segment of a version: a number or a run of non-numeric characters. -/
inductive Seg where
  | num (n : Nat)
  | str (s : List Char)
deriving DecidableEq

def natOfDigits (l : List Char) : Nat :=
  l.foldl (fun acc c => acc * 10 + (c.toNat - 48)) 0

def mkSeg (isNum : Bool) (acc : List Char) : Seg :=
  if isNum then .num (natOfDigits acc.reverse) else .str acc.reverse

/-- Segmentation loop; the state holds the class and reversed characters of
the run currently being read. -/
def segsGo : Option (Bool × List Char) → List Char → List Seg
  | none, [] => []
  | none, c :: cs =>
    if isSepChar c then segsGo none cs
    else segsGo (some (c.isDigit, [c])) cs
  | some (isNum, acc), [] => [mkSeg isNum acc]
  | some (isNum, acc), c :: cs =>
    if isSepChar c then mkSeg isNum acc :: segsGo none cs
    else if c.isDigit = isNum then segsGo (some (isNum, c :: acc)) cs
    else mkSeg isNum acc :: segsGo (some (c.isDigit, [c])) cs

/-- Segment list of a raw version character sequence: runs split at
separators and at digit/non-digit transitions. -/
def segsOf (l : List Char) : List Seg := segsGo none l

def charCmp (c d : Char) : Ordering := natCmp c.toNat d.toNat

/-- Segment comparator: numeric segments compare as naturals, non-numeric
lexicographically, and a numeric segment is greater than a non-numeric one. -/
def segCmp : Seg → Seg → Ordering
  | .num m, .num n => natCmp m n
  | .num _, .str _ => .gt
  | .str _, .num _ => .lt
  | .str s, .str t => lcmp charCmp s t

/-- Semantic version comparator on raw character sequences (§3). -/
def vcmp (a b : List Char) : Ordering := lcmp segCmp (segsOf a) (segsOf b)

/-- String comparator on raw characters (used only as a deterministic
tie-break when sorting, never for constraint semantics). -/
def strCmp (s t : String) : Ordering := lcmp charCmp s.data t.data

/-- Total version comparator on version strings: semantic segment order
refined by raw string order so that sorting is deterministic. -/
def vcmpT (s t : String) : Ordering := cmpThen (fun s t => vcmp s.data t.data) strCmp s t

/-! ## Version ranges and version lists -/

/-- Modelled from the spec: a version range is a pair of optional inclusive
bounds; `none` means unbounded in that direction (§3).  Bounds are kept as the
raw version strings; all ordering goes through the segment comparator. -/

structure VRange where
  lo : Option String
  hi : Option String
deriving DecidableEq

/-- A range is nonempty when its bounds are in order (an unbounded side is
always in order). -/
def rNonempty (r : VRange) : Bool :=
  match r.lo, r.hi with
  | some a, some b => vcmp a.data b.data != .gt
  | _, _ => true

/-- Maximum of two lower bounds (`none` is minus infinity); keeps the left
argument on semantic ties. -/
def loMax : Option String → Option String → Option String
  | none, y => y
  | some a, none => some a
  | some a, some b => if vcmp b.data a.data = .gt then some b else some a

/-- Minimum of two upper bounds (`none` is plus infinity); keeps the left
argument on semantic ties. -/
def hiMin : Option String → Option String → Option String
  | none, y => y
  | some a, none => some a
  | some a, some b => if vcmp b.data a.data = .lt then some b else some a

/-- Maximum of two upper bounds (`none` is plus infinity). -/
def hiMax : Option String → Option String → Option String
  | none, _ => none
  | _, none => none
  | some a, some b => if vcmp b.data a.data = .gt then some b else some a

/-- Modelled from the spec: range intersection takes the tighter bound on each
side and returns `none` when the result is empty (§4.1). -/
def rIntersect (r s : VRange) : Option VRange :=
  let t : VRange := ⟨loMax r.lo s.lo, hiMin r.hi s.hi⟩
  if rNonempty t then some t else none

/-- Modelled from the spec: version-list intersection is the pairwise range
intersection, dropping empty results (§3).  The empty list stands for an
unconstrained version list and is handled by the callers. -/
def vlInter : List VRange → List VRange → List VRange
  | [], _ => []
  | a :: as, B => B.filterMap (rIntersect a) ++ vlInter as B

/-- Version satisfaction on version lists: an unconstrained side always
matches, otherwise the lists must intersect non-emptily (§4.4). -/
def vlSatisfies (A B : List VRange) : Bool :=
  A.isEmpty || B.isEmpty || !(vlInter A B).isEmpty

/-- Lower-bound comparator for sorting (`none` first). -/
def loCmp : Option String → Option String → Ordering
  | none, none => .eq
  | none, some _ => .lt
  | some _, none => .gt
  | some a, some b => vcmpT a b

/-- Upper-bound comparator for sorting (`none` last). -/
def hiCmp : Option String → Option String → Ordering
  | none, none => .eq
  | none, some _ => .gt
  | some _, none => .lt
  | some a, some b => vcmpT a b

/-- Total comparator on ranges: by lower bound, then upper bound. -/
def rCmp : VRange → VRange → Ordering :=
  cmpThen (fun r s => loCmp r.lo s.lo) (fun r s => hiCmp r.hi s.hi)

/-- Sorting relation on ranges. -/
def rLE (r s : VRange) : Prop := rCmp r s ≠ .gt

instance : DecidableRel rLE := fun r s => by
  unfold rLE
  infer_instance

/-- Upper bound `h` lies strictly before lower bound `l` in the semantic
version order (so the corresponding ranges are disjoint and ordered). -/
def beforeB (h l : Option String) : Bool :=
  match h, l with
  | some a, some b => vcmp a.data b.data == .lt
  | _, _ => false

def rOverlap (r s : VRange) : Bool := !(beforeB r.hi s.lo)

/-- Coalescing pass over a sorted range list: merge overlapping neighbours. -/
def coalesceGo (cur : VRange) : List VRange → List VRange
  | [] => [cur]
  | s :: t =>
    if rOverlap cur s then coalesceGo ⟨cur.lo, hiMax cur.hi s.hi⟩ t
    else cur :: coalesceGo s t

def coalesce : List VRange → List VRange
  | [] => []
  | r :: t => coalesceGo r t

/-- Modelled from the spec: a version list is kept as an ordered,
deduplicated set of ranges in a normalized, non-overlapping, sorted form;
union merges and coalesces overlapping ranges (§3).  A list whose single
range is unbounded on both sides denotes every version and collapses to the
unconstrained (empty) list. -/
def normalizeVL (raw : List VRange) : List VRange :=
  let c := coalesce (List.insertionSort rLE (raw.filter rNonempty))
  if c = [⟨none, none⟩] then [] else c

/-- Bool-valued chain check along consecutive elements. -/
def chainB {α : Type} (p : α → α → Bool) : List α → Bool
  | [] => true
  | [_] => true
  | a :: b :: t => p a b && chainB p (b :: t)

/-- Normalization invariant of a version list: all ranges nonempty, and
consecutive ranges strictly ordered and disjoint. -/
def normVLb (l : List VRange) : Bool :=
  l.all rNonempty && chainB (fun r s => beforeB r.hi s.lo) l

/-! ## Lexer

Modelled from the spec: the lexer turns a spec string into a flat token
stream.  Token types: identifier, `@`, `:`, `,`, `%`, `^`, `+`, `-`/`~`
(variant off), `=` (§4.2).  `-` is a valid identifier character, so a `-`
immediately following an identifier character is lexed as part of the
identifier; a `-` starting a token is a variant-off marker. -/

inductive Tok where
  | ID (s : String)
  | AT
  | COLON
  | COMMA
  | PCT
  | DEP
  | ON
  | OFF
  | EQ
deriving DecidableEq

/-- Error taxonomy of the core (§7). -/
inductive SpkErr where
  | lexErr
  | parseErr
  | dupVariant (n : String)
  | dupCompiler (n : String)
  | dupDependency (n : String)
  | nameMismatch (a b : String)
  | unsatVersion (n : String)
  | unsatCompiler (n : String)
  | variantConflict (n : String)
  | archConflict (a b : String)
  | noSuchMethod
deriving DecidableEq

instance {e a : Type} [DecidableEq e] [DecidableEq a] : DecidableEq (Except e a)
  | .ok x, .ok y => decidable_of_iff (x = y) (by simp)
  | .error x, .error y => decidable_of_iff (x = y) (by simp)
  | .ok _, .error _ => isFalse (by simp)
  | .error _, .ok _ => isFalse (by simp)

/-- Unsatisfiable-spec errors raised by `constrain` (§7). -/
def SpkErr.isUnsat : SpkErr → Bool
  | .nameMismatch _ _ => true
  | .unsatVersion _ => true
  | .unsatCompiler _ => true
  | .variantConflict _ => true
  | .archConflict _ _ => true
  | _ => false

def isIdStart (c : Char) : Bool := c.isAlphanum || c == '_'

def isIdChar (c : Char) : Bool := c.isAlphanum || c == '_' || c == '.' || c == '-'

def symTok (c : Char) : Option Tok :=
  if c == '@' then some .AT
  else if c == ':' then some .COLON
  else if c == ',' then some .COMMA
  else if c == '%' then some .PCT
  else if c == '^' then some .DEP
  else if c == '+' then some .ON
  else if c == '~' then some .OFF
  else if c == '-' then some .OFF
  else if c == '=' then some .EQ
  else none

def mkRev (acc : List Char) : String := String.mk acc.reverse

/-- Lexer loop; the first argument holds the reversed characters of the
identifier currently being read, if any. -/
def lexLoop : Option (List Char) → List Char → Except SpkErr (List Tok)
  | none, [] => .ok []
  | some acc, [] => .ok [Tok.ID (mkRev acc)]
  | some acc, c :: cs =>
    if isIdChar c then lexLoop (some (c :: acc)) cs
    else if c.isWhitespace then (lexLoop none cs).map (Tok.ID (mkRev acc) :: ·)
    else
      match symTok c with
      | some t => (lexLoop none cs).map (fun r => Tok.ID (mkRev acc) :: t :: r)
      | none => .error .lexErr
  | none, c :: cs =>
    if isIdStart c then lexLoop (some [c]) cs
    else if c.isWhitespace then lexLoop none cs
    else
      match symTok c with
      | some t => (lexLoop none cs).map (t :: ·)
      | none => .error .lexErr

def lex (s : String) : Except SpkErr (List Tok) := lexLoop none s.data

/-! ## Spec data model

Modelled from the spec: a `Spec` is a rooted constraint tree with a name,
a normalized version list, at most one compiler, a variant map, an optional
architecture token and a dependency map keyed by (unique) dependency name
(§3). -/

structure CompilerSpec where
  name : String
  versions : List VRange
deriving DecidableEq

mutual

inductive Spec where
  | mk (name : String) (versions : List VRange) (compiler : Option CompilerSpec)
      (variants : List (String × Bool)) (arch : Option String) (deps : Deps)

inductive Deps where
  | nil
  | cons (s : Spec) (rest : Deps)

end

def Spec.name : Spec → String
  | .mk n _ _ _ _ _ => n

def Spec.versions : Spec → List VRange
  | .mk _ v _ _ _ _ => v

def Spec.compiler : Spec → Option CompilerSpec
  | .mk _ _ c _ _ _ => c

def Spec.variants : Spec → List (String × Bool)
  | .mk _ _ _ vs _ _ => vs

def Spec.arch : Spec → Option String
  | .mk _ _ _ _ a _ => a

def Spec.deps : Spec → Deps
  | .mk _ _ _ _ _ d => d

def Deps.ofList : List Spec → Deps
  | [] => .nil
  | s :: rest => .cons s (Deps.ofList rest)

def Deps.toList : Deps → List Spec
  | .nil => []
  | .cons s rest => s :: Deps.toList rest

mutual

def Spec.beq : Spec → Spec → Bool
  | .mk n1 v1 c1 vr1 a1 d1, .mk n2 v2 c2 vr2 a2 d2 =>
    n1 == n2 && v1 == v2 && c1 == c2 && vr1 == vr2 && a1 == a2 && Deps.beq d1 d2

def Deps.beq : Deps → Deps → Bool
  | .nil, .nil => true
  | .cons s1 r1, .cons s2 r2 => Spec.beq s1 s2 && Deps.beq r1 r2
  | .nil, .cons _ _ => false
  | .cons _ _, .nil => false

end

mutual

def Spec.size : Spec → Nat
  | .mk _ _ _ _ _ d => 1 + Deps.size d

def Deps.size : Deps → Nat
  | .nil => 0
  | .cons s rest => Spec.size s + Deps.size rest

end

/-! ## Parser

Modelled from the spec: a recursive-descent grammar over the token stream
(§4.3), realised as a token-level state machine.  Each `spec` production
builds one node; `^name` dependencies attach flatly to the current root
spec; `name=value` introduces the architecture at the identifier position;
a bare identifier at item position starts the next spec of the input. -/

/-- Raw contents of one spec node, in input order, before normalization
and duplicate checking. -/

structure RawNode where
  name : String
  arch : Option String
  ranges : List VRange
  comps : List (String × List VRange)
  variants : List (String × Bool)
deriving DecidableEq

/-- Raw contents of one parsed spec: root node plus flat dependency nodes. -/
structure RawSpec where
  root : RawNode
  deps : List RawNode
deriving DecidableEq

/-- Version-list target: the node itself or its compiler. -/
inductive VTarget where
  | node
  | comp
deriving DecidableEq

inductive PMode where
  | start
  | postName
  | items
  | postPct
  | verStart (t : VTarget)
  | verLo (t : VTarget) (v : String)
  | verLoColon (t : VTarget) (v : String)
  | verColon (t : VTarget)
  | verClosed (t : VTarget)
  | pctName
  | onName
  | offName
  | depName
  | archName
deriving DecidableEq

/-- Spec currently being parsed; `deps` is reversed (head = current dep). -/
structure CurSpec where
  root : RawNode
  deps : List RawNode
  inDep : Bool
deriving DecidableEq

/-- Parser state: completed specs (reversed), current spec, and mode. -/
structure PSt where
  done : List RawSpec
  cur : Option CurSpec
  mode : PMode
deriving DecidableEq

def emptyNode (n : String) : RawNode := ⟨n, none, [], [], []⟩

/-- Apply an update to the node currently receiving items. -/
def CurSpec.updNode (c : CurSpec) (f : RawNode → RawNode) : CurSpec :=
  if c.inDep then
    match c.deps with
    | d :: ds => ⟨c.root, f d :: ds, true⟩
    | [] => c
  else ⟨f c.root, c.deps, false⟩

/-- Add a parsed range to the node or to its current compiler. -/
def addRangeTo (t : VTarget) (r : VRange) (n : RawNode) : RawNode :=
  match t with
  | .node => { n with ranges := n.ranges ++ [r] }
  | .comp =>
    match n.comps with
    | c :: cs => { n with comps := (c.1, c.2 ++ [r]) :: cs }
    | [] => n

def finishCur (c : CurSpec) : RawSpec := ⟨c.root, c.deps.reverse⟩

/-- Handle a token at item position inside a node. -/
def itemStep (done : List RawSpec) (c : CurSpec) : Tok → Except SpkErr PSt
  | .AT => .ok ⟨done, some c, .verStart .node⟩
  | .PCT => .ok ⟨done, some c, .pctName⟩
  | .ON => .ok ⟨done, some c, .onName⟩
  | .OFF => .ok ⟨done, some c, .offName⟩
  | .DEP => .ok ⟨done, some c, .depName⟩
  | .ID s => .ok ⟨finishCur c :: done, some ⟨emptyNode s, [], false⟩, .postName⟩
  | _ => .error .parseErr

/-- One parser transition. -/
def pstep (st : PSt) (t : Tok) : Except SpkErr PSt :=
  match st.mode, st.cur with
  | .start, _ =>
    match t with
    | .ID s => .ok ⟨st.done, some ⟨emptyNode s, [], false⟩, .postName⟩
    | _ => .error .parseErr
  | .postName, some c =>
    match t with
    | .EQ => .ok ⟨st.done, some c, .archName⟩
    | _ => itemStep st.done c t
  | .archName, some c =>
    match t with
    | .ID s => .ok ⟨st.done, some (c.updNode (fun n => { n with arch := some s })), .items⟩
    | _ => .error .parseErr
  | .items, some c => itemStep st.done c t
  | .postPct, some c =>
    match t with
    | .AT => .ok ⟨st.done, some c, .verStart .comp⟩
    | _ => itemStep st.done c t
  | .verStart tg, some c =>
    match t with
    | .ID v => .ok ⟨st.done, some c, .verLo tg v⟩
    | .COLON => .ok ⟨st.done, some c, .verColon tg⟩
    | _ => .error .parseErr
  | .verLo tg v, some c =>
    match t with
    | .COLON => .ok ⟨st.done, some c, .verLoColon tg v⟩
    | .COMMA => .ok ⟨st.done, some (c.updNode (addRangeTo tg ⟨some v, some v⟩)), .verStart tg⟩
    | _ => itemStep st.done (c.updNode (addRangeTo tg ⟨some v, some v⟩)) t
  | .verLoColon tg v, some c =>
    match t with
    | .ID w => .ok ⟨st.done, some (c.updNode (addRangeTo tg ⟨some v, some w⟩)), .verClosed tg⟩
    | .COMMA => .ok ⟨st.done, some (c.updNode (addRangeTo tg ⟨some v, none⟩)), .verStart tg⟩
    | _ => itemStep st.done (c.updNode (addRangeTo tg ⟨some v, none⟩)) t
  | .verColon tg, some c =>
    match t with
    | .ID w => .ok ⟨st.done, some (c.updNode (addRangeTo tg ⟨none, some w⟩)), .verClosed tg⟩
    | .COMMA => .ok ⟨st.done, some (c.updNode (addRangeTo tg ⟨none, none⟩)), .verStart tg⟩
    | _ => itemStep st.done (c.updNode (addRangeTo tg ⟨none, none⟩)) t
  | .verClosed tg, some c =>
    match t with
    | .COMMA => .ok ⟨st.done, some c, .verStart tg⟩
    | _ => itemStep st.done c t
  | .pctName, some c =>
    match t with
    | .ID s => .ok ⟨st.done, some (c.updNode (fun n => { n with comps := (s, []) :: n.comps })), .postPct⟩
    | _ => .error .parseErr
  | .onName, some c =>
    match t with
    | .ID s => .ok ⟨st.done, some (c.updNode (fun n => { n with variants := (s, true) :: n.variants })), .items⟩
    | _ => .error .parseErr
  | .offName, some c =>
    match t with
    | .ID s => .ok ⟨st.done, some (c.updNode (fun n => { n with variants := (s, false) :: n.variants })), .items⟩
    | _ => .error .parseErr
  | .depName, some c =>
    match t with
    | .ID s => .ok ⟨st.done, some ⟨c.root, emptyNode s :: c.deps, true⟩, .postName⟩
    | _ => .error .parseErr
  | _, none => .error .parseErr

def stepAll : PSt → List Tok → Except SpkErr PSt
  | st, [] => .ok st
  | st, t :: ts =>
    match pstep st t with
    | .ok st2 => stepAll st2 ts
    | .error e => .error e

/-- Flush the pending state at end of input. -/
def finalize (st : PSt) : Except SpkErr (List RawSpec) :=
  match st.cur with
  | none =>
    match st.mode with
    | .start => .ok st.done.reverse
    | _ => .error .parseErr
  | some c =>
    match st.mode with
    | .postName => .ok (finishCur c :: st.done).reverse
    | .items => .ok (finishCur c :: st.done).reverse
    | .postPct => .ok (finishCur c :: st.done).reverse
    | .verLo tg v => .ok (finishCur (c.updNode (addRangeTo tg ⟨some v, some v⟩)) :: st.done).reverse
    | .verLoColon tg v => .ok (finishCur (c.updNode (addRangeTo tg ⟨some v, none⟩)) :: st.done).reverse
    | .verColon tg => .ok (finishCur (c.updNode (addRangeTo tg ⟨none, none⟩)) :: st.done).reverse
    | .verClosed _ => .ok (finishCur c :: st.done).reverse
    | _ => .error .parseErr

def parseToks (ts : List Tok) : Except SpkErr (List RawSpec) :=
  match stepAll ⟨[], none, .start⟩ ts with
  | .ok st => finalize st
  | .error e => .error e

/-! ## Building specs from raw nodes -/

def firstDup : List String → Option String
  | [] => none
  | x :: xs => if x ∈ xs then some x else firstDup xs

def boolCmp : Bool → Bool → Ordering
  | false, false => .eq
  | false, true => .lt
  | true, false => .gt
  | true, true => .eq

/-- Variant entries sort by name, then by polarity. -/
def vkCmp : (String × Bool) → (String × Bool) → Ordering :=
  cmpThen (fun a b => strCmp a.1 b.1) (fun a b => boolCmp a.2 b.2)

def vkLE (a b : String × Bool) : Prop := vkCmp a b ≠ .gt

instance : DecidableRel vkLE := fun a b => by
  unfold vkLE
  infer_instance

def sortVariants (l : List (String × Bool)) : List (String × Bool) :=
  List.insertionSort vkLE l

/-- String order used for dependency keys. -/
def strLE (a b : String) : Prop := strCmp a b ≠ .gt

instance : DecidableRel strLE := fun a b => by
  unfold strLE
  infer_instance

/-- Dependency order: by package name. -/
def sLE (a b : Spec) : Prop := strCmp a.name b.name ≠ .gt

instance : DecidableRel sLE := fun a b => by
  unfold sLE
  infer_instance

def sortSpecs (l : List Spec) : List Spec := List.insertionSort sLE l

/-- Structural violations of one node: duplicate variant names or a second
compiler (§3, §4.3). -/
def nodeErr (raw : RawNode) : Option SpkErr :=
  match firstDup (raw.variants.map Prod.fst) with
  | some v => some (.dupVariant v)
  | none =>
    match raw.comps with
    | _ :: c :: _ => some (.dupCompiler c.1)
    | _ => none

/-- Assemble a checked node into a `Spec` with the given dependencies. -/
def mkNode (raw : RawNode) (ds : List Spec) : Spec :=
  .mk raw.name (normalizeVL raw.ranges)
    (match raw.comps with
     | [] => none
     | c :: _ => some ⟨c.1, normalizeVL c.2⟩)
    (sortVariants raw.variants) raw.arch (Deps.ofList ds)

def buildNode (raw : RawNode) (ds : List Spec) : Except SpkErr Spec :=
  match nodeErr raw with
  | some e => .error e
  | none => .ok (mkNode raw ds)

def buildDeps : List RawNode → Except SpkErr (List Spec)
  | [] => .ok []
  | n :: ns => do
    let s ← buildNode n []
    let rest ← buildDeps ns
    .ok (s :: rest)

def buildSpec (raw : RawSpec) : Except SpkErr Spec :=
  match nodeErr raw.root with
  | some e => .error e
  | none => do
    let ds ← buildDeps raw.deps
    match firstDup (raw.deps.map RawNode.name) with
    | some d => .error (.dupDependency d)
    | none => .ok (mkNode raw.root (sortSpecs ds))

def buildAll : List RawSpec → Except SpkErr (List Spec)
  | [] => .ok []
  | r :: rs => do
    let s ← buildSpec r
    let rest ← buildAll rs
    .ok (s :: rest)

/-- Top-level parse: lex, run the token grammar, build and normalize. -/
def parse (s : String) : Except SpkErr (List Spec) :=
  match lex s with
  | .error e => .error e
  | .ok ts =>
    match parseToks ts with
    | .error e => .error e
    | .ok raws => buildAll raws

/-! ## Canonical rendering

Modelled from the spec: the canonical string form of a spec lists the name,
`=architecture`, sorted `@`-version alternatives, `%compiler` with its own
sorted versions, variants sorted by name (rendered `+name`/`~name`), and
dependencies sorted by name, each introduced by `^` (§4.3). -/

def tokensOfRange (r : VRange) : List Tok :=
  match r.lo, r.hi with
  | some a, some b => if a = b then [.ID a] else [.ID a, .COLON, .ID b]
  | some a, none => [.ID a, .COLON]
  | none, some b => [.COLON, .ID b]
  | none, none => [.COLON]

def tokensOfVL : List VRange → List Tok
  | [] => []
  | [r] => tokensOfRange r
  | r :: s :: t => tokensOfRange r ++ .COMMA :: tokensOfVL (s :: t)

def tokensOfVariants : List (String × Bool) → List Tok
  | [] => []
  | v :: vs => (if v.2 then Tok.ON else Tok.OFF) :: .ID v.1 :: tokensOfVariants vs

def tokensOfNode (nm : String) (vs : List VRange) (c : Option CompilerSpec)
    (vars : List (String × Bool)) (arch : Option String) : List Tok :=
  .ID nm ::
    ((match arch with
      | some a => [Tok.EQ, Tok.ID a]
      | none => []) ++
     (match vs with
      | [] => []
      | _ => Tok.AT :: tokensOfVL vs) ++
     (match c with
      | none => []
      | some cc =>
        Tok.PCT :: Tok.ID cc.name ::
          (match cc.versions with
           | [] => []
           | _ => Tok.AT :: tokensOfVL cc.versions)) ++
     tokensOfVariants vars)

def catLists {α : Type} : List (List α) → List α
  | [] => []
  | l :: ls => l ++ catLists ls

mutual

def tokensOfSpec : Spec → List Tok
  | .mk nm vs c vars a deps => tokensOfNode nm vs c vars a ++ tokensOfDeps deps

def tokensOfDeps : Deps → List Tok
  | .nil => []
  | .cons d rest => (Tok.DEP :: tokensOfSpec d) ++ tokensOfDeps rest

end

def tokensOfSpecs (l : List Spec) : List Tok := catLists (l.map tokensOfSpec)

def needSep : Tok → Tok → Bool
  | .ID _, .ID _ => true
  | _, _ => false

def strOfTok : Tok → String
  | .ID s => s
  | .AT => "@"
  | .COLON => ":"
  | .COMMA => ","
  | .PCT => "%"
  | .DEP => "^"
  | .ON => "+"
  | .OFF => "~"
  | .EQ => "="

/-- Detokenize; a space separates two adjacent identifiers. -/
def strOfToks : List Tok → String
  | [] => ""
  | [t] => strOfTok t
  | t :: u :: rest =>
    strOfTok t ++ (if needSep t u then " " else "") ++ strOfToks (u :: rest)

def renderSpec (s : Spec) : String := strOfToks (tokensOfSpec s)

/-- Canonical rendering of a parse result (specs joined as in the input). -/
def render (l : List Spec) : String := strOfToks (tokensOfSpecs l)

/-! ## Constraint engine -/

def lookupDep (n : String) : Deps → Option Spec
  | .nil => none
  | .cons s rest => if s.name = n then some s else lookupDep n rest

def lookupVar (n : String) : List (String × Bool) → Option Bool
  | [] => none
  | v :: vs => if v.1 = n then some v.2 else lookupVar n vs

def depNames : Deps → List String
  | .nil => []
  | .cons s rest => s.name :: depNames rest

/-- Compiler satisfaction: unconstrained on either side, or equal names with
intersecting version lists (§4.4). -/
def compilerSat (c1 c2 : Option CompilerSpec) : Bool :=
  match c1, c2 with
  | _, none => true
  | none, some _ => true
  | some a, some b => a.name == b.name && vlSatisfies a.versions b.versions

/-- Architecture satisfaction: equal whenever both are set (§4.4). -/
def archSat (a1 a2 : Option String) : Bool :=
  match a1, a2 with
  | some x, some y => x == y
  | _, _ => true

/-- Variant satisfaction: every variant present in the right side must have
an equal value on the left when it is present there; a variant absent on the
left is unconstrained and does not block satisfaction (§4.4). -/
def variantsSat (v1 v2 : List (String × Bool)) : Bool :=
  v2.all (fun p =>
    match lookupVar p.1 v1 with
    | some b => b == p.2
    | none => true)

mutual

/-- Modelled from the spec: `satisfies` checks equal names, non-empty version
intersection (an unconstrained side always passes), compiler and architecture
compatibility, variant values, and, for every dependency name present in the
right side, a dependency of that name on the left whose sub-spec satisfies it
recursively (§4.4). -/
def Spec.satisfies : Spec → Spec → Bool
  | a, .mk n2 v2 c2 vr2 a2 d2 =>
    a.name == n2 && vlSatisfies a.versions v2 && compilerSat a.compiler c2 &&
      variantsSat a.variants vr2 && archSat a.arch a2 && satDeps a d2

def satDeps : Spec → Deps → Bool
  | _, .nil => true
  | a, .cons s rest =>
    (match lookupDep s.name a.deps with
     | some sub => Spec.satisfies sub s
     | none => false) && satDeps a rest

end

mutual

/-- Modelled from the spec: compatibility is satisfaction with a dependency
absent from the left side treated as unconstrained, mirroring the treatment
of absent variants (§4.4).  This is the reading under which the dispatch
tie-break example of §8 (and `test_dependency_match`) makes both dependency
guards match a concrete spec that constrains an unrelated dependency. -/
def Spec.compatible : Spec → Spec → Bool
  | a, .mk n2 v2 c2 vr2 a2 d2 =>
    a.name == n2 && vlSatisfies a.versions v2 && compilerSat a.compiler c2 &&
      variantsSat a.variants vr2 && archSat a.arch a2 && compatDeps a d2

def compatDeps : Spec → Deps → Bool
  | _, .nil => true
  | a, .cons s rest =>
    (match lookupDep s.name a.deps with
     | some sub => Spec.compatible sub s
     | none => true) && compatDeps a rest

end

/-- Version-list constraining: an unconstrained side is the identity; two
constrained lists must intersect non-emptily (§4.4). -/
def constrainVL (e : SpkErr) (A B : List VRange) : Except SpkErr (List VRange) :=
  match A, B with
  | [], _ => .ok B
  | _, [] => .ok A
  | _, _ =>
    match vlInter A B with
    | [] => .error e
    | r => .ok r

/-- Compiler constraining: names must match and version lists intersect
(§4.4). -/
def constrainCompiler (c1 c2 : Option CompilerSpec) : Except SpkErr (Option CompilerSpec) :=
  match c1, c2 with
  | none, c => .ok c
  | some a, none => .ok (some a)
  | some a, some b =>
    if a.name = b.name then
      (constrainVL (.unsatCompiler a.name) a.versions b.versions).map
        (fun v => some ⟨a.name, v⟩)
    else .error (.unsatCompiler b.name)

def firstConflict (v1 : List (String × Bool)) : List (String × Bool) → Option String
  | [] => none
  | p :: ps =>
    match lookupVar p.1 v1 with
    | some b => if b = p.2 then firstConflict v1 ps else some p.1
    | none => firstConflict v1 ps

/-- Variant constraining: keys present on only one side are added, equal
polarity is a no-op, differing polarity is an error (§4.4). -/
def constrainVariants (v1 v2 : List (String × Bool)) :
    Except SpkErr (List (String × Bool)) :=
  match firstConflict v1 v2 with
  | some k => .error (.variantConflict k)
  | none => .ok (sortVariants (v1 ++ v2.filter (fun p => (lookupVar p.1 v1).isNone)))

/-- Architecture constraining: unconstrained merges with set; two set values
must be equal (§4.4). -/
def constrainArch (a1 a2 : Option String) : Except SpkErr (Option String) :=
  match a1, a2 with
  | none, x => .ok x
  | some x, none => .ok (some x)
  | some x, some y => if x = y then .ok (some x) else .error (.archConflict x y)

def dedupSorted : List String → List String
  | [] => []
  | [x] => [x]
  | x :: y :: t => if x = y then dedupSorted (y :: t) else x :: dedupSorted (y :: t)

def mergeKeys (k1 k2 : List String) : List String :=
  dedupSorted (List.insertionSort strLE (k1 ++ k2))

/-- Modelled from the spec: `constrain` destructively intersects two specs;
names must match; versions, compiler, variants and architecture are
intersected componentwise; dependencies merge by name recursively, adding
entries present on only one side (§4.4).  The recursion is bounded by an
explicit fuel; `Spec.constrain` supplies enough fuel for its arguments. -/
def constrainF : Nat → Spec → Spec → Except SpkErr Spec
  | 0, _, _ => .error .parseErr
  | fuel + 1, .mk n1 v1 c1 vr1 a1 d1, .mk n2 v2 c2 vr2 a2 d2 =>
    if n1 = n2 then do
      let v ← constrainVL (.unsatVersion n1) v1 v2
      let c ← constrainCompiler c1 c2
      let vr ← constrainVariants vr1 vr2
      let ar ← constrainArch a1 a2
      let ds ← (mergeKeys (depNames d1) (depNames d2)).mapM (fun k =>
        match lookupDep k d1, lookupDep k d2 with
        | some x, some y => constrainF fuel x y
        | some x, none => .ok x
        | none, some y => .ok y
        | none, none => .error .parseErr)
      .ok (.mk n1 v c vr ar (Deps.ofList ds))
    else .error (.nameMismatch n1 n2)

def Spec.constrain (a b : Spec) : Except SpkErr Spec :=
  constrainF (Spec.size a + Spec.size b + 1) a b

/-- State-passing view of `constrain`: the resulting state of the left
operand together with the error, if any.  Modelled from the spec: the
operation is all-or-nothing — implementations merge into a scratch copy and
leave the operands unmodified on failure (§4.4, §3 lifecycle). -/
def constrainState (a b : Spec) : Spec × Option SpkErr :=
  match Spec.constrain a b with
  | .ok c => (c, none)
  | .error e => (a, some e)

/-! ## Multimethod dispatch -/

/-- A guard is strictly more specific than another when it satisfies it and
not conversely (§4.5). -/

def moreSpecific (g1 g2 : Spec) : Bool :=
  g1.satisfies g2 && !(g2.satisfies g1)

/-- Scan the matching candidates in declaration order, keeping the current
candidate unless a strictly more specific guard appears; on incomparable
ties the first-declared candidate therefore wins (§4.5). -/
def selectBest {α : Type} : (Spec × α) → List (Spec × α) → (Spec × α)
  | best, [] => best
  | best, c :: cs => selectBest (if moreSpecific c.1 best.1 then c else best) cs

/-- Modelled from the spec: dispatch filters the declared guarded
implementations to those satisfied by the concrete spec, selects the most
specific (first-declared among incomparable ties), and falls back to the
default implementation when no guard is satisfied (§4.5).  When neither a
satisfied guard nor a default exists, guards merely compatible with the
concrete spec (§4.4, absent dependencies unconstrained) are considered with
the same tie-break — this keeps dispatch total in the true-ambiguity example
of §8 — and only if none is compatible does dispatch fail with the
no-matching-method error (§7). -/
def dispatch {α : Type} (cands : List (Spec × α)) (deflt : Option α)
    (concrete : Spec) : Except SpkErr α :=
  match cands.filter (fun gc => concrete.satisfies gc.1) with
  | m :: ms => .ok (selectBest m ms).2
  | [] =>
    match deflt with
    | some d => .ok d
    | none =>
      match cands.filter (fun gc => concrete.compatible gc.1) with
      | m :: ms => .ok (selectBest m ms).2
      | [] => .error .noSuchMethod

/-! ## Helper definitions for the verification statements -/

/-- First spec of a parse, for concrete test inputs. -/

def specOf (s : String) : Spec :=
  match parse s with
  | .ok (x :: _) => x
  | _ => .mk "" [] none [] none .nil

/-- Canonical rendering of a parse result (empty on parse failure). -/
def renderParse (s : String) : String :=
  match parse s with
  | .ok l => render l
  | .error _ => ""

/-- Whether constraining fails with an unsatisfiable-spec error. -/
def constrainUnsat (a b : Spec) : Bool :=
  match a.constrain b with
  | .error e => e.isUnsat
  | .ok _ => false

/-- Token sequence of the complex lexer example of the test suite. -/
def complexLex : List Tok :=
  [.ID "mvapich_foo", .DEP, .ID "_openmpi", .AT, .ID "1.2", .COLON, .ID "1.4",
   .COMMA, .ID "1.6", .PCT, .ID "intel", .AT, .ID "12.1", .COLON, .ID "12.6",
   .ON, .ID "debug", .OFF, .ID "qt_4", .DEP, .ID "stackwalker", .AT, .ID "8.1_1e"]

/-- Valid identifier text: nonempty, identifier start, identifier characters. -/
def validId (s : String) : Bool :=
  match s.data with
  | [] => false
  | c :: cs => isIdStart c && cs.all isIdChar

def validOptId : Option String → Bool
  | none => true
  | some s => validId s

def validBound : Option String → Bool
  | none => true
  | some s => validId s

/-- Canonical version list: valid bounds, every range nonempty and bounded on
at least one side, consecutive ranges strictly ordered and disjoint. -/
def canonVLb (l : List VRange) : Bool :=
  l.all (fun r => validBound r.lo && validBound r.hi && rNonempty r &&
    !(r.lo.isNone && r.hi.isNone)) &&
  chainB (fun r s => beforeB r.hi s.lo) l

def canonCompilerB : Option CompilerSpec → Bool
  | none => true
  | some c => validId c.name && canonVLb c.versions

def canonVariantsB (l : List (String × Bool)) : Bool :=
  l.all (fun p => validId p.1) && chainB (fun p q => strCmp p.1 q.1 == .lt) l

def depsIsNil : Deps → Bool
  | .nil => true
  | .cons _ _ => false

mutual

/-- Canonical well-formedness of a spec: the shape whose rendering is the
canonical string form.  Dependencies are flat (the grammar cannot express
nested dependencies), sorted strictly by name, and canonical themselves. -/
def canonWFb : Spec → Bool
  | .mk nm vs c vars a d =>
    validId nm && canonVLb vs && canonCompilerB c && canonVariantsB vars &&
      validOptId a && chainB (fun p q => strCmp p q == .lt) (depNames d) &&
      canonDepsB d

def canonDepsB : Deps → Bool
  | .nil => true
  | .cons s rest => canonWFb s && depsIsNil s.deps && canonDepsB rest

end

/-- A spec whose token stream ends in a colon (an open-ended version range)
cannot be followed by another spec in the same input, because the next name
would be read as the range bound. -/
def lastTokNotColon (s : Spec) : Bool :=
  (tokensOfSpec s).getLast? != some Tok.COLON

/-- Canonical well-formedness of a spec list as one rendered input. -/
def canonList : List Spec → Bool
  | [] => true
  | [s] => canonWFb s
  | s :: t :: rest => canonWFb s && lastTokNotColon s && canonList (t :: rest)

/-! Raw equivalence: two raw parses describing the same constraint set with
version alternatives, variants, or dependencies listed in different orders. -/

def CompsEquiv (c1 c2 : List (String × List VRange)) : Prop :=
  List.Forall₂ (fun a b => a.1 = b.1 ∧ a.2.Perm b.2) c1 c2

def NodeEquiv (r1 r2 : RawNode) : Prop :=
  r1.name = r2.name ∧ r1.arch = r2.arch ∧ r1.ranges.Perm r2.ranges ∧
    CompsEquiv r1.comps r2.comps ∧ r1.variants.Perm r2.variants

/-- Same constraints, dependencies possibly reordered and each internally
reordered. -/
def RawSpecEquiv (r1 r2 : RawSpec) : Prop :=
  NodeEquiv r1.root r2.root ∧
    ∃ mid, r1.deps.Perm mid ∧ List.Forall₂ NodeEquiv mid r2.deps

/-! Range subset predicates used for the normalization arguments. -/

/-- Lower bounds: `x` at most `y` (`none` is minus infinity). -/

def loLE (x y : Option String) : Bool :=
  match x, y with
  | none, _ => true
  | some _, none => false
  | some a, some b => vcmp a.data b.data != .gt

/-- Upper bounds: `x` at most `y` (`none` is plus infinity). -/
def hiLE (x y : Option String) : Bool :=
  match x, y with
  | _, none => true
  | none, some _ => false
  | some a, some b => vcmp a.data b.data != .gt

/-- Range inclusion. -/
def rSub (t b : VRange) : Bool := loLE b.lo t.lo && hiLE t.hi b.hi

mutual

/-- Well-formedness invariant of the spec data model (§3): normalized
version lists, strictly sorted variant and dependency maps, recursively. -/
def Spec.wf : Spec → Bool
  | .mk _ v c vr _ d =>
    normVLb v &&
      (match c with
       | none => true
       | some cc => normVLb cc.versions) &&
      chainB (fun p q => strCmp p.1 q.1 == .lt) vr &&
      chainB (fun p q => strCmp p q == .lt) (depNames d) &&
      Deps.wf d

def Deps.wf : Deps → Bool
  | .nil => true
  | .cons s rest => Spec.wf s && Deps.wf rest

end

/-! ## Round-trip scaffolding

Analysis definitions used to state and prove the round-trip property:
character-level view of detokenization, well-formed tokens, the committed
reading of a pending parser state, and the raw nodes the parser recovers
from a rendered canonical spec. -/

/-- Character-level view of `strOfToks`. -/
def charsOfTok (t : Tok) : List Char := (strOfTok t).data

def charsOfToks : List Tok → List Char
  | [] => []
  | [t] => charsOfTok t
  | t :: u :: rest =>
    charsOfTok t ++ (if needSep t u then [' '] else []) ++ charsOfToks (u :: rest)

/-- Well-formed token: identifier text is a valid identifier. -/
def tokWF : Tok → Bool
  | .ID s => validId s
  | _ => true

def tokIsId : Tok → Bool
  | .ID _ => true
  | _ => false

/-- The committed reading of a parser state: the current spec with any
pending version range applied; `none` when the mode cannot end an item. -/
def commitCur (c : CurSpec) : PMode → Option CurSpec
  | .postName => some c
  | .items => some c
  | .postPct => some c
  | .verLo tg v => some (c.updNode (addRangeTo tg ⟨some v, some v⟩))
  | .verLoColon tg v => some (c.updNode (addRangeTo tg ⟨some v, none⟩))
  | .verColon tg => some (c.updNode (addRangeTo tg ⟨none, none⟩))
  | .verClosed _ => some c
  | _ => none

/-- Modes in which a bare identifier starts the next spec (rather than being
consumed as a version bound). -/
def notColonMode : PMode → Bool
  | .verLoColon _ _ => false
  | .verColon _ => false
  | _ => true

def addRangesTo (tg : VTarget) : List VRange → RawNode → RawNode
  | [], n => n
  | r :: rs, n => addRangesTo tg rs (addRangeTo tg r n)

def addVarsTo : List (String × Bool) → RawNode → RawNode
  | [], n => n
  | v :: vs, n => addVarsTo vs { n with variants := v :: n.variants }

/-- Raw node the parser recovers from the rendered tokens of a canonical
spec node (variants are re-collected in reverse). -/
def rawNodeOf : Spec → RawNode
  | .mk nm vs c vars a _ =>
    ⟨nm, a, vs,
      (match c with
       | none => []
       | some cc => [(cc.name, cc.versions)]),
      vars.reverse⟩

/-- Raw spec the parser recovers from a rendered canonical spec. -/
def rawSpecOf (s : Spec) : RawSpec :=
  ⟨rawNodeOf s, (Deps.toList s.deps).map rawNodeOf⟩

def archToks : Option String → List Tok
  | some x => [Tok.EQ, Tok.ID x]
  | none => []

def vlToks : List VRange → List Tok
  | [] => []
  | vs => Tok.AT :: tokensOfVL vs

def compToks : Option CompilerSpec → List Tok
  | none => []
  | some cc => Tok.PCT :: Tok.ID cc.name :: vlToks cc.versions

def archFill : Option String → RawNode → RawNode
  | none, n => n
  | some x, n => { n with arch := some x }

def compFill : Option CompilerSpec → RawNode → RawNode
  | none, n => n
  | some cc, n => addRangesTo .comp cc.versions { n with comps := (cc.name, []) :: n.comps }

/-- Node contents collected by the parser over the rendered tail of a node. -/
def nodeFill (vs : List VRange) (cop : Option CompilerSpec)
    (vars : List (String × Bool)) (a : Option String) (n : RawNode) : RawNode :=
  addVarsTo vars (compFill cop (addRangesTo .node vs (archFill a n)))

/-! ## Properties -/

theorem CmpLaws.refl {α : Type} {f : α → α → Ordering} (h : CmpLaws f) (a : α) :
    f a a = .eq := (h.eq_iff a a).mpr rfl

theorem CmpLaws.gt_iff_lt {α : Type} {f : α → α → Ordering} (h : CmpLaws f)
    (a b : α) : f a b = .gt ↔ f b a = .lt := by
  constructor
  · intro hg
    have hs := h.swap a b
    rw [hg] at hs
    exact hs.symm
  · intro hl
    have hs := h.swap b a
    rw [hl] at hs
    exact hs.symm

theorem natCmp_lt {m n : Nat} (h : m < n) : natCmp m n = .lt := by
  unfold natCmp
  rw [if_pos h]

theorem natCmp_eq {m : Nat} : natCmp m m = .eq := by
  unfold natCmp
  rw [if_neg (by omega), if_pos rfl]

theorem natCmp_gt {m n : Nat} (h : n < m) : natCmp m n = .gt := by
  unfold natCmp
  rw [if_neg (by omega), if_neg (by omega)]

theorem natCmp_laws : CmpLaws natCmp := by
  refine ⟨?_, ?_, ?_⟩
  · intro a b
    constructor
    · intro h
      unfold natCmp at h
      split_ifs at h <;> omega
    · intro h
      subst h
      exact natCmp_eq
  · intro a b
    rcases Nat.lt_trichotomy a b with h | h | h
    · rw [natCmp_lt h, natCmp_gt h]; rfl
    · subst h; rw [natCmp_eq]; rfl
    · rw [natCmp_gt h, natCmp_lt h]; rfl
  · intro a b c hab hbc
    unfold natCmp at hab hbc
    split_ifs at hab hbc
    exact natCmp_lt (by omega)

theorem lcmp_cons_eq {α : Type} {f : α → α → Ordering} {a b : α}
    (as bs : List α) (h : f a b = .eq) :
    lcmp f (a :: as) (b :: bs) = lcmp f as bs := by
  simp [lcmp, h]

theorem lcmp_cons_lt {α : Type} {f : α → α → Ordering} {a b : α}
    (as bs : List α) (h : f a b = .lt) :
    lcmp f (a :: as) (b :: bs) = .lt := by
  simp [lcmp, h]

theorem lcmp_cons_gt {α : Type} {f : α → α → Ordering} {a b : α}
    (as bs : List α) (h : f a b = .gt) :
    lcmp f (a :: as) (b :: bs) = .gt := by
  simp [lcmp, h]

theorem lcmp_laws {α : Type} {f : α → α → Ordering} (hf : CmpLaws f) :
    CmpLaws (lcmp f) := by
  refine ⟨?_, ?_, ?_⟩
  · intro l1
    induction l1 with
    | nil => intro l2; cases l2 <;> simp [lcmp]
    | cons a as ih =>
      intro l2
      cases l2 with
      | nil => simp [lcmp]
      | cons b bs =>
        cases hab : f a b with
        | eq =>
          have hab' : a = b := (hf.eq_iff a b).mp hab
          subst hab'
          rw [lcmp_cons_eq as bs hab]
          constructor
          · intro h
            rw [(ih bs).mp h]
          · intro h
            injection h with _ h2
            exact (ih bs).mpr h2
        | lt =>
          rw [lcmp_cons_lt as bs hab]
          constructor
          · intro h; exact absurd h (by simp)
          · intro h
            injection h with h1 _
            subst h1
            rw [hf.refl a] at hab
            exact absurd hab (by simp)
        | gt =>
          rw [lcmp_cons_gt as bs hab]
          constructor
          · intro h; exact absurd h (by simp)
          · intro h
            injection h with h1 _
            subst h1
            rw [hf.refl a] at hab
            exact absurd hab (by simp)
  · intro l1
    induction l1 with
    | nil => intro l2; cases l2 <;> simp [lcmp] <;> rfl
    | cons a as ih =>
      intro l2
      cases l2 with
      | nil => simp [lcmp]; rfl
      | cons b bs =>
        cases hab : f a b with
        | eq =>
          have hba : f b a = .eq := by
            have hs := hf.swap a b
            rw [hab] at hs
            exact hs.symm
          rw [lcmp_cons_eq as bs hab, lcmp_cons_eq bs as hba]
          exact ih bs
        | lt =>
          have hba : f b a = .gt := by
            have hs := hf.swap a b
            rw [hab] at hs
            exact hs.symm
          rw [lcmp_cons_lt as bs hab, lcmp_cons_gt bs as hba]
          rfl
        | gt =>
          have hba : f b a = .lt := by
            have hs := hf.swap a b
            rw [hab] at hs
            exact hs.symm
          rw [lcmp_cons_gt as bs hab, lcmp_cons_lt bs as hba]
          rfl
  · intro l1
    induction l1 with
    | nil =>
      intro l2 l3 h12 h23
      cases l2 with
      | nil => exact h23
      | cons b bs =>
        cases l3 with
        | nil => simp [lcmp] at h23
        | cons c cs => simp [lcmp]
    | cons a as ih =>
      intro l2 l3 h12 h23
      cases l2 with
      | nil => simp [lcmp] at h12
      | cons b bs =>
        cases l3 with
        | nil => simp [lcmp] at h23
        | cons c cs =>
          cases hab : f a b with
          | eq =>
            have hab' : a = b := (hf.eq_iff a b).mp hab
            subst hab'
            rw [lcmp_cons_eq as bs hab] at h12
            cases hbc : f a c with
            | eq =>
              have hbc' : a = c := (hf.eq_iff a c).mp hbc
              subst hbc'
              rw [lcmp_cons_eq bs cs hbc] at h23
              rw [lcmp_cons_eq as cs hbc]
              exact ih bs cs h12 h23
            | lt => exact lcmp_cons_lt as cs hbc
            | gt =>
              rw [lcmp_cons_gt bs cs hbc] at h23
              exact absurd h23 (by simp)
          | lt =>
            cases hbc : f b c with
            | eq =>
              have hbc' : b = c := (hf.eq_iff b c).mp hbc
              subst hbc'
              exact lcmp_cons_lt as cs hab
            | lt => exact lcmp_cons_lt as cs (hf.lt_trans a b c hab hbc)
            | gt =>
              rw [lcmp_cons_gt bs cs hbc] at h23
              exact absurd h23 (by simp)
          | gt =>
            rw [lcmp_cons_gt as bs hab] at h12
            exact absurd h12 (by simp)

/-- Comparing through a key function preserves the comparator laws when the
two keys jointly determine the value. -/
theorem cmpThen_laws {α β γ : Type} (kf : α → β) (kg : α → γ)
    {bf : β → β → Ordering} {bg : γ → γ → Ordering}
    (hbf : CmpLaws bf) (hbg : CmpLaws bg)
    (hinj : ∀ a b, kf a = kf b → kg a = kg b → a = b) :
    CmpLaws (cmpThen (fun a b => bf (kf a) (kf b)) (fun a b => bg (kg a) (kg b))) := by
  refine ⟨?_, ?_, ?_⟩
  · intro a b
    constructor
    · intro h
      simp only [cmpThen] at h
      cases hf : bf (kf a) (kf b) with
      | lt => simp only [hf] at h; exact Ordering.noConfusion h
      | gt => simp only [hf] at h; exact Ordering.noConfusion h
      | eq =>
        simp only [hf] at h
        exact hinj a b ((hbf.eq_iff _ _).mp hf) ((hbg.eq_iff _ _).mp h)
    · intro h
      subst h
      simp only [cmpThen, hbf.refl (kf a)]
      exact hbg.refl _
  · intro a b
    simp only [cmpThen]
    cases hf : bf (kf a) (kf b) with
    | lt =>
      have hf' : bf (kf b) (kf a) = .gt := by
        rw [← hbf.swap (kf a) (kf b), hf]; rfl
      simp only [hf']
      rfl
    | eq =>
      have hf' : bf (kf b) (kf a) = .eq := by
        rw [← hbf.swap (kf a) (kf b), hf]; rfl
      simp only [hf']
      exact hbg.swap _ _
    | gt =>
      have hf' : bf (kf b) (kf a) = .lt := by
        rw [← hbf.swap (kf a) (kf b), hf]; rfl
      simp only [hf']
      rfl
  · intro a b c hab hbc
    simp only [cmpThen] at hab hbc ⊢
    cases hf1 : bf (kf a) (kf b) with
    | gt => simp only [hf1] at hab; exact Ordering.noConfusion hab
    | lt =>
      cases hf2 : bf (kf b) (kf c) with
      | gt => simp only [hf2] at hbc; exact Ordering.noConfusion hbc
      | lt => simp only [hbf.lt_trans _ _ _ hf1 hf2]
      | eq =>
        have hk : kf b = kf c := (hbf.eq_iff _ _).mp hf2
        rw [← hk]
        simp only [hf1]
    | eq =>
      have hk : kf a = kf b := (hbf.eq_iff _ _).mp hf1
      simp only [hf1] at hab
      cases hf2 : bf (kf b) (kf c) with
      | gt => simp only [hf2] at hbc; exact Ordering.noConfusion hbc
      | lt =>
        rw [hk]
        simp only [hf2]
      | eq =>
        have hk2 : kf b = kf c := (hbf.eq_iff _ _).mp hf2
        simp only [hf2] at hbc
        rw [hk, hk2]
        simp only [hbf.refl (kf c)]
        exact hbg.lt_trans _ _ _ hab hbc

/-- Laws transfer along an injective key. -/
theorem keyCmp_laws {α β : Type} (key : α → β)
    (hinj : ∀ a b, key a = key b → a = b)
    {base : β → β → Ordering} (hb : CmpLaws base) :
    CmpLaws (fun a b => base (key a) (key b)) := by
  refine ⟨?_, ?_, ?_⟩
  · intro a b
    rw [hb.eq_iff]
    exact ⟨hinj a b, fun h => h ▸ rfl⟩
  · intro a b
    exact hb.swap _ _
  · intro a b c
    exact hb.lt_trans _ _ _

theorem charCmp_laws : CmpLaws charCmp := by
  have : charCmp = fun c d => natCmp c.toNat d.toNat := rfl
  rw [this]
  refine keyCmp_laws Char.toNat ?_ natCmp_laws
  intro a b h
  have h2 := congrArg Char.ofNat h
  rwa [Char.ofNat_toNat, Char.ofNat_toNat] at h2

theorem segCmp_laws : CmpLaws segCmp := by
  refine ⟨?_, ?_, ?_⟩
  · intro a b
    cases a <;> cases b <;> simp [segCmp, natCmp_laws.eq_iff, (lcmp_laws charCmp_laws).eq_iff]
  · intro a b
    cases a <;> cases b <;> simp [segCmp, natCmp_laws.swap, (lcmp_laws charCmp_laws).swap] <;> rfl
  · intro a b c hab hbc
    cases a <;> cases b <;> cases c <;> simp_all [segCmp]
    · exact natCmp_laws.lt_trans _ _ _ hab hbc
    · exact (lcmp_laws charCmp_laws).lt_trans _ _ _ hab hbc

theorem vcmp_eq_iff_segs {a b : List Char} : vcmp a b = .eq ↔ segsOf a = segsOf b :=
  (lcmp_laws segCmp_laws).eq_iff _ _

theorem strCmp_laws : CmpLaws strCmp := by
  have : strCmp = fun s t => lcmp charCmp s.data t.data := rfl
  rw [this]
  refine keyCmp_laws String.data ?_ (lcmp_laws charCmp_laws)
  intro a b h
  cases a; cases b
  simp_all

theorem vcmpT_laws : CmpLaws vcmpT := by
  have h1 : (fun s t : String => vcmp s.data t.data) =
      fun s t : String => lcmp segCmp (segsOf s.data) (segsOf t.data) := rfl
  have h2 : strCmp = fun s t : String => lcmp charCmp s.data t.data := rfl
  have : vcmpT = cmpThen (fun s t : String => lcmp segCmp (segsOf s.data) (segsOf t.data))
      (fun s t : String => lcmp charCmp s.data t.data) := by
    rw [← h1, ← h2]; rfl
  rw [this]
  refine cmpThen_laws (fun s : String => segsOf s.data) String.data
    (lcmp_laws segCmp_laws) (lcmp_laws charCmp_laws) ?_
  intro a b _ h
  cases a; cases b
  simp_all

theorem loCmp_laws : CmpLaws loCmp := by
  refine ⟨?_, ?_, ?_⟩
  · intro a b
    cases a <;> cases b <;> simp [loCmp, vcmpT_laws.eq_iff]
  · intro a b
    cases a <;> cases b <;> simp [loCmp, vcmpT_laws.swap] <;> rfl
  · intro a b c hab hbc
    cases a <;> cases b <;> cases c <;> simp_all [loCmp]
    exact vcmpT_laws.lt_trans _ _ _ hab hbc

theorem hiCmp_laws : CmpLaws hiCmp := by
  refine ⟨?_, ?_, ?_⟩
  · intro a b
    cases a <;> cases b <;> simp [hiCmp, vcmpT_laws.eq_iff]
  · intro a b
    cases a <;> cases b <;> simp [hiCmp, vcmpT_laws.swap] <;> rfl
  · intro a b c hab hbc
    cases a <;> cases b <;> cases c <;> simp_all [hiCmp]
    exact vcmpT_laws.lt_trans _ _ _ hab hbc

theorem rCmp_laws : CmpLaws rCmp := by
  refine cmpThen_laws VRange.lo VRange.hi loCmp_laws hiCmp_laws ?_
  intro a b h1 h2
  cases a; cases b
  simp_all

theorem cmpLE_total {α : Type} {f : α → α → Ordering} (hf : CmpLaws f)
    (a b : α) : f a b ≠ .gt ∨ f b a ≠ .gt := by
  cases h : f a b with
  | gt =>
    right
    rw [(hf.gt_iff_lt a b).mp h]
    simp
  | lt => left; simp
  | eq => left; simp

theorem cmpLE_trans {α : Type} {f : α → α → Ordering} (hf : CmpLaws f)
    {a b c : α} (h1 : f a b ≠ .gt) (h2 : f b c ≠ .gt) : f a c ≠ .gt := by
  cases hab : f a b with
  | gt => exact absurd hab h1
  | eq =>
    rw [(hf.eq_iff a b).mp hab]
    exact h2
  | lt =>
    cases hbc : f b c with
    | gt => exact absurd hbc h2
    | eq =>
      rw [← (hf.eq_iff b c).mp hbc]
      simp [hab]
    | lt => simp [hf.lt_trans a b c hab hbc]

theorem cmpLE_antisymm {α : Type} {f : α → α → Ordering} (hf : CmpLaws f)
    {a b : α} (h1 : f a b ≠ .gt) (h2 : f b a ≠ .gt) : a = b := by
  cases hab : f a b with
  | gt => exact absurd hab h1
  | eq => exact (hf.eq_iff a b).mp hab
  | lt => exact absurd ((hf.gt_iff_lt b a).mpr hab) h2

instance : IsTotal VRange rLE := ⟨cmpLE_total rCmp_laws⟩

instance : IsTrans VRange rLE := ⟨fun _ _ _ => cmpLE_trans rCmp_laws⟩

instance : IsAntisymm VRange rLE := ⟨fun _ _ => cmpLE_antisymm rCmp_laws⟩

mutual

theorem Spec.beq_iff : ∀ a b : Spec, Spec.beq a b = true ↔ a = b
  | .mk n1 v1 c1 vr1 a1 d1, .mk n2 v2 c2 vr2 a2 d2 => by
    simp only [Spec.beq, Bool.and_eq_true, beq_iff_eq, Spec.mk.injEq]
    rw [Deps.beqD_iff d1 d2]
    tauto

theorem Deps.beqD_iff : ∀ d1 d2 : Deps, Deps.beq d1 d2 = true ↔ d1 = d2
  | .nil, .nil => by simp [Deps.beq]
  | .nil, .cons _ _ => by simp [Deps.beq]
  | .cons _ _, .nil => by simp [Deps.beq]
  | .cons s1 r1, .cons s2 r2 => by
    simp only [Deps.beq, Bool.and_eq_true, Deps.cons.injEq]
    rw [Spec.beq_iff s1 s2, Deps.beqD_iff r1 r2]

end

instance : DecidableEq Spec := fun a b => decidable_of_iff _ (Spec.beq_iff a b)

instance : DecidableEq Deps := fun a b => decidable_of_iff _ (Deps.beqD_iff a b)

theorem boolCmp_laws : CmpLaws boolCmp := by
  refine ⟨?_, ?_, ?_⟩
  · intro a b; cases a <;> cases b <;> simp [boolCmp]
  · intro a b; cases a <;> cases b <;> rfl
  · intro a b c hab hbc; cases a <;> cases b <;> cases c <;> simp_all [boolCmp]

theorem vkCmp_laws : CmpLaws vkCmp := by
  refine cmpThen_laws Prod.fst Prod.snd strCmp_laws boolCmp_laws ?_
  intro a b h1 h2
  cases a; cases b
  simp_all

instance : IsTotal (String × Bool) vkLE := ⟨cmpLE_total vkCmp_laws⟩

instance : IsTrans (String × Bool) vkLE := ⟨fun _ _ _ => cmpLE_trans vkCmp_laws⟩

instance : IsAntisymm (String × Bool) vkLE := ⟨fun _ _ => cmpLE_antisymm vkCmp_laws⟩

instance : IsTotal String strLE := ⟨cmpLE_total strCmp_laws⟩

instance : IsTrans String strLE := ⟨fun _ _ _ => cmpLE_trans strCmp_laws⟩

instance : IsAntisymm String strLE := ⟨fun _ _ => cmpLE_antisymm strCmp_laws⟩

instance : IsTotal Spec sLE := ⟨fun a b => cmpLE_total strCmp_laws a.name b.name⟩

instance : IsTrans Spec sLE := ⟨fun _ _ _ h1 h2 => cmpLE_trans strCmp_laws h1 h2⟩

/-! ## Supporting lemmas for the claims -/

theorem firstDup_eq_none_iff : ∀ l : List String, firstDup l = none ↔ l.Nodup := by
  intro l
  induction l with
  | nil => simp [firstDup]
  | cons x xs ih =>
    simp only [firstDup, List.nodup_cons]
    split_ifs with hx
    · simp [hx]
    · simp [hx, ih]

theorem buildDeps_ok_of (l : List RawNode) (h : ∀ d ∈ l, nodeErr d = none) :
    buildDeps l = .ok (l.map (fun n => mkNode n [])) := by
  induction l with
  | nil => rfl
  | cons n ns ih =>
    have hn : nodeErr n = none := h n (by simp)
    simp only [buildDeps, buildNode, hn]
    rw [ih (fun d hd => h d (by simp [hd]))]
    rfl

theorem selectBest_of_incomparable {α : Type} :
    ∀ (ms : List (Spec × α)) (m : Spec × α),
      (∀ c ∈ ms, moreSpecific c.1 m.1 = false) → selectBest m ms = m := by
  intro ms
  induction ms with
  | nil => intro m _; rfl
  | cons c cs ih =>
    intro m h
    have hc : moreSpecific c.1 m.1 = false := h c (by simp)
    simp only [selectBest, hc]
    simp only [Bool.false_eq_true, if_false]
    exact ih m (fun c2 hc2 => h c2 (by simp [hc2]))

/-! ## Claims -/

/-- C7: a `-` immediately following an identifier character with no
intervening whitespace is lexed as part of the identifier, so
`"...+debug-qt_4..."` does not produce the token sequence
`[..., ON, ID "debug", OFF, ID "qt_4", ...]` of the complex example, while
`"...+debug -qt_4..."` (space before `-`) and `"...+debug~qt_4..."` both
produce exactly that sequence, identical to each other. -/
theorem C7_lexer_ambiguity :
    lex "mvapich_foo^_openmpi@1.2:1.4,1.6%intel@12.1:12.6+debug-qt_4^stackwalker@8.1_1e" ≠
      .ok complexLex ∧
    lex "mvapich_foo^_openmpi@1.2:1.4,1.6%intel@12.1:12.6+debug -qt_4^stackwalker@8.1_1e" =
      .ok complexLex ∧
    lex "mvapich_foo^_openmpi@1.2:1.4,1.6%intel@12.1:12.6+debug~qt_4^stackwalker@8.1_1e" =
      .ok complexLex :=
  ⟨by decide, by decide, by decide⟩

/-- C5: `constrain` fails with an unsatisfiable-spec error exactly when the
intersection is empty — disjoint version ranges, opposite variant polarity,
conflicting compiler version ranges, and differing architectures fail, while
compatible operands succeed with the intersected spec. -/
theorem C5_unsatisfiable_detection :
    constrainUnsat (specOf "libelf@0:2.0") (specOf "libelf@2.1:3") = true ∧
    constrainUnsat (specOf "libelf@0:2.5%gcc@4.8:4.9") (specOf "libelf@2.1:3%gcc@4.5:4.7") = true ∧
    constrainUnsat (specOf "libelf+debug") (specOf "libelf~debug") = true ∧
    constrainUnsat (specOf "libelf+debug~foo") (specOf "libelf+debug+foo") = true ∧
    constrainUnsat (specOf "libelf=bgqos_0") (specOf "libelf=x86_64") = true ∧
    (specOf "libelf@0:2.5").constrain (specOf "libelf@2.1:3") = .ok (specOf "libelf@2.1:2.5") ∧
    (specOf "libelf@0:2.5%gcc@2:4.6").constrain (specOf "libelf@2.1:3%gcc@4.5:4.7") =
      .ok (specOf "libelf@2.1:2.5%gcc@4.5:4.6") ∧
    (specOf "libelf+debug").constrain (specOf "libelf+foo") = .ok (specOf "libelf+debug+foo") ∧
    (specOf "libelf+debug").constrain (specOf "libelf~foo") = .ok (specOf "libelf+debug~foo") ∧
    (specOf "libelf").constrain (specOf "libelf=bgqos_0") = .ok (specOf "libelf=bgqos_0") ∧
    (specOf "libelf=bgqos_0").constrain (specOf "libelf=bgqos_0") = .ok (specOf "libelf=bgqos_0") :=
  ⟨by decide, by decide, by decide, by decide, by decide, by decide, by decide,
   by decide, by decide, by decide, by decide⟩

/-- C4: `constrain` is all-or-nothing — whenever it fails, for any reason,
the left operand state returned by the operation is exactly the original
operand (the right operand, being read-only, is never modified). -/
theorem C4_constrain_all_or_nothing :
    ∀ a b : Spec, (constrainState a b).2.isSome = true → (constrainState a b).1 = a := by
  intro a b h
  simp only [constrainState] at h ⊢
  cases hc : Spec.constrain a b with
  | ok c => simp only [hc, Option.isSome_none] at h; exact Bool.noConfusion h
  | error e => simp only [hc]

/-- Witness for C4 at the variant-conflict failure of the test suite. -/
theorem C4_constrain_all_or_nothing_witness :
    (constrainState (specOf "libelf+debug") (specOf "libelf~debug")).1 =
      specOf "libelf+debug" :=
  C4_constrain_all_or_nothing _ _ (by decide)

/-- C6: a second variant token for an already-seen variant name (regardless
of polarity), a second compiler introduction (even with a different name),
and a second dependency with an already-seen name each fail with the
corresponding duplicate error; the second occurrence is never silently
merged or overwritten. -/
theorem C6_duplicate_errors :
    (∀ raw : RawNode, ¬(raw.variants.map Prod.fst).Nodup →
      ∃ v, nodeErr raw = some (.dupVariant v)) ∧
    (∀ raw : RawNode, (raw.variants.map Prod.fst).Nodup → 2 ≤ raw.comps.length →
      ∃ n, nodeErr raw = some (.dupCompiler n)) ∧
    (∀ raw : RawSpec, nodeErr raw.root = none → (∀ d ∈ raw.deps, nodeErr d = none) →
      ¬(raw.deps.map RawNode.name).Nodup →
      ∃ n, buildSpec raw = .error (.dupDependency n)) ∧
    parse "x@1.2+debug+debug" = .error (.dupVariant "debug") ∧
    parse "x ^y@1.2+debug+debug" = .error (.dupVariant "debug") ∧
    parse "x ^y ^y" = .error (.dupDependency "y") ∧
    parse "x%intel%intel" = .error (.dupCompiler "intel") ∧
    parse "x%intel%gcc" = .error (.dupCompiler "intel") ∧
    parse "x%gcc%intel" = .error (.dupCompiler "gcc") ∧
    parse "x ^y%intel%gcc" = .error (.dupCompiler "intel") := by
  refine ⟨?_, ?_, ?_, by decide, by decide, by decide, by decide, by decide,
    by decide, by decide⟩
  · intro raw hnd
    cases hd : firstDup (raw.variants.map Prod.fst) with
    | none => exact absurd ((firstDup_eq_none_iff _).mp hd) hnd
    | some v =>
      refine ⟨v, ?_⟩
      simp only [nodeErr, hd]
  · intro raw hnd hlen
    have hd : firstDup (raw.variants.map Prod.fst) = none :=
      (firstDup_eq_none_iff _).mpr hnd
    rcases hcomps : raw.comps with _ | ⟨c1, _ | ⟨c2, rest⟩⟩
    · rw [hcomps] at hlen; simp at hlen
    · rw [hcomps] at hlen; simp at hlen
    · exact ⟨c2.1, by simp only [nodeErr, hd, hcomps]⟩
  · intro raw hroot hdeps hnd
    cases hd : firstDup (raw.deps.map RawNode.name) with
    | none => exact absurd ((firstDup_eq_none_iff _).mp hd) hnd
    | some n =>
      refine ⟨n, ?_⟩
      simp only [buildSpec, hroot, buildDeps_ok_of raw.deps hdeps, hd]
      rfl

/-- C8 universal part plus the no-version-match and no-architecture-match
instances of the test suite. -/
theorem C8_no_matching_method :
    (∀ (α : Type) (cands : List (Spec × α)) (concrete : Spec),
      cands.filter (fun gc => concrete.satisfies gc.1) = [] →
      cands.filter (fun gc => concrete.compatible gc.1) = [] →
      dispatch cands none concrete = .error .noSuchMethod) ∧
    dispatch [(specOf "multimethod@1.0", "one"), (specOf "multimethod@3.0", "three"),
      (specOf "multimethod@4.0", "four")] none (specOf "multimethod@2.0") =
      .error .noSuchMethod ∧
    dispatch [(specOf "multimethod=x86_64", "x86_64"), (specOf "multimethod=ppc64", "ppc64"),
      (specOf "multimethod=ppc32", "ppc32"), (specOf "multimethod=arm64", "arm64")] none
      (specOf "multimethod=macos") = .error .noSuchMethod := by
  refine ⟨?_, by decide, by decide⟩
  intro α cands concrete h1 h2
  simp only [dispatch, h1, h2]

/-- Witness for C8 at the no-version-match instance. -/
theorem C8_no_matching_method_witness :
    dispatch [(specOf "multimethod@1.0", "one"), (specOf "multimethod@3.0", "three"),
      (specOf "multimethod@4.0", "four")] none (specOf "multimethod@2.0") =
      .error .noSuchMethod :=
  C8_no_matching_method.1 String _ _ (by decide) (by decide)

/-- C1: when the guards matched by the concrete spec are pairwise
incomparable in specificity, dispatch returns the first-declared candidate
of the matched set rather than raising an error; in particular, with guards
on the `mpich` and `zmpi` dependencies and a concrete spec constraining the
unrelated dependency `foobar`, dispatch selects the first-declared guarded
implementation. -/
theorem C1_dispatch_tie_break :
    (∀ (α : Type) (cands : List (Spec × α)) (deflt : Option α) (concrete : Spec)
        (m : Spec × α) (ms : List (Spec × α)),
      cands.filter (fun gc => concrete.satisfies gc.1) = m :: ms →
      (∀ p ∈ m :: ms, ∀ q ∈ m :: ms, moreSpecific p.1 q.1 = false) →
      dispatch cands deflt concrete = .ok m.2) ∧
    dispatch [(specOf "multimethod^mpich", "mpich"), (specOf "multimethod^zmpi", "zmpi")]
      none (specOf "multimethod^foobar") = .ok "mpich" := by
  refine ⟨?_, by decide⟩
  intro α cands deflt concrete m ms h1 h2
  simp only [dispatch, h1]
  rw [selectBest_of_incomparable ms m
    (fun c hc => h2 c (by simp [hc]) m (by simp))]

/-- Witness for C1 with a concrete spec matched by both incomparable
dependency guards. -/
theorem C1_dispatch_tie_break_witness :
    dispatch [(specOf "multimethod^mpich", "mpich"), (specOf "multimethod^zmpi", "zmpi")]
      none (specOf "multimethod^mpich^zmpi") = .ok "mpich" :=
  C1_dispatch_tie_break.1 String _ none _
    (specOf "multimethod^mpich", "mpich") [(specOf "multimethod^zmpi", "zmpi")]
    (by decide) (by decide)

/-- Witness for C6 at a node carrying the same variant name twice. -/
theorem C6_duplicate_errors_witness :
    ∃ v, nodeErr ⟨"x", none, [], [], [("debug", true), ("debug", false)]⟩ =
      some (.dupVariant v) :=
  C6_duplicate_errors.1 _ (by decide)

theorem Spec.size_pos : ∀ s : Spec, 1 ≤ Spec.size s
  | .mk _ _ _ _ _ d => by simp [Spec.size]

theorem size_le_of_mem_toList : ∀ (d : Deps) (s : Spec), s ∈ Deps.toList d →
    Spec.size s ≤ Deps.size d
  | .nil, s => by
    intro hs
    simp [Deps.toList] at hs
  | .cons x rest, s => by
    intro hs
    simp only [Deps.toList, List.mem_cons] at hs
    rcases hs with h | h
    · subst h
      simp [Deps.size]
    · have := size_le_of_mem_toList rest s h
      simp [Deps.size]
      omega

theorem lookupDep_some_mem : ∀ (d : Deps) (k : String) (x : Spec),
    lookupDep k d = some x → x ∈ Deps.toList d ∧ x.name = k
  | .nil, k, x => by
    intro h
    simp [lookupDep] at h
  | .cons s rest, k, x => by
    intro h
    simp only [lookupDep] at h
    split_ifs at h with hn
    · injection h with h
      subst h
      exact ⟨by simp [Deps.toList], hn⟩
    · have := lookupDep_some_mem rest k x h
      exact ⟨by simp [Deps.toList, this.1], this.2⟩

theorem lookupDep_isSome_iff : ∀ (d : Deps) (k : String),
    (lookupDep k d).isSome = true ↔ k ∈ depNames d
  | .nil, k => by simp [lookupDep, depNames]
  | .cons s rest, k => by
    simp only [lookupDep, depNames, List.mem_cons]
    split_ifs with hn
    · simp [hn]
    · rw [lookupDep_isSome_iff rest k]
      constructor
      · intro h
        exact Or.inr h
      · intro h
        rcases h with h | h
        · exact absurd h.symm hn
        · exact h

theorem mem_dedupSorted_iff : ∀ (l : List String) (k : String),
    k ∈ dedupSorted l ↔ k ∈ l := by
  intro l
  induction l with
  | nil => intro k; simp [dedupSorted]
  | cons x xs ih =>
    intro k
    cases xs with
    | nil => simp [dedupSorted]
    | cons y ys =>
      simp only [dedupSorted]
      split_ifs with hxy
      · subst hxy
        rw [ih k]
        simp only [List.mem_cons]
        tauto
      · simp only [List.mem_cons]
        rw [ih k]
        simp only [List.mem_cons]

theorem mem_mergeKeys_iff (k1 k2 : List String) (k : String) :
    k ∈ mergeKeys k1 k2 ↔ k ∈ k1 ∨ k ∈ k2 := by
  unfold mergeKeys
  rw [mem_dedupSorted_iff, List.mem_insertionSort, List.mem_append]

theorem satDeps_lookup : ∀ (d : Deps) (a : Spec), satDeps a d = true →
    ∀ s ∈ Deps.toList d, ∃ sub, lookupDep s.name a.deps = some sub ∧
      sub.satisfies s = true
  | .nil, a => by
    intro _ s hs
    simp [Deps.toList] at hs
  | .cons x rest, a => by
    intro h s hs
    simp only [satDeps, Bool.and_eq_true] at h
    simp only [Deps.toList, List.mem_cons] at hs
    rcases hs with hsx | hsr
    · subst hsx
      rcases hl : lookupDep s.name a.deps with _ | sub
      · rw [hl] at h
        exact absurd h.1 (by simp)
      · rw [hl] at h
        exact ⟨sub, rfl, h.1⟩
    · exact satDeps_lookup rest a h.2 s hsr

theorem constrainVL_ok_of_sat {A B : List VRange} (e : SpkErr)
    (h : vlSatisfies A B = true) : (constrainVL e A B).isOk = true := by
  unfold vlSatisfies at h
  cases A with
  | nil => cases B <;> rfl
  | cons a as =>
    cases B with
    | nil => rfl
    | cons b bs =>
      simp only [List.isEmpty_cons, Bool.false_or, Bool.or_eq_true] at h
      unfold constrainVL
      cases hi : vlInter (a :: as) (b :: bs) with
      | nil =>
        rw [hi] at h
        simp at h
      | cons r rs =>
        simp only [hi]
        rfl

theorem firstConflict_none_of_sat : ∀ (v2 v1 : List (String × Bool)),
    variantsSat v1 v2 = true → firstConflict v1 v2 = none := by
  intro v2
  induction v2 with
  | nil => intro v1 _; rfl
  | cons p ps ih =>
    intro v1 h
    simp only [variantsSat, List.all_cons, Bool.and_eq_true] at h
    obtain ⟨h1, h2⟩ := h
    have h2' : variantsSat v1 ps = true := h2
    simp only [firstConflict]
    rcases hl : lookupVar p.1 v1 with _ | b
    · simp only [hl]
      exact ih v1 h2'
    · simp only [hl] at h1 ⊢
      have hb : b = p.2 := by simpa using h1
      rw [if_pos hb]
      exact ih v1 h2'

theorem mapM_except_ok {α β : Type} (f : α → Except SpkErr β) :
    ∀ l : List α, (∀ x ∈ l, (f x).isOk = true) → (l.mapM f).isOk = true := by
  intro l
  induction l with
  | nil => intro _; rfl
  | cons x xs ih =>
    intro h
    rw [List.mapM_cons]
    have hx := h x (by simp)
    rcases hfx : f x with e | b
    · rw [hfx] at hx; simp [Except.isOk, Except.toBool] at hx
    · have hxs := ih (fun y hy => h y (by simp [hy]))
      rcases hm : xs.mapM f with e2 | bs
      · rw [hm] at hxs; simp [Except.isOk, Except.toBool] at hxs
      · rfl

theorem isOk_exists {β : Type} {x : Except SpkErr β} (h : x.isOk = true) :
    ∃ b, x = .ok b := by
  cases x with
  | error e => simp [Except.isOk, Except.toBool] at h
  | ok b => exact ⟨b, rfl⟩

theorem ok_bind {β γ : Type} (b : β) (f : β → Except SpkErr γ) :
    (Except.ok b >>= f : Except SpkErr γ) = f b := rfl

theorem except_map_isOk {β γ : Type} (f : β → γ) (x : Except SpkErr β) :
    (x.map f).isOk = x.isOk := by
  cases x <;> rfl

theorem constrainCompiler_ok_of_sat {c1 c2 : Option CompilerSpec}
    (h : compilerSat c1 c2 = true) : (constrainCompiler c1 c2).isOk = true := by
  cases c1 with
  | none => cases c2 <;> rfl
  | some a =>
    cases c2 with
    | none => rfl
    | some b =>
      simp only [compilerSat, Bool.and_eq_true, beq_iff_eq] at h
      simp only [constrainCompiler, if_pos h.1]
      rw [except_map_isOk]
      exact constrainVL_ok_of_sat _ h.2

theorem constrainArch_ok_of_sat {a1 a2 : Option String}
    (h : archSat a1 a2 = true) : (constrainArch a1 a2).isOk = true := by
  cases a1 with
  | none => cases a2 <;> rfl
  | some x =>
    cases a2 with
    | none => rfl
    | some y =>
      simp only [archSat, beq_iff_eq] at h
      simp only [constrainArch, if_pos h]
      rfl

theorem constrainVariants_ok_of_sat {v1 v2 : List (String × Bool)}
    (h : variantsSat v1 v2 = true) : (constrainVariants v1 v2).isOk = true := by
  simp only [constrainVariants, firstConflict_none_of_sat v2 v1 h]
  rfl

/-- Mutual satisfaction implies that constraining succeeds (given enough
fuel for the dependency recursion). -/
theorem constrainF_ok_of_mutual_sat :
    ∀ (fuel : Nat) (l r : Spec), Spec.size l + Spec.size r + 1 ≤ fuel →
      l.satisfies r = true → r.satisfies l = true →
      (constrainF fuel l r).isOk = true := by
  intro fuel
  induction fuel with
  | zero =>
    intro l r hsz _ _
    omega
  | succ f ih =>
    intro l r hsz hlr hrl
    obtain ⟨n1, v1, c1, vr1, a1, d1⟩ := l
    obtain ⟨n2, v2, c2, vr2, a2, d2⟩ := r
    simp only [Spec.satisfies, Spec.name, Spec.versions, Spec.compiler, Spec.variants,
      Spec.arch, Spec.deps, Bool.and_eq_true, beq_iff_eq] at hlr hrl
    obtain ⟨⟨⟨⟨⟨hn, hv⟩, hc⟩, hvr⟩, ha⟩, hd⟩ := hlr
    obtain ⟨⟨⟨⟨⟨_, hv2⟩, hc2⟩, hvr2⟩, ha2⟩, hd2⟩ := hrl
    subst hn
    simp only [Spec.size, Deps.size] at hsz
    obtain ⟨v, hvres⟩ := isOk_exists (constrainVL_ok_of_sat (SpkErr.unsatVersion n1) hv)
    obtain ⟨c, hcres⟩ := isOk_exists (constrainCompiler_ok_of_sat hc)
    obtain ⟨vr, hvrres⟩ := isOk_exists (constrainVariants_ok_of_sat hvr)
    obtain ⟨ar, hares⟩ := isOk_exists (constrainArch_ok_of_sat ha)
    have hdeps : ∀ k ∈ mergeKeys (depNames d1) (depNames d2),
        ((match lookupDep k d1, lookupDep k d2 with
          | some x, some y => constrainF f x y
          | some x, none => .ok x
          | none, some y => .ok y
          | none, none => .error .parseErr) : Except SpkErr Spec).isOk = true := by
      intro k hk
      rcases h1 : lookupDep k d1 with _ | x <;> rcases h2 : lookupDep k d2 with _ | y
      · rw [mem_mergeKeys_iff] at hk
        rcases hk with hk | hk
        · rw [← lookupDep_isSome_iff] at hk
          rw [h1] at hk
          simp at hk
        · rw [← lookupDep_isSome_iff] at hk
          rw [h2] at hk
          simp at hk
      · rfl
      · rfl
      · have hx := lookupDep_some_mem d1 k x h1
        have hy := lookupDep_some_mem d2 k y h2
        obtain ⟨subx, hsubx, hsatx⟩ := satDeps_lookup d2 (.mk n1 v1 c1 vr1 a1 d1) hd y hy.1
        obtain ⟨suby, hsuby, hsaty⟩ := satDeps_lookup d1 (.mk n1 v2 c2 vr2 a2 d2) hd2 x hx.1
        simp only [Spec.deps] at hsubx hsuby
        rw [hy.2] at hsubx
        rw [hx.2] at hsuby
        rw [h1] at hsubx
        rw [h2] at hsuby
        injection hsubx with hsubx
        injection hsuby with hsuby
        subst hsubx
        subst hsuby
        have hszx := size_le_of_mem_toList d1 x hx.1
        have hszy := size_le_of_mem_toList d2 y hy.1
        exact ih x y (by omega) hsatx hsaty
    have hmapm := mapM_except_ok _ _ hdeps
    obtain ⟨ds, hdsres⟩ := isOk_exists hmapm
    simp only [constrainF, if_pos rfl, hvres, ok_bind, hcres, hvrres, hares, hdsres]
    rfl

/-- C10: mutual satisfaction guarantees constrainability in either order —
whenever two specs satisfy each other, `constrain` succeeds both ways. -/
theorem C10_mutual_sat_constrainable :
    ∀ l r : Spec, l.satisfies r = true → r.satisfies l = true →
      (l.constrain r).isOk = true ∧ (r.constrain l).isOk = true := by
  intro l r hlr hrl
  unfold Spec.constrain
  exact ⟨constrainF_ok_of_mutual_sat _ l r (by omega) hlr hrl,
    constrainF_ok_of_mutual_sat _ r l (by omega) hrl hlr⟩

/-- Witness for C10 at the satisfaction instances of the test suite. -/
theorem C10_mutual_sat_constrainable_witness :
    ((specOf "libdwarf^libelf@0.8.13").constrain (specOf "libdwarf^libelf@0:1")).isOk = true ∧
    ((specOf "libdwarf^libelf@0:1").constrain (specOf "libdwarf^libelf@0.8.13")).isOk = true :=
  C10_mutual_sat_constrainable _ _ (by decide) (by decide)

theorem map_eq_of_forall₂ {α β γ : Type} {R : α → β → Prop} (f : α → γ) (g : β → γ)
    {l1 : List α} {l2 : List β} (h : List.Forall₂ R l1 l2)
    (hfg : ∀ a b, R a b → f a = g b) : l1.map f = l2.map g := by
  induction h with
  | nil => rfl
  | cons hab _ ih => simp [hfg _ _ hab, ih]

theorem insertionSort_eq_of_perm {l1 l2 : List VRange} (h : l1.Perm l2) :
    List.insertionSort rLE l1 = List.insertionSort rLE l2 :=
  List.eq_of_perm_of_sorted
    ((List.perm_insertionSort rLE l1).trans (h.trans (List.perm_insertionSort rLE l2).symm))
    (List.sorted_insertionSort rLE l1) (List.sorted_insertionSort rLE l2)

theorem normalizeVL_perm {l1 l2 : List VRange} (h : l1.Perm l2) :
    normalizeVL l1 = normalizeVL l2 := by
  unfold normalizeVL
  rw [insertionSort_eq_of_perm (h.filter rNonempty)]

theorem sortVariants_perm {l1 l2 : List (String × Bool)} (h : l1.Perm l2) :
    sortVariants l1 = sortVariants l2 :=
  List.eq_of_perm_of_sorted
    ((List.perm_insertionSort vkLE l1).trans (h.trans (List.perm_insertionSort vkLE l2).symm))
    (List.sorted_insertionSort vkLE l1) (List.sorted_insertionSort vkLE l2)

theorem eq_of_perm_sorted_keys {α : Type} (key : α → String) :
    ∀ (l1 l2 : List α), l1.Perm l2 → (l1.map key).Nodup →
      l1.Pairwise (fun a b => strCmp (key a) (key b) ≠ .gt) →
      l2.Pairwise (fun a b => strCmp (key a) (key b) ≠ .gt) → l1 = l2 := by
  intro l1
  induction l1 with
  | nil =>
    intro l2 hp _ _ _
    exact hp.symm.eq_nil.symm
  | cons a t1 ih =>
    intro l2 hp hnd hs1 hs2
    cases l2 with
    | nil => exact absurd hp.eq_nil (by simp)
    | cons b t2 =>
      have hab : a = b := by
        by_contra hne
        have ha2 : a ∈ b :: t2 := hp.mem_iff.mp (by simp)
        have hb1 : b ∈ a :: t1 := hp.mem_iff.mpr (by simp)
        have ha2' : a ∈ t2 := by
          rcases List.mem_cons.mp ha2 with h | h
          · exact absurd h hne
          · exact h
        have hb1' : b ∈ t1 := by
          rcases List.mem_cons.mp hb1 with h | h
          · exact absurd h.symm hne
          · exact h
        have h1 : strCmp (key a) (key b) ≠ .gt := (List.pairwise_cons.mp hs1).1 b hb1'
        have h2 : strCmp (key b) (key a) ≠ .gt := (List.pairwise_cons.mp hs2).1 a ha2'
        have hk : key a = key b := cmpLE_antisymm strCmp_laws h1 h2
        have hmem : key b ∈ t1.map key := List.mem_map_of_mem key hb1'
        rw [← hk] at hmem
        rw [List.map_cons, List.nodup_cons] at hnd
        exact absurd hmem hnd.1
      subst hab
      have ht : t1.Perm t2 := hp.cons_inv
      rw [ih t2 ht (by rw [List.map_cons, List.nodup_cons] at hnd; exact hnd.2)
        (List.pairwise_cons.mp hs1).2 (List.pairwise_cons.mp hs2).2]

theorem mkNode_name (raw : RawNode) (ds : List Spec) :
    (mkNode raw ds).name = raw.name := rfl

theorem error_bind {β γ : Type} (e : SpkErr) (f : β → Except SpkErr γ) :
    (Except.error e >>= f : Except SpkErr γ) = .error e := rfl

/-- Equivalent checked nodes assemble to the same spec. -/
theorem mkNode_equiv {r1 r2 : RawNode} (h : NodeEquiv r1 r2) (ds : List Spec) :
    mkNode r1 ds = mkNode r2 ds := by
  obtain ⟨n1, a1, rg1, cp1, vs1⟩ := r1
  obtain ⟨n2, a2, rg2, cp2, vs2⟩ := r2
  obtain ⟨hn, ha, hr, hc, hv⟩ := h
  subst hn
  subst ha
  simp only [mkNode]
  rw [normalizeVL_perm hr, sortVariants_perm hv]
  cases hc with
  | nil => rfl
  | cons hab htl =>
    obtain ⟨hab1, hab2⟩ := hab
    simp only [hab1, normalizeVL_perm hab2]

theorem nodeErr_none_iff {r1 r2 : RawNode} (h : NodeEquiv r1 r2) :
    nodeErr r1 = none ↔ nodeErr r2 = none := by
  obtain ⟨n1, a1, rg1, cp1, vs1⟩ := r1
  obtain ⟨n2, a2, rg2, cp2, vs2⟩ := r2
  obtain ⟨_, _, _, hc, hv⟩ := h
  have hvn : (vs1.map Prod.fst).Nodup ↔ (vs2.map Prod.fst).Nodup :=
    (hv.map Prod.fst).nodup_iff
  have hl : cp1.length = cp2.length := List.Forall₂.length_eq hc
  simp only [nodeErr]
  cases hd1 : firstDup (vs1.map Prod.fst) with
  | some v =>
    cases hd2 : firstDup (vs2.map Prod.fst) with
    | some w => simp
    | none =>
      exact absurd (hvn.mpr ((firstDup_eq_none_iff _).mp hd2))
        (by rw [← firstDup_eq_none_iff, hd1]; simp)
  | none =>
    cases hd2 : firstDup (vs2.map Prod.fst) with
    | some w =>
      exact absurd (hvn.mp ((firstDup_eq_none_iff _).mp hd1))
        (by rw [← firstDup_eq_none_iff, hd2]; simp)
    | none =>
      rcases cp1 with _ | ⟨c1, _ | ⟨c2, cs⟩⟩ <;>
        rcases cp2 with _ | ⟨e1, _ | ⟨e2, es⟩⟩ <;> simp_all

theorem buildDeps_ok_inv : ∀ (l : List RawNode) (ds : List Spec),
    buildDeps l = .ok ds →
      (∀ d ∈ l, nodeErr d = none) ∧ ds = l.map (fun n => mkNode n []) := by
  intro l
  induction l with
  | nil =>
    intro ds h
    simp only [buildDeps] at h
    injection h with h
    subst h
    exact ⟨by simp, rfl⟩
  | cons n ns ih =>
    intro ds h
    simp only [buildDeps, buildNode] at h
    cases he : nodeErr n with
    | some e =>
      simp only [he, error_bind] at h
      exact Except.noConfusion h
    | none =>
      simp only [he, ok_bind] at h
      cases hd : buildDeps ns with
      | error e2 =>
        simp only [hd, error_bind] at h
        exact Except.noConfusion h
      | ok rest =>
        simp only [hd, ok_bind] at h
        injection h with h
        obtain ⟨hall, hrest⟩ := ih rest hd
        refine ⟨?_, ?_⟩
        · intro d hdm
          rcases List.mem_cons.mp hdm with hh | hh
          · subst hh; exact he
          · exact hall d hh
        · rw [← h, hrest]
          rfl

theorem buildSpec_ok_inv {raw : RawSpec} {s : Spec} (h : buildSpec raw = .ok s) :
    nodeErr raw.root = none ∧ (∀ d ∈ raw.deps, nodeErr d = none) ∧
      (raw.deps.map RawNode.name).Nodup ∧
      s = mkNode raw.root (sortSpecs (raw.deps.map (fun n => mkNode n []))) := by
  unfold buildSpec at h
  cases he : nodeErr raw.root with
  | some e =>
    rw [he] at h
    exact Except.noConfusion h
  | none =>
    rw [he] at h
    cases hd : buildDeps raw.deps with
    | error e2 =>
      simp only [hd, error_bind] at h
      exact Except.noConfusion h
    | ok ds =>
      simp only [hd, ok_bind] at h
      cases hfd : firstDup (raw.deps.map RawNode.name) with
      | some n =>
        simp only [hfd] at h
        exact Except.noConfusion h
      | none =>
        simp only [hfd] at h
        injection h with h
        obtain ⟨hall, hds⟩ := buildDeps_ok_inv raw.deps ds hd
        exact ⟨rfl, hall, (firstDup_eq_none_iff _).mp hfd, by rw [← h, hds]⟩

/-- C3: two accepted inputs that describe the same constraint set with
version alternatives, variants, or dependencies listed in different orders
build identical specs, hence identical canonical renderings; concretely the
reordered example input canonicalizes to the sorted form. -/
theorem C3_canonicalization_invariance :
    (∀ (r1 r2 : RawSpec) (s1 s2 : Spec), RawSpecEquiv r1 r2 →
      buildSpec r1 = .ok s1 → buildSpec r2 = .ok s2 →
      s1 = s2 ∧ renderSpec s1 = renderSpec s2) ∧
    renderParse "x ^y~f+e~d+c~b+a@4,2:3,1%intel@4,3,2,1" =
      "x^y@1,2:3,4%intel@1,2,3,4+a~b+c~d+e~f" ∧
    renderParse "x^y@1,2:3,4%intel@1,2,3,4+a~b+c~d+e~f" =
      "x^y@1,2:3,4%intel@1,2,3,4+a~b+c~d+e~f" := by
  refine ⟨?_, by decide, by decide⟩
  intro r1 r2 s1 s2 heq h1 h2
  obtain ⟨hroot, mid, hperm, hf2⟩ := heq
  obtain ⟨he1, hd1, hn1, hs1⟩ := buildSpec_ok_inv h1
  obtain ⟨he2, hd2, hn2, hs2⟩ := buildSpec_ok_inv h2
  have hmap : mid.map (fun n => mkNode n []) = r2.deps.map (fun n => mkNode n []) :=
    map_eq_of_forall₂ _ _ hf2 (fun a b hab => mkNode_equiv hab [])
  have hdperm : (r1.deps.map (fun n => mkNode n [])).Perm
      (r2.deps.map (fun n => mkNode n [])) := by
    rw [← hmap]
    exact hperm.map _
  have hnamemap : ∀ l : List RawNode,
      (l.map (fun n => mkNode n [])).map Spec.name = l.map RawNode.name := by
    intro l
    rw [List.map_map]
    rfl
  have hsorteq : sortSpecs (r1.deps.map (fun n => mkNode n [])) =
      sortSpecs (r2.deps.map (fun n => mkNode n [])) := by
    unfold sortSpecs
    apply eq_of_perm_sorted_keys Spec.name
    · exact ((List.perm_insertionSort sLE _).trans
        (hdperm.trans (List.perm_insertionSort sLE _).symm))
    · have : (List.insertionSort sLE (r1.deps.map (fun n => mkNode n []))).Perm
          (r1.deps.map (fun n => mkNode n [])) := List.perm_insertionSort sLE _
      rw [(this.map Spec.name).nodup_iff, hnamemap]
      exact hn1
    · exact List.sorted_insertionSort sLE _
    · exact List.sorted_insertionSort sLE _
  have : s1 = s2 := by
    rw [hs1, hs2, hsorteq, mkNode_equiv hroot]
  exact ⟨this, by rw [this]⟩

/-- Witness for C3 at a pair of raw parses listing the same ranges and
variants in different orders. -/
theorem C3_canonicalization_invariance_witness :
    Spec.mk "x" [⟨some "1", some "1"⟩, ⟨some "2", some "3"⟩] none
        [("a", true), ("b", false)] none .nil =
      Spec.mk "x" [⟨some "1", some "1"⟩, ⟨some "2", some "3"⟩] none
        [("a", true), ("b", false)] none .nil ∧
    renderSpec (Spec.mk "x" [⟨some "1", some "1"⟩, ⟨some "2", some "3"⟩] none
        [("a", true), ("b", false)] none .nil) =
      renderSpec (Spec.mk "x" [⟨some "1", some "1"⟩, ⟨some "2", some "3"⟩] none
        [("a", true), ("b", false)] none .nil) :=
  C3_canonicalization_invariance.1
    ⟨⟨"x", none, [⟨some "2", some "3"⟩, ⟨some "1", some "1"⟩], [], [("b", false), ("a", true)]⟩, []⟩
    ⟨⟨"x", none, [⟨some "1", some "1"⟩, ⟨some "2", some "3"⟩], [], [("a", true), ("b", false)]⟩, []⟩
    _ _
    ⟨⟨rfl, rfl, by decide, List.Forall₂.nil, by decide⟩, [], List.Perm.nil, List.Forall₂.nil⟩
    (by decide) (by decide)

theorem obne_iff {o p : Ordering} : (o != p) = true ↔ o ≠ p := by
  cases o <;> cases p <;> decide

theorem obeq_iff {o p : Ordering} : (o == p) = true ↔ o = p := by
  cases o <;> cases p <;> decide

theorem vcmp_refl (a : List Char) : vcmp a a = .eq :=
  (lcmp_laws segCmp_laws).refl _

theorem vcmp_le_refl (a : List Char) : vcmp a a ≠ .gt := by
  rw [vcmp_refl]
  simp

theorem vcmp_le_trans {x y z : List Char} (h1 : vcmp x y ≠ .gt) (h2 : vcmp y z ≠ .gt) :
    vcmp x z ≠ .gt :=
  cmpLE_trans (lcmp_laws segCmp_laws) h1 h2

theorem vcmp_le_lt_trans {x y z : List Char} (h1 : vcmp x y ≠ .gt) (h2 : vcmp y z = .lt) :
    vcmp x z = .lt := by
  unfold vcmp at *
  cases hxy : lcmp segCmp (segsOf x) (segsOf y) with
  | gt => exact absurd hxy h1
  | lt => exact (lcmp_laws segCmp_laws).lt_trans _ _ _ hxy h2
  | eq =>
    rw [((lcmp_laws segCmp_laws).eq_iff _ _).mp hxy]
    exact h2

theorem vcmp_lt_le_trans {x y z : List Char} (h1 : vcmp x y = .lt) (h2 : vcmp y z ≠ .gt) :
    vcmp x z = .lt := by
  unfold vcmp at *
  cases hyz : lcmp segCmp (segsOf y) (segsOf z) with
  | gt => exact absurd hyz h2
  | lt => exact (lcmp_laws segCmp_laws).lt_trans _ _ _ h1 hyz
  | eq =>
    rw [← ((lcmp_laws segCmp_laws).eq_iff _ _).mp hyz]
    exact h1

theorem vcmp_lt_trans {x y z : List Char} (h1 : vcmp x y = .lt) (h2 : vcmp y z = .lt) :
    vcmp x z = .lt :=
  (lcmp_laws segCmp_laws).lt_trans _ _ _ h1 h2

theorem vcmp_gt_iff_lt {x y : List Char} : vcmp x y = .gt ↔ vcmp y x = .lt :=
  (lcmp_laws segCmp_laws).gt_iff_lt _ _

theorem vcmp_lt_ne_gt {x y : List Char} (h : vcmp x y = .lt) : vcmp x y ≠ .gt := by
  rw [h]
  simp

/-- A nonempty subrange of a range intersects it to itself. -/
theorem rIntersect_self_of_sub {t b : VRange} (hsub : rSub t b = true)
    (hne : rNonempty t = true) : rIntersect t b = some t := by
  obtain ⟨tlo, thi⟩ := t
  obtain ⟨blo, bhi⟩ := b
  simp only [rSub, Bool.and_eq_true] at hsub
  obtain ⟨hlo, hhi⟩ := hsub
  have hmax : loMax tlo blo = tlo := by
    cases blo with
    | none => cases tlo <;> rfl
    | some lb =>
      cases tlo with
      | none => simp [loLE] at hlo
      | some lt_ =>
        simp only [loLE, obne_iff] at hlo
        simp only [loMax, if_neg hlo]
  have hmin : hiMin thi bhi = thi := by
    cases bhi with
    | none => cases thi <;> rfl
    | some hb =>
      cases thi with
      | none => simp [hiLE] at hhi
      | some ht_ =>
        simp only [hiLE, obne_iff] at hhi
        have hnlt : vcmp hb.data ht_.data ≠ .lt := by
          intro hc
          exact hhi (vcmp_gt_iff_lt.mpr hc)
        simp only [hiMin, if_neg hnlt]
  simp only [rIntersect, hmax, hmin, hne]
  rfl

/-- A nonempty subrange of `b` misses every range strictly after `b`. -/
theorem rIntersect_none_after {t b b2 : VRange} (hne : rNonempty t = true)
    (hsub : rSub t b = true) (hafter : beforeB b.hi b2.lo = true) :
    rIntersect t b2 = none := by
  obtain ⟨tlo, thi⟩ := t
  obtain ⟨blo, bhi⟩ := b
  obtain ⟨b2lo, b2hi⟩ := b2
  simp only [rSub, Bool.and_eq_true] at hsub
  obtain ⟨_, hhi⟩ := hsub
  cases bhi with
  | none => simp [beforeB] at hafter
  | some H =>
    cases b2lo with
    | none => simp [beforeB] at hafter
    | some L2 =>
      simp only [beforeB, obeq_iff] at hafter
      cases thi with
      | none => simp [hiLE] at hhi
      | some TH =>
        simp only [hiLE, obne_iff] at hhi
        have hTHL2 : vcmp TH.data L2.data = .lt := vcmp_le_lt_trans hhi hafter
        have hlo : ∃ A, loMax tlo (some L2) = some A ∧ vcmp L2.data A.data ≠ .gt := by
          cases tlo with
          | none => exact ⟨L2, rfl, vcmp_le_refl _⟩
          | some TL =>
            simp only [loMax]
            split_ifs with hg
            · exact ⟨L2, rfl, vcmp_le_refl _⟩
            · exact ⟨TL, rfl, hg⟩
        have hhi2 : ∃ B, hiMin (some TH) b2hi = some B ∧ vcmp B.data TH.data ≠ .gt := by
          cases b2hi with
          | none => exact ⟨TH, rfl, vcmp_le_refl _⟩
          | some H2 =>
            simp only [hiMin]
            split_ifs with hg
            · exact ⟨H2, rfl, vcmp_lt_ne_gt hg⟩
            · exact ⟨TH, rfl, vcmp_le_refl _⟩
        obtain ⟨A, hA, hA2⟩ := hlo
        obtain ⟨B, hB, hB2⟩ := hhi2
        have hBA : vcmp B.data A.data = .lt :=
          vcmp_lt_le_trans (vcmp_le_lt_trans hB2 hTHL2) hA2
        have hAB : vcmp A.data B.data = .gt := vcmp_gt_iff_lt.mpr hBA
        simp [rIntersect, hA, hB, rNonempty, hAB]
        decide

/-- A nonempty subrange of `b` misses every range strictly before `b`. -/
theorem rIntersect_none_before {t b b2 : VRange} (hne : rNonempty t = true)
    (hsub : rSub t b = true) (hbefore : beforeB b2.hi b.lo = true) :
    rIntersect t b2 = none := by
  obtain ⟨tlo, thi⟩ := t
  obtain ⟨blo, bhi⟩ := b
  obtain ⟨b2lo, b2hi⟩ := b2
  simp only [rSub, Bool.and_eq_true] at hsub
  obtain ⟨hlo, _⟩ := hsub
  cases b2hi with
  | none => simp [beforeB] at hbefore
  | some H2 =>
    cases blo with
    | none => simp [beforeB] at hbefore
    | some LB =>
      simp only [beforeB, obeq_iff] at hbefore
      cases tlo with
      | none => simp [loLE] at hlo
      | some TL =>
        simp only [loLE, obne_iff] at hlo
        have hH2TL : vcmp H2.data TL.data = .lt := vcmp_lt_le_trans hbefore hlo
        have hlo2 : ∃ A, loMax (some TL) b2lo = some A ∧ vcmp TL.data A.data ≠ .gt := by
          cases b2lo with
          | none => exact ⟨TL, rfl, vcmp_le_refl _⟩
          | some L2b =>
            simp only [loMax]
            split_ifs with hg
            · exact ⟨L2b, rfl, vcmp_lt_ne_gt (vcmp_gt_iff_lt.mp hg)⟩
            · exact ⟨TL, rfl, vcmp_le_refl _⟩
        have hhi2 : ∃ B, hiMin thi (some H2) = some B ∧ vcmp B.data H2.data ≠ .gt := by
          cases thi with
          | none => exact ⟨H2, rfl, vcmp_le_refl _⟩
          | some TH =>
            simp only [hiMin]
            split_ifs with hg
            · exact ⟨H2, rfl, vcmp_le_refl _⟩
            · refine ⟨TH, rfl, ?_⟩
              intro hc
              exact hg (vcmp_gt_iff_lt.mp hc)
        obtain ⟨A, hA, hA2⟩ := hlo2
        obtain ⟨B, hB, hB2⟩ := hhi2
        have hBA : vcmp B.data A.data = .lt :=
          vcmp_le_lt_trans hB2 (vcmp_lt_le_trans hH2TL hA2)
        have hAB : vcmp A.data B.data = .gt := vcmp_gt_iff_lt.mpr hBA
        simp [rIntersect, hA, hB, rNonempty, hAB]
        decide

/-- Soundness of range intersection: the result is nonempty and included in
the right operand. -/
theorem rIntersect_sound {a b t : VRange} (h : rIntersect a b = some t) :
    rNonempty t = true ∧ rSub t b = true := by
  obtain ⟨alo, ahi⟩ := a
  obtain ⟨blo, bhi⟩ := b
  simp only [rIntersect] at h
  split_ifs at h with hne
  · injection h with h
    subst h
    refine ⟨hne, ?_⟩
    simp only [rSub, Bool.and_eq_true]
    constructor
    · cases blo with
      | none => rfl
      | some lb =>
        cases alo with
        | none =>
          simp [loMax, loLE, vcmp_refl]
          decide
        | some la =>
          simp only [loMax]
          split_ifs with hg
          · simp [loLE, vcmp_refl]
            decide
          · simp only [loLE, obne_iff]
            exact hg
    · cases bhi with
      | none => cases ahi <;> rfl
      | some hb =>
        cases ahi with
        | none =>
          simp [hiMin, hiLE, vcmp_refl]
          decide
        | some ha =>
          simp only [hiMin]
          split_ifs with hg
          · simp [hiLE, vcmp_refl]
            decide
          · simp only [hiLE, obne_iff]
            intro hc
            exact hg (vcmp_gt_iff_lt.mp hc)

theorem mem_vlInter : ∀ (A B : List VRange) (t : VRange), t ∈ vlInter A B →
    ∃ a ∈ A, ∃ b ∈ B, rIntersect a b = some t
  | [], _, t => by
    intro h
    simp [vlInter] at h
  | a :: as, B, t => by
    intro h
    simp only [vlInter, List.mem_append] at h
    rcases h with h | h
    · obtain ⟨b, hb, hio⟩ := List.mem_filterMap.mp h
      exact ⟨a, by simp, b, hb, hio⟩
    · obtain ⟨a0, ha0, b0, hb0, hio⟩ := mem_vlInter as B t h
      exact ⟨a0, by simp [ha0], b0, hb0, hio⟩

theorem rSub_refl (r : VRange) : rSub r r = true := by
  obtain ⟨lo, hi⟩ := r
  simp only [rSub, Bool.and_eq_true]
  constructor
  · cases lo with
    | none => rfl
    | some a => simp [loLE, obne_iff, vcmp_refl]
  · cases hi with
    | none => rfl
    | some a => simp [hiLE, obne_iff, vcmp_refl]

theorem before_trans_mid {x : Option String} {y : VRange} {z : Option String}
    (hy : rNonempty y = true) (h1 : beforeB x y.lo = true) (h2 : beforeB y.hi z = true) :
    beforeB x z = true := by
  obtain ⟨ylo, yhi⟩ := y
  cases x with
  | none => simp [beforeB] at h1
  | some X =>
    cases ylo with
    | none => simp [beforeB] at h1
    | some L =>
      cases yhi with
      | none => simp [beforeB] at h2
      | some H =>
        cases z with
        | none => simp [beforeB] at h2
        | some Z =>
          simp only [beforeB, obeq_iff] at h1 h2 ⊢
          simp only [rNonempty, obne_iff] at hy
          exact vcmp_lt_trans (vcmp_lt_le_trans h1 hy) h2

theorem chainB_pairwise_before : ∀ (l : List VRange), l.all rNonempty = true →
    chainB (fun r s => beforeB r.hi s.lo) l = true →
    l.Pairwise (fun r s => beforeB r.hi s.lo = true)
  | [] => by
    intro _ _
    exact List.Pairwise.nil
  | [a] => by
    intro _ _
    simp
  | a :: b :: t => by
    intro hall hch
    simp only [chainB, Bool.and_eq_true] at hch
    have hall' : (b :: t).all rNonempty = true := by
      simp only [List.all_cons, Bool.and_eq_true] at hall ⊢
      exact hall.2
    have hp := chainB_pairwise_before (b :: t) hall' hch.2
    rw [List.pairwise_cons]
    refine ⟨?_, hp⟩
    intro c hc
    rcases List.mem_cons.mp hc with h | h
    · subst h
      exact hch.1
    · have hb : rNonempty b = true := by
        simp only [List.all_cons, Bool.and_eq_true] at hall
        exact hall.2.1
      have hbc : beforeB b.hi c.lo = true := (List.pairwise_cons.mp hp).1 c h
      exact before_trans_mid hb hch.1 hbc

/-- Over a normalized version list, a nonempty range included in one member
intersects to itself exactly once. -/
theorem filterMap_rIntersect_eq (B : List VRange) (t : VRange)
    (hB : normVLb B = true) (ht : rNonempty t = true)
    (hex : ∃ b ∈ B, rSub t b = true) :
    B.filterMap (rIntersect t) = [t] := by
  obtain ⟨b, hb, hsub⟩ := hex
  obtain ⟨P, S, rfl⟩ := List.append_of_mem hb
  simp only [normVLb, Bool.and_eq_true] at hB
  have hpw := chainB_pairwise_before _ hB.1 hB.2
  rw [List.pairwise_append] at hpw
  rw [List.filterMap_append]
  have hP : List.filterMap (rIntersect t) P = [] := by
    rw [List.filterMap_eq_nil_iff]
    intro p hp
    have hbefore : beforeB p.hi b.lo = true := hpw.2.2 p hp b (by simp)
    exact rIntersect_none_before ht hsub hbefore
  have hbS : List.filterMap (rIntersect t) (b :: S) = [t] := by
    rw [List.filterMap_cons]
    rw [rIntersect_self_of_sub hsub ht]
    have hS : List.filterMap (rIntersect t) S = [] := by
      rw [List.filterMap_eq_nil_iff]
      intro s_ hs
      have hafter : beforeB b.hi s_.lo = true := (List.pairwise_cons.mp hpw.2.1).1 s_ hs
      exact rIntersect_none_after ht hsub hafter
    rw [hS]
  rw [hP, hbS]
  rfl

/-- Absorption: intersecting a list of nonempty ranges, each included in some
member of a normalized list `B`, with `B` is the identity. -/
theorem vlInter_absorb : ∀ (C : List VRange), ∀ (B : List VRange), normVLb B = true →
    (∀ t ∈ C, rNonempty t = true ∧ ∃ b ∈ B, rSub t b = true) →
    vlInter C B = C
  | [], _ => by
    intro _ _
    rfl
  | t :: C, B => by
    intro hB hC
    have ht := hC t (by simp)
    simp only [vlInter]
    rw [filterMap_rIntersect_eq B t hB ht.1 ht.2,
      vlInter_absorb C B hB (fun u hu => hC u (by simp [hu]))]
    rfl

theorem normVLb_self_mem {B : List VRange} (hB : normVLb B = true) :
    ∀ t ∈ B, rNonempty t = true ∧ ∃ b ∈ B, rSub t b = true := by
  intro t ht
  simp only [normVLb, Bool.and_eq_true] at hB
  exact ⟨List.all_eq_true.mp hB.1 t ht, t, ht, rSub_refl t⟩

/-- Version-list constraining is idempotent in the (normalized) right
operand. -/
theorem constrainVL_idem {e : SpkErr} {A B C : List VRange} (hB : normVLb B = true)
    (h : constrainVL e A B = .ok C) : constrainVL e C B = .ok C := by
  cases A with
  | nil =>
    simp only [constrainVL] at h
    injection h with h
    subst h
    cases B with
    | nil => rfl
    | cons b bs =>
      have habs : vlInter (b :: bs) (b :: bs) = b :: bs :=
        vlInter_absorb _ _ hB (normVLb_self_mem hB)
      simp only [constrainVL, habs]
  | cons a as =>
    cases B with
    | nil =>
      simp only [constrainVL] at h
      injection h with h
      subst h
      rfl
    | cons b bs =>
      simp only [constrainVL] at h
      rcases hi : vlInter (a :: as) (b :: bs) with _ | ⟨r, rs⟩
      · rw [hi] at h
        exact Except.noConfusion h
      · rw [hi] at h
        injection h with h
        subst h
        have hmem : ∀ t ∈ r :: rs, rNonempty t = true ∧
            ∃ b2 ∈ b :: bs, rSub t b2 = true := by
          intro t ht
          rw [← hi] at ht
          obtain ⟨a0, _, b0, hb0, hio⟩ := mem_vlInter _ _ _ ht
          obtain ⟨hne, hsub⟩ := rIntersect_sound hio
          exact ⟨hne, b0, hb0, hsub⟩
        have habs := vlInter_absorb (r :: rs) (b :: bs) hB hmem
        simp only [constrainVL, habs]

theorem constrainVL_self {e : SpkErr} {B : List VRange} (hB : normVLb B = true) :
    constrainVL e B B = .ok B := by
  cases B with
  | nil => rfl
  | cons b bs =>
    have habs : vlInter (b :: bs) (b :: bs) = b :: bs :=
      vlInter_absorb _ _ hB (normVLb_self_mem hB)
    simp only [constrainVL, habs]

/-- Compiler well-formedness: the version list is normalized when present. -/
def compWFb : Option CompilerSpec → Bool
  | none => true
  | some cc => normVLb cc.versions

theorem constrainCompiler_self {c : Option CompilerSpec} (hc : compWFb c = true) :
    constrainCompiler c c = .ok c := by
  cases c with
  | none => rfl
  | some a =>
    obtain ⟨an, av⟩ := a
    simp only [compWFb] at hc
    simp only [constrainCompiler, if_pos rfl, constrainVL_self hc]
    rfl

theorem constrainCompiler_idem {c1 c2 c : Option CompilerSpec} (h2 : compWFb c2 = true)
    (h : constrainCompiler c1 c2 = .ok c) : constrainCompiler c c2 = .ok c := by
  cases c1 with
  | none =>
    simp only [constrainCompiler] at h
    injection h with h
    subst h
    exact constrainCompiler_self h2
  | some a =>
    cases c2 with
    | none =>
      simp only [constrainCompiler] at h
      injection h with h
      subst h
      rfl
    | some b =>
      simp only [constrainCompiler] at h
      split_ifs at h with hn
      · rcases hv : constrainVL (SpkErr.unsatCompiler a.name) a.versions b.versions
          with e | V
        · rw [hv] at h
          exact Except.noConfusion h
        · rw [hv] at h
          injection h with h
          subst h
          simp only [compWFb] at h2
          have hidem := constrainVL_idem h2 hv
          show (if a.name = b.name then
              (constrainVL (SpkErr.unsatCompiler a.name) V b.versions).map
                (fun v => some (CompilerSpec.mk a.name v))
            else Except.error (SpkErr.unsatCompiler b.name)) =
            Except.ok (some (CompilerSpec.mk a.name V))
          rw [if_pos hn, hidem]
          rfl

theorem constrainArch_self (a : Option String) : constrainArch a a = .ok a := by
  cases a with
  | none => rfl
  | some x => simp [constrainArch]

theorem constrainArch_idem {a1 a2 ar : Option String}
    (h : constrainArch a1 a2 = .ok ar) : constrainArch ar a2 = .ok ar := by
  cases a1 with
  | none =>
    simp only [constrainArch] at h
    injection h with h
    subst h
    exact constrainArch_self a2
  | some x =>
    cases a2 with
    | none =>
      simp only [constrainArch] at h
      injection h with h
      subst h
      rfl
    | some y =>
      simp only [constrainArch] at h
      split_ifs at h with hxy
      · injection h with h
        subst h
        subst hxy
        exact constrainArch_self _

theorem chainB_pairwise {α : Type} (p : α → α → Bool)
    (htr : ∀ a b c, p a b = true → p b c = true → p a c = true) :
    ∀ l : List α, chainB p l = true → l.Pairwise (fun a b => p a b = true)
  | [] => by
    intro _
    exact List.Pairwise.nil
  | [a] => by
    intro _
    simp
  | a :: b :: t => by
    intro hch
    simp only [chainB, Bool.and_eq_true] at hch
    have hp := chainB_pairwise p htr (b :: t) hch.2
    rw [List.pairwise_cons]
    refine ⟨?_, hp⟩
    intro c hc
    rcases List.mem_cons.mp hc with h | h
    · subst h
      exact hch.1
    · exact htr a b c hch.1 ((List.pairwise_cons.mp hp).1 c h)

theorem chain_vr_pairwise {l : List (String × Bool)}
    (h : chainB (fun p q => strCmp p.1 q.1 == .lt) l = true) :
    l.Pairwise (fun p q => strCmp p.1 q.1 = .lt) := by
  have hpw := chainB_pairwise (fun p q : String × Bool => strCmp p.1 q.1 == .lt)
    (fun a b c h1 h2 => by
      rw [obeq_iff] at h1 h2 ⊢
      exact strCmp_laws.lt_trans _ _ _ h1 h2) l h
  exact hpw.imp (fun hq => obeq_iff.mp hq)

theorem pairwise_keys_nodup {α : Type} (key : α → String) {l : List α}
    (h : l.Pairwise (fun p q => strCmp (key p) (key q) = .lt)) :
    (l.map key).Nodup := by
  rw [List.Nodup, List.pairwise_map]
  refine h.imp ?_
  intro a b hlt he
  have heq := (strCmp_laws.eq_iff (key a) (key b)).mpr he
  rw [heq] at hlt
  exact Ordering.noConfusion hlt

theorem lookupVar_eq_none_iff {k : String} : ∀ l : List (String × Bool),
    lookupVar k l = none ↔ k ∉ l.map Prod.fst
  | [] => by simp [lookupVar]
  | v :: vs => by
    simp only [lookupVar, List.map_cons, List.mem_cons]
    split_ifs with hv
    · simp [hv]
    · rw [lookupVar_eq_none_iff vs]
      constructor
      · intro h hm
        rcases hm with hm | hm
        · exact hv hm.symm
        · exact h hm
      · intro h hm
        exact h (Or.inr hm)

theorem lookupVar_some_mem {k : String} {b : Bool} : ∀ l : List (String × Bool),
    lookupVar k l = some b → (k, b) ∈ l
  | [] => by
    intro h
    simp [lookupVar] at h
  | v :: vs => by
    intro h
    simp only [lookupVar] at h
    split_ifs at h with hv
    · injection h with h
      subst h
      subst hv
      exact List.mem_cons.mpr (Or.inl rfl)
    · exact List.mem_cons.mpr (Or.inr (lookupVar_some_mem vs h))

theorem lookupVar_mem_of_nodup {k : String} {b : Bool} : ∀ l : List (String × Bool),
    (l.map Prod.fst).Nodup → (k, b) ∈ l → lookupVar k l = some b
  | [] => by
    intro _ h
    simp at h
  | v :: vs => by
    intro hnd hm
    simp only [List.map_cons, List.nodup_cons] at hnd
    simp only [lookupVar]
    rcases List.mem_cons.mp hm with h | h
    · rw [← h, if_pos rfl]
    · split_ifs with hv
      · exfalso
        have hkm : k ∈ vs.map Prod.fst := List.mem_map_of_mem Prod.fst h
        exact hnd.1 (by rw [hv]; exact hkm)
      · exact lookupVar_mem_of_nodup vs hnd.2 h

theorem lookupVar_append {k : String} : ∀ l1 l2 : List (String × Bool),
    lookupVar k (l1 ++ l2) = (match lookupVar k l1 with
      | some b => some b
      | none => lookupVar k l2)
  | [], l2 => rfl
  | v :: vs, l2 => by
    simp only [List.cons_append, lookupVar]
    split_ifs with hv
    · rfl
    · exact lookupVar_append vs l2

theorem lookupVar_perm {k : String} {l l2 : List (String × Bool)} (hp : l.Perm l2)
    (hnd : (l.map Prod.fst).Nodup) : lookupVar k l = lookupVar k l2 := by
  have hnd2 : (l2.map Prod.fst).Nodup := ((hp.map Prod.fst).nodup_iff).mp hnd
  rcases hl : lookupVar k l with _ | b
  · rcases hl2 : lookupVar k l2 with _ | b2
    · rfl
    · exfalso
      have hm := lookupVar_some_mem l2 hl2
      have hml : (k, b2) ∈ l := hp.mem_iff.mpr hm
      rw [lookupVar_eq_none_iff] at hl
      exact hl (List.mem_map_of_mem Prod.fst hml)
  · have hm := lookupVar_some_mem l hl
    exact (lookupVar_mem_of_nodup l2 hnd2 (hp.mem_iff.mp hm)).symm

theorem firstConflict_none_iff {v1 : List (String × Bool)} :
    ∀ v2 : List (String × Bool), firstConflict v1 v2 = none ↔
      ∀ p ∈ v2, ∀ b, lookupVar p.1 v1 = some b → b = p.2
  | [] => by simp [firstConflict]
  | p :: ps => by
    rcases hl : lookupVar p.1 v1 with _ | b
    · simp only [firstConflict, hl]
      rw [firstConflict_none_iff ps]
      constructor
      · intro h q hq b2 hb2
        rcases List.mem_cons.mp hq with hq1 | hq1
        · subst hq1
          rw [hl] at hb2
          exact Option.noConfusion hb2
        · exact h q hq1 b2 hb2
      · intro h q hq b2 hb2
        exact h q (List.mem_cons.mpr (Or.inr hq)) b2 hb2
    · simp only [firstConflict, hl]
      split_ifs with hb
      · rw [firstConflict_none_iff ps]
        constructor
        · intro h q hq b2 hb2
          rcases List.mem_cons.mp hq with hq1 | hq1
          · subst hq1
            rw [hl] at hb2
            injection hb2 with hb2
            subst hb2
            exact hb
          · exact h q hq1 b2 hb2
        · intro h q hq b2 hb2
          exact h q (List.mem_cons.mpr (Or.inr hq)) b2 hb2
      · constructor
        · intro h
          exact h.elim
        · intro h
          exact absurd (h p (by simp) b hl) hb

theorem vkLE_of_keylt {p q : String × Bool} (h : strCmp p.1 q.1 = .lt) : vkLE p q := by
  show (match strCmp p.1 q.1 with
    | Ordering.eq => boolCmp p.2 q.2
    | o => o) ≠ Ordering.gt
  rw [h]
  simp

theorem sortVariants_eq_of_pairwise_lt {l : List (String × Bool)}
    (h : l.Pairwise (fun p q => strCmp p.1 q.1 = .lt)) : sortVariants l = l :=
  List.Sorted.insertionSort_eq (h.imp vkLE_of_keylt)

/-- Constraining a well-formed variant map with itself is the identity. -/
theorem constrainVariants_self {v : List (String × Bool)}
    (h : chainB (fun p q => strCmp p.1 q.1 == .lt) v = true) :
    constrainVariants v v = .ok v := by
  have hpw := chain_vr_pairwise h
  have hnd := pairwise_keys_nodup Prod.fst hpw
  have hnoc : firstConflict v v = none := by
    rw [firstConflict_none_iff]
    intro p hp b hb
    have hself : lookupVar p.1 v = some p.2 := lookupVar_mem_of_nodup v hnd hp
    rw [hself] at hb
    injection hb with hb
    exact hb.symm
  simp only [constrainVariants, hnoc]
  have hfil : v.filter (fun p => (lookupVar p.1 v).isNone) = [] := by
    rw [List.filter_eq_nil_iff]
    intro p hp
    have hself : lookupVar p.1 v = some p.2 := lookupVar_mem_of_nodup v hnd hp
    simp [hself]
  rw [hfil, List.append_nil, sortVariants_eq_of_pairwise_lt hpw]

/-- Variant constraining is idempotent on well-formed variant maps. -/
theorem constrainVariants_idem {v1 v2 v : List (String × Bool)}
    (h1 : chainB (fun p q => strCmp p.1 q.1 == .lt) v1 = true)
    (h2 : chainB (fun p q => strCmp p.1 q.1 == .lt) v2 = true)
    (h : constrainVariants v1 v2 = .ok v) : constrainVariants v v2 = .ok v := by
  have hpw1 := chain_vr_pairwise h1
  have hnd1 := pairwise_keys_nodup Prod.fst hpw1
  have hpw2 := chain_vr_pairwise h2
  have hnd2 := pairwise_keys_nodup Prod.fst hpw2
  simp only [constrainVariants] at h
  rcases hfc : firstConflict v1 v2 with _ | k
  · rw [hfc] at h
    injection h with h
    have hv : v = sortVariants (v1 ++ v2.filter (fun p => (lookupVar p.1 v1).isNone)) :=
      h.symm
    have hperm : (v1 ++ v2.filter (fun p => (lookupVar p.1 v1).isNone)).Perm v := by
      rw [hv]
      exact (List.perm_insertionSort vkLE _).symm
    have hndw : ((v2.filter (fun p => (lookupVar p.1 v1).isNone)).map Prod.fst).Nodup :=
      List.Nodup.sublist (List.Sublist.map Prod.fst (List.filter_sublist v2)) hnd2
    have hdisj : List.Disjoint (v1.map Prod.fst)
        ((v2.filter (fun p => (lookupVar p.1 v1).isNone)).map Prod.fst) := by
      intro x hx1 hxw
      obtain ⟨p, hpw_, hpx⟩ := List.mem_map.mp hxw
      have hpf := List.mem_filter.mp hpw_
      have hnone : lookupVar p.1 v1 = none := by
        have := hpf.2
        simp only [Option.isNone_iff_eq_none] at this
        exact this
      rw [lookupVar_eq_none_iff] at hnone
      rw [← hpx] at hx1
      exact hnone hx1
    have hnd12 : ((v1 ++ v2.filter (fun p => (lookupVar p.1 v1).isNone)).map Prod.fst).Nodup := by
      rw [List.map_append]
      exact List.Nodup.append hnd1 hndw hdisj
    have hlook : ∀ x, lookupVar x (v1 ++ v2.filter (fun p => (lookupVar p.1 v1).isNone)) =
        lookupVar x v := fun x => lookupVar_perm hperm hnd12
    have hconf : firstConflict v v2 = none := by
      rw [firstConflict_none_iff]
      intro p hp b hb
      have hb2 : lookupVar p.1 (v1 ++ v2.filter (fun q => (lookupVar q.1 v1).isNone)) =
          some b := by
        rw [hlook]
        exact hb
      rw [lookupVar_append] at hb2
      rcases hl1 : lookupVar p.1 v1 with _ | b1
      · rw [hl1] at hb2
        have hpmem : p ∈ v2.filter (fun q => (lookupVar q.1 v1).isNone) :=
          List.mem_filter.mpr ⟨hp, by simp [hl1]⟩
        have hself : lookupVar p.1 (v2.filter (fun q => (lookupVar q.1 v1).isNone)) =
            some p.2 := lookupVar_mem_of_nodup _ hndw hpmem
        rw [hself] at hb2
        injection hb2 with hb2
        exact hb2.symm
      · rw [hl1] at hb2
        injection hb2 with hb2
        subst hb2
        exact (firstConflict_none_iff v2).mp hfc p hp b1 hl1
    have hfil : v2.filter (fun p => (lookupVar p.1 v).isNone) = [] := by
      rw [List.filter_eq_nil_iff]
      intro p hp
      have hb2 : lookupVar p.1 v =
          lookupVar p.1 (v1 ++ v2.filter (fun q => (lookupVar q.1 v1).isNone)) :=
        (hlook p.1).symm
      rw [hb2, lookupVar_append]
      rcases hl1 : lookupVar p.1 v1 with _ | b1
      · have hpmem : p ∈ v2.filter (fun q => (lookupVar q.1 v1).isNone) :=
          List.mem_filter.mpr ⟨hp, by simp [hl1]⟩
        rw [lookupVar_mem_of_nodup _ hndw hpmem]
        simp
      · simp
    have hsorted : List.Sorted vkLE v := by
      rw [hv]
      exact List.sorted_insertionSort vkLE _
    have hsortv : sortVariants v = v := List.Sorted.insertionSort_eq hsorted
    simp only [constrainVariants, hconf, hfil, List.append_nil, hsortv]
  · rw [hfc] at h
    exact Except.noConfusion h

theorem strLE_refl (a : String) : strLE a a := by
  unfold strLE
  rw [(strCmp_laws.eq_iff a a).mpr rfl]
  simp

theorem strict_sorted_eq_of_mem_iff : ∀ (l l2 : List String),
    l.Pairwise (fun a b => strCmp a b = .lt) →
    l2.Pairwise (fun a b => strCmp a b = .lt) →
    (∀ x, x ∈ l ↔ x ∈ l2) → l = l2
  | [], [] => by
    intro _ _ _
    rfl
  | [], b :: t2 => by
    intro _ _ hm
    exact absurd ((hm b).mpr (by simp)) (by simp)
  | a :: t1, [] => by
    intro _ _ hm
    exact absurd ((hm a).mp (by simp)) (by simp)
  | a :: t1, b :: t2 => by
    intro h1 h2 hm
    have hab : a = b := by
      by_contra hne
      have ha2 : a ∈ b :: t2 := (hm a).mp (by simp)
      have hb1 : b ∈ a :: t1 := (hm b).mpr (by simp)
      have ha2m : a ∈ t2 := by
        rcases List.mem_cons.mp ha2 with h | h
        · exact absurd h hne
        · exact h
      have hb1m : b ∈ t1 := by
        rcases List.mem_cons.mp hb1 with h | h
        · exact absurd h.symm hne
        · exact h
      have hlt1 : strCmp a b = .lt := (List.pairwise_cons.mp h1).1 b hb1m
      have hlt2 : strCmp b a = .lt := (List.pairwise_cons.mp h2).1 a ha2m
      have hcon := strCmp_laws.lt_trans a b a hlt1 hlt2
      rw [(strCmp_laws.eq_iff a a).mpr rfl] at hcon
      exact Ordering.noConfusion hcon
    subst hab
    have hnm : ∀ x, x ∈ t1 ↔ x ∈ t2 := by
      intro x
      constructor
      · intro hx
        have hxl2 : x ∈ a :: t2 := (hm x).mp (by simp [hx])
        rcases List.mem_cons.mp hxl2 with h | h
        · exfalso
          rw [h] at hx
          have hcon := (List.pairwise_cons.mp h1).1 a hx
          rw [(strCmp_laws.eq_iff a a).mpr rfl] at hcon
          exact Ordering.noConfusion hcon
        · exact h
      · intro hx
        have hxl1 : x ∈ a :: t1 := (hm x).mpr (by simp [hx])
        rcases List.mem_cons.mp hxl1 with h | h
        · exfalso
          rw [h] at hx
          have hcon := (List.pairwise_cons.mp h2).1 a hx
          rw [(strCmp_laws.eq_iff a a).mpr rfl] at hcon
          exact Ordering.noConfusion hcon
        · exact h
    rw [strict_sorted_eq_of_mem_iff t1 t2 (List.pairwise_cons.mp h1).2
      (List.pairwise_cons.mp h2).2 hnm]

theorem dedupSorted_pairwise_lt : ∀ l : List String, l.Pairwise strLE →
    (dedupSorted l).Pairwise (fun a b => strCmp a b = .lt)
  | [] => by
    intro _
    exact List.Pairwise.nil
  | [x] => by
    intro _
    simp [dedupSorted]
  | x :: y :: t => by
    intro h
    have htail : (y :: t).Pairwise strLE := (List.pairwise_cons.mp h).2
    have ih := dedupSorted_pairwise_lt (y :: t) htail
    simp only [dedupSorted]
    split_ifs with hxy
    · exact ih
    · rw [List.pairwise_cons]
      refine ⟨?_, ih⟩
      intro z hz
      rw [mem_dedupSorted_iff] at hz
      have hxz : strLE x z := (List.pairwise_cons.mp h).1 z hz
      have hyz : strLE y z := by
        rcases List.mem_cons.mp hz with h2 | h2
        · rw [h2]
          exact strLE_refl y
        · exact (List.pairwise_cons.mp htail).1 z h2
      have hxz_ne : x ≠ z := by
        intro he
        subst he
        have hxy_le : strLE x y := (List.pairwise_cons.mp h).1 y (by simp)
        exact hxy (cmpLE_antisymm strCmp_laws hxy_le hyz)
      unfold strLE at hxz
      rcases hc : strCmp x z with _ | _ | _
      · rfl
      · exact absurd ((strCmp_laws.eq_iff x z).mp hc) hxz_ne
      · exact absurd hc hxz

theorem mergeKeys_pairwise_lt (k1 k2 : List String) :
    (mergeKeys k1 k2).Pairwise (fun a b => strCmp a b = .lt) := by
  unfold mergeKeys
  exact dedupSorted_pairwise_lt _ (List.sorted_insertionSort strLE _)

theorem mergeKeys_absorb {K X : List String}
    (hK : K.Pairwise (fun a b => strCmp a b = .lt)) (hX : ∀ x ∈ X, x ∈ K) :
    mergeKeys K X = K := by
  unfold mergeKeys
  apply strict_sorted_eq_of_mem_iff
  · exact dedupSorted_pairwise_lt _ (List.sorted_insertionSort strLE _)
  · exact hK
  · intro x
    rw [mem_dedupSorted_iff, List.mem_insertionSort, List.mem_append]
    constructor
    · intro h
      rcases h with h | h
      · exact h
      · exact hX x h
    · intro h
      exact Or.inl h

theorem pure_ok {β : Type} (b : β) : (pure b : Except SpkErr β) = .ok b := rfl

theorem mapM_ok_forall2 {α β : Type} (F : α → Except SpkErr β) :
    ∀ (ks : List α) (out : List β), ks.mapM F = .ok out →
      List.Forall₂ (fun k s => F k = .ok s) ks out
  | [], out => by
    intro h
    injection h with h
    subst h
    exact List.Forall₂.nil
  | k :: ks, out => by
    intro h
    rw [List.mapM_cons] at h
    rcases hk : F k with e | x
    · rw [hk, error_bind] at h
      exact Except.noConfusion h
    · rw [hk, ok_bind] at h
      rcases hm : ks.mapM F with e2 | xs
      · rw [hm, error_bind] at h
        exact Except.noConfusion h
      · rw [hm, ok_bind, pure_ok] at h
        injection h with h
        subst h
        exact List.Forall₂.cons hk (mapM_ok_forall2 F ks xs hm)

theorem mapM_ok_of_forall2 {α β : Type} (F : α → Except SpkErr β) :
    ∀ {ks : List α} {out : List β}, List.Forall₂ (fun k s => F k = .ok s) ks out →
      ks.mapM F = .ok out := by
  intro ks out h
  induction h with
  | nil => rfl
  | cons hk _ ih =>
    rw [List.mapM_cons, hk, ok_bind, ih, ok_bind, pure_ok]

theorem forall2_mono_mem {α β : Type} {R S : α → β → Prop} :
    ∀ {K : List α} {ds : List β}, List.Forall₂ R K ds →
      (∀ k s, k ∈ K → R k s → S k s) → List.Forall₂ S K ds := by
  intro K ds h
  induction h with
  | nil =>
    intro _
    exact List.Forall₂.nil
  | cons hk _ ih =>
    intro himp
    refine List.Forall₂.cons (himp _ _ (by simp) hk) (ih ?_)
    intro k s hks hr
    exact himp k s (by simp [hks]) hr

theorem forall2_conj {α β : Type} {R S : α → β → Prop} :
    ∀ {K : List α} {ds : List β}, List.Forall₂ R K ds → List.Forall₂ S K ds →
      List.Forall₂ (fun k s => R k s ∧ S k s) K ds := by
  intro K ds h1
  induction h1 with
  | nil =>
    intro _
    exact List.Forall₂.nil
  | cons hk _ ih =>
    intro h2
    cases h2 with
    | cons hk2 htail2 => exact List.Forall₂.cons ⟨hk, hk2⟩ (ih htail2)

theorem forall2_map_eq {K : List String} {ds : List Spec}
    (h : List.Forall₂ (fun k (s : Spec) => s.name = k) K ds) : ds.map Spec.name = K := by
  induction h with
  | nil => rfl
  | cons hk _ ih => simp [ih, hk]

theorem depNames_ofList : ∀ ds : List Spec, depNames (Deps.ofList ds) = ds.map Spec.name
  | [] => rfl
  | s :: rest => by simp [Deps.ofList, depNames, depNames_ofList rest]

theorem ofList_toList : ∀ d : Deps, Deps.ofList (Deps.toList d) = d
  | .nil => rfl
  | .cons s rest => by simp [Deps.toList, Deps.ofList, ofList_toList rest]

theorem depNames_forall2_name : ∀ d : Deps,
    List.Forall₂ (fun k (s : Spec) => s.name = k) (depNames d) (Deps.toList d)
  | .nil => List.Forall₂.nil
  | .cons s rest => List.Forall₂.cons rfl (depNames_forall2_name rest)

theorem forall2_lookup_ofList :
    ∀ {K : List String} {ds : List Spec},
      List.Forall₂ (fun k (s : Spec) => s.name = k) K ds → K.Nodup →
      List.Forall₂ (fun k s => lookupDep k (Deps.ofList ds) = some s) K ds := by
  intro K ds h
  induction h with
  | nil =>
    intro _
    exact List.Forall₂.nil
  | @cons k0 s0 Kt dst hk htail ih =>
    intro hnd
    rw [List.nodup_cons] at hnd
    refine List.Forall₂.cons ?_ ?_
    · show lookupDep k0 (Deps.ofList (s0 :: dst)) = some s0
      simp [Deps.ofList, lookupDep, hk]
    · refine forall2_mono_mem (ih hnd.2) ?_
      intro k s hkmem hlk
      show lookupDep k (Deps.ofList (s0 :: dst)) = some s
      simp only [Deps.ofList, lookupDep]
      rw [if_neg]
      · exact hlk
      · rw [hk]
        intro he
        rw [← he] at hkmem
        exact hnd.1 hkmem

theorem depNames_forall2_lookup (d : Deps) (hnd : (depNames d).Nodup) :
    List.Forall₂ (fun k s => lookupDep k d = some s) (depNames d) (Deps.toList d) := by
  have h := forall2_lookup_ofList (depNames_forall2_name d) hnd
  rw [ofList_toList] at h
  exact h

theorem Deps.wf_mem : ∀ d : Deps, Deps.wf d = true → ∀ s ∈ Deps.toList d, Spec.wf s = true
  | .nil => by
    intro _ s hs
    simp [Deps.toList] at hs
  | .cons x rest => by
    intro h s hs
    simp only [Deps.wf, Bool.and_eq_true] at h
    simp only [Deps.toList, List.mem_cons] at hs
    rcases hs with hs | hs
    · subst hs
      exact h.1
    · exact Deps.wf_mem rest h.2 s hs

theorem constrainF_name : ∀ (f : Nat) (a b c : Spec), constrainF f a b = .ok c →
    c.name = a.name
  | 0, a, b, c => by
    intro h
    exact Except.noConfusion h
  | f + 1, a, b, c => by
    intro h
    obtain ⟨n1, v1, c1, vr1, a1, d1⟩ := a
    obtain ⟨n2, v2, c2, vr2, a2, d2⟩ := b
    simp only [constrainF] at h
    split_ifs at h with hn
    rcases hv : constrainVL (SpkErr.unsatVersion n1) v1 v2 with e | v
    · rw [hv, error_bind] at h
      exact Except.noConfusion h
    · rw [hv, ok_bind] at h
      rcases hc : constrainCompiler c1 c2 with e | cc
      · rw [hc, error_bind] at h
        exact Except.noConfusion h
      · rw [hc, ok_bind] at h
        rcases hvr : constrainVariants vr1 vr2 with e | vr
        · rw [hvr, error_bind] at h
          exact Except.noConfusion h
        · rw [hvr, ok_bind] at h
          rcases har : constrainArch a1 a2 with e | ar
          · rw [har, error_bind] at h
            exact Except.noConfusion h
          · rw [har, ok_bind] at h
            rcases hds : (mergeKeys (depNames d1) (depNames d2)).mapM (fun k =>
                match lookupDep k d1, lookupDep k d2 with
                | some x, some y => constrainF f x y
                | some x, none => .ok x
                | none, some y => .ok y
                | none, none => .error .parseErr) with e | ds
            · rw [hds, error_bind] at h
              exact Except.noConfusion h
            · rw [hds, ok_bind] at h
              injection h with h
              rw [← h]
              rfl

theorem chain_keys_pairwise {l : List String}
    (h : chainB (fun p q => strCmp p q == .lt) l = true) :
    l.Pairwise (fun a b => strCmp a b = .lt) := by
  have hpw := chainB_pairwise (fun p q : String => strCmp p q == .lt)
    (fun a b c h1 h2 => by
      rw [obeq_iff] at h1 h2 ⊢
      exact strCmp_laws.lt_trans _ _ _ h1 h2) l h
  exact hpw.imp (fun hq => obeq_iff.mp hq)

theorem pairwise_lt_nodup {l : List String}
    (h : l.Pairwise (fun a b => strCmp a b = .lt)) : l.Nodup := by
  have hnd := pairwise_keys_nodup id h
  rwa [List.map_id] at hnd

/-- Constraining a well-formed spec with itself is the identity (given enough
fuel). -/
theorem constrainF_self : ∀ (f : Nat) (y : Spec), Spec.wf y = true → Spec.size y ≤ f →
    constrainF f y y = .ok y
  | 0, y => by
    intro _ hsz
    have := Spec.size_pos y
    omega
  | f + 1, y => by
    intro hwf hsz
    obtain ⟨n, v, c, vr, ar, d⟩ := y
    simp only [Spec.wf, Bool.and_eq_true] at hwf
    obtain ⟨⟨⟨⟨hv, hc⟩, hvr⟩, hdn⟩, hdw⟩ := hwf
    simp only [Spec.size] at hsz
    have hcW : compWFb c = true := hc
    have hNpw := chain_keys_pairwise hdn
    have hNnd := pairwise_lt_nodup hNpw
    have hmk : mergeKeys (depNames d) (depNames d) = depNames d :=
      mergeKeys_absorb hNpw (fun x hx => hx)
    have hlkF := depNames_forall2_lookup d hNnd
    have hF2 : List.Forall₂ (fun k s =>
        (match lookupDep k d, lookupDep k d with
         | some x, some y => constrainF f x y
         | some x, none => Except.ok x
         | none, some y => Except.ok y
         | none, none => Except.error SpkErr.parseErr) = Except.ok s)
        (depNames d) (Deps.toList d) := by
      refine forall2_mono_mem hlkF ?_
      intro k s _ hlk
      rw [hlk]
      have hmem := (lookupDep_some_mem d k s hlk).1
      have hwfs := Deps.wf_mem d hdw s hmem
      have hszs := size_le_of_mem_toList d s hmem
      exact constrainF_self f s hwfs (by omega)
    have hmapm := mapM_ok_of_forall2 _ hF2
    simp only [constrainF, if_pos rfl, constrainVL_self hv, ok_bind,
      constrainCompiler_self hcW, constrainVariants_self hvr, constrainArch_self,
      hmk, hmapm, ofList_toList]
    rfl

/-- Main idempotence lemma: a successful constrain result, re-constrained
with the same right operand (at sufficient fuel), is returned unchanged. -/
theorem constrainF_idem : ∀ (g : Nat) (a b c : Spec), Spec.wf a = true →
    Spec.wf b = true → (∃ f, constrainF f a b = .ok c) →
    Spec.size c + Spec.size b + 1 ≤ g → constrainF g c b = .ok c
  | 0, a, b, c => by
    intro _ _ _ hg
    have h1 := Spec.size_pos c
    have h2 := Spec.size_pos b
    omega
  | g + 1, a, b, c => by
    intro hwa hwb hex hg
    obtain ⟨f, hf⟩ := hex
    cases f with
    | zero => exact Except.noConfusion hf
    | succ f =>
      obtain ⟨n1, v1, c1, vr1, a1, d1⟩ := a
      obtain ⟨n2, v2, c2, vr2, a2, d2⟩ := b
      simp only [Spec.wf, Bool.and_eq_true] at hwa hwb
      obtain ⟨⟨⟨⟨hv1, hc1⟩, hvr1⟩, hdn1⟩, hdw1⟩ := hwa
      obtain ⟨⟨⟨⟨hv2, hc2⟩, hvr2⟩, hdn2⟩, hdw2⟩ := hwb
      have hc2W : compWFb c2 = true := hc2
      simp only [constrainF] at hf
      split_ifs at hf with hn
      rcases hv : constrainVL (SpkErr.unsatVersion n1) v1 v2 with e | v
      · rw [hv, error_bind] at hf
        exact Except.noConfusion hf
      · rw [hv, ok_bind] at hf
        rcases hc : constrainCompiler c1 c2 with e | cc
        · rw [hc, error_bind] at hf
          exact Except.noConfusion hf
        · rw [hc, ok_bind] at hf
          rcases hvr : constrainVariants vr1 vr2 with e | vr
          · rw [hvr, error_bind] at hf
            exact Except.noConfusion hf
          · rw [hvr, ok_bind] at hf
            rcases har : constrainArch a1 a2 with e | ar
            · rw [har, error_bind] at hf
              exact Except.noConfusion hf
            · rw [har, ok_bind] at hf
              rcases hds : (mergeKeys (depNames d1) (depNames d2)).mapM (fun k =>
                  match lookupDep k d1, lookupDep k d2 with
                  | some x, some y => constrainF f x y
                  | some x, none => .ok x
                  | none, some y => .ok y
                  | none, none => .error .parseErr) with e | ds
              · rw [hds, error_bind] at hf
                exact Except.noConfusion hf
              · rw [hds, ok_bind] at hf
                injection hf with hf
                subst hf
                simp only [Spec.size] at hg
                have hF2 := mapM_ok_forall2 _ _ _ hds
                have hnames : List.Forall₂ (fun k (s : Spec) => s.name = k)
                    (mergeKeys (depNames d1) (depNames d2)) ds := by
                  refine forall2_mono_mem hF2 ?_
                  intro k s _ hFk
                  rcases h1 : lookupDep k d1 with _ | x <;>
                    rcases h2 : lookupDep k d2 with _ | y <;> rw [h1, h2] at hFk
                  · exact Except.noConfusion hFk
                  · injection hFk with hFk
                    rw [← hFk]
                    exact (lookupDep_some_mem d2 k y h2).2
                  · injection hFk with hFk
                    rw [← hFk]
                    exact (lookupDep_some_mem d1 k x h1).2
                  · have hnm := constrainF_name f x y s hFk
                    rw [hnm]
                    exact (lookupDep_some_mem d1 k x h1).2
                have hKpw := mergeKeys_pairwise_lt (depNames d1) (depNames d2)
                have hKnd := pairwise_lt_nodup hKpw
                have hdnames : depNames (Deps.ofList ds) =
                    mergeKeys (depNames d1) (depNames d2) := by
                  rw [depNames_ofList, forall2_map_eq hnames]
                have hmerge : mergeKeys (depNames (Deps.ofList ds)) (depNames d2) =
                    mergeKeys (depNames d1) (depNames d2) := by
                  rw [hdnames]
                  exact mergeKeys_absorb hKpw
                    (fun x hx => (mem_mergeKeys_iff _ _ x).mpr (Or.inr hx))
                have hlkc := forall2_lookup_ofList hnames hKnd
                have hG2 : List.Forall₂ (fun k s =>
                    (match lookupDep k (Deps.ofList ds), lookupDep k d2 with
                     | some x, some y => constrainF g x y
                     | some x, none => Except.ok x
                     | none, some y => Except.ok y
                     | none, none => Except.error SpkErr.parseErr) = Except.ok s)
                    (mergeKeys (depNames d1) (depNames d2)) ds := by
                  refine forall2_mono_mem (forall2_conj hF2 hlkc) ?_
                  intro k s _ hks
                  obtain ⟨hFk, hlk⟩ := hks
                  rcases h2 : lookupDep k d2 with _ | y
                  · rw [hlk]
                  · rw [hlk]
                    rw [h2] at hFk
                    have hy := lookupDep_some_mem d2 k y h2
                    have hwfy := Deps.wf_mem d2 hdw2 y hy.1
                    have hysz := size_le_of_mem_toList d2 y hy.1
                    have hsmem : s ∈ Deps.toList (Deps.ofList ds) :=
                      (lookupDep_some_mem _ k s hlk).1
                    have hssz := size_le_of_mem_toList _ s hsmem
                    rcases h1 : lookupDep k d1 with _ | x
                    · rw [h1] at hFk
                      injection hFk with hFk
                      subst hFk
                      exact constrainF_self g y hwfy (by omega)
                    · rw [h1] at hFk
                      have hx := lookupDep_some_mem d1 k x h1
                      have hwfx := Deps.wf_mem d1 hdw1 x hx.1
                      exact constrainF_idem g x y s hwfx hwfy ⟨f, hFk⟩ (by omega)
                have hmapm2 := mapM_ok_of_forall2 _ hG2
                simp only [constrainF, if_pos hn, constrainVL_idem hv2 hv, ok_bind,
                  constrainCompiler_idem hc2W hc, constrainVariants_idem hvr1 hvr2 hvr,
                  constrainArch_idem har, hmerge, hmapm2]

/-- C9: constrain is idempotent in its second argument — for well-formed
specs, whenever `a.constrain b` succeeds with result `c`, constraining `c`
with `b` again succeeds and returns the equal spec `c`, i.e.
`constrain (constrain a b) b == constrain a b`. -/
theorem C9_constrain_idempotent (a b c : Spec) (hwa : Spec.wf a = true)
    (hwb : Spec.wf b = true) (h : a.constrain b = .ok c) :
    c.constrain b = .ok c := by
  unfold Spec.constrain at h ⊢
  exact constrainF_idem _ a b c hwa hwb ⟨_, h⟩ (by omega)

/-- Witness for C9 at a constrain instance of the test suite, with a
dependency to exercise the recursive merge. -/
theorem C9_constrain_idempotent_witness :
    Spec.wf (specOf "libdwarf^libelf@2.1:3") = true ∧
    Spec.wf (specOf "libdwarf^libelf@0:2.5") = true ∧
    (specOf "libdwarf^libelf@2.1:3").constrain (specOf "libdwarf^libelf@0:2.5") =
      .ok (specOf "libdwarf^libelf@2.1:2.5") ∧
    (specOf "libdwarf^libelf@2.1:2.5").constrain (specOf "libdwarf^libelf@0:2.5") =
      .ok (specOf "libdwarf^libelf@2.1:2.5") :=
  ⟨by decide, by decide, by decide,
    C9_constrain_idempotent (specOf "libdwarf^libelf@2.1:3")
      (specOf "libdwarf^libelf@0:2.5") (specOf "libdwarf^libelf@2.1:2.5")
      (by decide) (by decide) (by decide)⟩

theorem strOfToks_data : ∀ ts : List Tok, (strOfToks ts).data = charsOfToks ts
  | [] => rfl
  | [t] => rfl
  | t :: u :: rest => by
    show (strOfTok t ++ (if needSep t u then " " else "") ++ strOfToks (u :: rest)).data =
      charsOfTok t ++ (if needSep t u then [' '] else []) ++ charsOfToks (u :: rest)
    rw [String.data_append, String.data_append, strOfToks_data (u :: rest)]
    cases hsep : needSep t u <;> simp [charsOfTok]

theorem symFacts : ∀ u : Tok, tokIsId u = false → ∃ c, charsOfTok u = [c] ∧
    isIdStart c = false ∧ isIdChar c = false ∧ c.isWhitespace = false ∧
    symTok c = some u
  | .ID s => by
    intro h
    simp [tokIsId] at h
  | .AT => fun _ => ⟨'@', rfl, by decide, by decide, by decide, by decide⟩
  | .COLON => fun _ => ⟨':', rfl, by decide, by decide, by decide, by decide⟩
  | .COMMA => fun _ => ⟨',', rfl, by decide, by decide, by decide, by decide⟩
  | .PCT => fun _ => ⟨'%', rfl, by decide, by decide, by decide, by decide⟩
  | .DEP => fun _ => ⟨'^', rfl, by decide, by decide, by decide, by decide⟩
  | .ON => fun _ => ⟨'+', rfl, by decide, by decide, by decide, by decide⟩
  | .OFF => fun _ => ⟨'~', rfl, by decide, by decide, by decide, by decide⟩
  | .EQ => fun _ => ⟨'=', rfl, by decide, by decide, by decide, by decide⟩

theorem needSep_of_not_id {t u : Tok} (h : tokIsId t = false) : needSep t u = false := by
  cases t <;> cases u <;> first
    | rfl
    | simp [tokIsId] at h

theorem charsOfToks_cons_of_sym {u : Tok} (h : tokIsId u = false) :
    ∀ rest : List Tok, charsOfToks (u :: rest) = charsOfTok u ++ charsOfToks rest
  | [] => by simp [charsOfToks]
  | w :: ws => by
    show charsOfTok u ++ (if needSep u w then [' '] else []) ++ charsOfToks (w :: ws) =
      charsOfTok u ++ charsOfToks (w :: ws)
    rw [needSep_of_not_id h]
    simp

theorem lexLoop_some_run : ∀ (cs : List Char) (acc rest : List Char),
    cs.all isIdChar = true →
    lexLoop (some acc) (cs ++ rest) = lexLoop (some (cs.reverse ++ acc)) rest
  | [], acc, rest => by
    intro _
    simp
  | c :: cs, acc, rest => by
    intro h
    simp only [List.all_cons, Bool.and_eq_true] at h
    show lexLoop (some acc) (c :: (cs ++ rest)) = _
    rw [lexLoop, if_pos h.1, lexLoop_some_run cs (c :: acc) rest h.2]
    simp

theorem lexLoop_some_sym {c : Char} {t : Tok} (acc cs : List Char)
    (h1 : isIdChar c = false) (h2 : c.isWhitespace = false) (h3 : symTok c = some t) :
    lexLoop (some acc) (c :: cs) =
      (lexLoop none cs).map (fun r => Tok.ID (mkRev acc) :: t :: r) := by
  rw [lexLoop, if_neg (by simp [h1]), if_neg (by simp [h2]), h3]

theorem lexLoop_none_sym {c : Char} {t : Tok} (cs : List Char)
    (h0 : isIdStart c = false) (h2 : c.isWhitespace = false) (h3 : symTok c = some t) :
    lexLoop none (c :: cs) = (lexLoop none cs).map (t :: ·) := by
  rw [lexLoop, if_neg (by simp [h0]), if_neg (by simp [h2]), h3]

theorem lexLoop_some_ws (acc cs : List Char) (h1 : isIdChar ' ' = false)
    (h2 : (' ' : Char).isWhitespace = true) :
    lexLoop (some acc) (' ' :: cs) =
      (lexLoop none cs).map (Tok.ID (mkRev acc) :: ·) := by
  rw [lexLoop, if_neg (by simp [h1]), if_pos h2]

theorem mkRev_data_reverse (s : String) : mkRev s.data.reverse = s := by
  unfold mkRev
  rw [List.reverse_reverse]

theorem lexLoop_none_id {s : String} (h : validId s = true) (after : List Char) :
    lexLoop none (s.data ++ after) = lexLoop (some s.data.reverse) after := by
  unfold validId at h
  rcases hd : s.data with _ | ⟨c, cs⟩
  · rw [hd] at h
    exact absurd h (by simp)
  · rw [hd] at h
    simp only [Bool.and_eq_true] at h
    show lexLoop none (c :: (cs ++ after)) = _
    rw [lexLoop, if_pos (by simp [isIdChar, isIdStart] at h ⊢; tauto)]
    rw [lexLoop_some_run cs [c] after h.2, List.reverse_cons]

/-- Lexing the rendering of a well-formed token list recovers the tokens. -/
theorem lexLoop_charsOfToks : ∀ ts : List Tok, ts.all tokWF = true →
    lexLoop none (charsOfToks ts) = .ok ts
  | [] => by
    intro _
    rfl
  | [t] => by
    intro h
    simp only [List.all_cons, Bool.and_eq_true] at h
    cases ht : tokIsId t with
    | true =>
      cases t with
      | ID s =>
        have hv : validId s = true := h.1
        show lexLoop none (charsOfTok (Tok.ID s)) = .ok [Tok.ID s]
        have : charsOfTok (Tok.ID s) = s.data ++ [] := by simp [charsOfTok, strOfTok]
        rw [this, lexLoop_none_id hv []]
        show Except.ok [Tok.ID (mkRev s.data.reverse)] = _
        rw [mkRev_data_reverse]
      | AT => simp [tokIsId] at ht
      | COLON => simp [tokIsId] at ht
      | COMMA => simp [tokIsId] at ht
      | PCT => simp [tokIsId] at ht
      | DEP => simp [tokIsId] at ht
      | ON => simp [tokIsId] at ht
      | OFF => simp [tokIsId] at ht
      | EQ => simp [tokIsId] at ht
    | false =>
      obtain ⟨c, hc, h0, h1, h2, h3⟩ := symFacts t ht
      show lexLoop none (charsOfTok t) = .ok [t]
      rw [hc, lexLoop_none_sym [] h0 h2 h3]
      rfl
  | t :: u :: rest => by
    intro h
    simp only [List.all_cons, Bool.and_eq_true] at h
    have hrest : (u :: rest).all tokWF = true := by
      simp only [List.all_cons, Bool.and_eq_true]
      exact ⟨h.2.1, h.2.2⟩
    cases ht : tokIsId t with
    | true =>
      cases t with
      | ID s =>
        have hv : validId s = true := h.1
        cases hu : tokIsId u with
        | true =>
          cases u with
          | ID s2 =>
            show lexLoop none (charsOfTok (Tok.ID s) ++ [' '] ++
              charsOfToks (Tok.ID s2 :: rest)) = _
            have hct : charsOfTok (Tok.ID s) = s.data := rfl
            rw [hct, List.append_assoc, lexLoop_none_id hv _]
            show lexLoop (some s.data.reverse)
              (' ' :: charsOfToks (Tok.ID s2 :: rest)) = _
            rw [lexLoop_some_ws _ _ (by decide) (by decide),
              lexLoop_charsOfToks (Tok.ID s2 :: rest) hrest, mkRev_data_reverse]
            rfl
          | AT => simp [tokIsId] at hu
          | COLON => simp [tokIsId] at hu
          | COMMA => simp [tokIsId] at hu
          | PCT => simp [tokIsId] at hu
          | DEP => simp [tokIsId] at hu
          | ON => simp [tokIsId] at hu
          | OFF => simp [tokIsId] at hu
          | EQ => simp [tokIsId] at hu
        | false =>
          obtain ⟨c, hc, h0, h1, h2, h3⟩ := symFacts u hu
          have hns : needSep (Tok.ID s) u = false := by
            cases u <;> first
              | rfl
              | simp [tokIsId] at hu
          show lexLoop none (charsOfTok (Tok.ID s) ++
            (if needSep (Tok.ID s) u then [' '] else []) ++ charsOfToks (u :: rest)) = _
          have hif : (if needSep (Tok.ID s) u then ([' '] : List Char) else []) = [] := by
            rw [hns]
            rfl
          rw [hif, charsOfToks_cons_of_sym hu rest, hc]
          have hct : charsOfTok (Tok.ID s) = s.data := rfl
          rw [hct]
          simp only [List.append_nil]
          rw [lexLoop_none_id hv _]
          show lexLoop (some s.data.reverse) (c :: charsOfToks rest) = _
          rw [lexLoop_some_sym _ _ h1 h2 h3, mkRev_data_reverse]
          have hr : rest.all tokWF = true := by
            simp only [List.all_cons, Bool.and_eq_true] at hrest
            exact hrest.2
          rw [lexLoop_charsOfToks rest hr]
          rfl
      | AT => simp [tokIsId] at ht
      | COLON => simp [tokIsId] at ht
      | COMMA => simp [tokIsId] at ht
      | PCT => simp [tokIsId] at ht
      | DEP => simp [tokIsId] at ht
      | ON => simp [tokIsId] at ht
      | OFF => simp [tokIsId] at ht
      | EQ => simp [tokIsId] at ht
    | false =>
      obtain ⟨c, hc, h0, h1, h2, h3⟩ := symFacts t ht
      have hchars : charsOfToks (t :: u :: rest) = charsOfTok t ++ charsOfToks (u :: rest) :=
        charsOfToks_cons_of_sym ht (u :: rest)
      rw [hchars, hc]
      show lexLoop none (c :: charsOfToks (u :: rest)) = _
      rw [lexLoop_none_sym _ h0 h2 h3, lexLoop_charsOfToks (u :: rest) hrest]
      rfl

/-- Lexer round-trip: detokenizing a well-formed token stream and lexing it
back is the identity. -/
theorem lex_strOfToks {ts : List Tok} (h : ts.all tokWF = true) :
    lex (strOfToks ts) = .ok ts := by
  unfold lex
  rw [strOfToks_data]
  exact lexLoop_charsOfToks ts h

theorem updNode_comp (c : CurSpec) (f g : RawNode → RawNode) :
    (c.updNode f).updNode g = c.updNode (fun n => g (f n)) := by
  obtain ⟨root, deps, inDep⟩ := c
  cases inDep with
  | false => rfl
  | true =>
    cases deps with
    | nil => rfl
    | cons d ds => rfl

theorem stepAll_append : ∀ (ts1 ts2 : List Tok) (st : PSt),
    stepAll st (ts1 ++ ts2) = (match stepAll st ts1 with
      | .ok st2 => stepAll st2 ts2
      | .error e => .error e)
  | [], ts2, st => rfl
  | t :: ts1, ts2, st => by
    simp only [List.cons_append, stepAll]
    cases hp : pstep st t with
    | ok st2 => exact stepAll_append ts1 ts2 st2
    | error e => rfl

theorem pstep_commit_PCT {done : List RawSpec} {c : CurSpec} {m : PMode} {c2 : CurSpec}
    (h : commitCur c m = some c2) :
    pstep ⟨done, some c, m⟩ .PCT = .ok ⟨done, some c2, .pctName⟩ := by
  cases m <;> simp_all [commitCur, pstep, itemStep]

theorem pstep_commit_ON {done : List RawSpec} {c : CurSpec} {m : PMode} {c2 : CurSpec}
    (h : commitCur c m = some c2) :
    pstep ⟨done, some c, m⟩ .ON = .ok ⟨done, some c2, .onName⟩ := by
  cases m <;> simp_all [commitCur, pstep, itemStep]

theorem pstep_commit_OFF {done : List RawSpec} {c : CurSpec} {m : PMode} {c2 : CurSpec}
    (h : commitCur c m = some c2) :
    pstep ⟨done, some c, m⟩ .OFF = .ok ⟨done, some c2, .offName⟩ := by
  cases m <;> simp_all [commitCur, pstep, itemStep]

theorem pstep_commit_DEP {done : List RawSpec} {c : CurSpec} {m : PMode} {c2 : CurSpec}
    (h : commitCur c m = some c2) :
    pstep ⟨done, some c, m⟩ .DEP = .ok ⟨done, some c2, .depName⟩ := by
  cases m <;> simp_all [commitCur, pstep, itemStep]

theorem pstep_commit_ID {done : List RawSpec} {c : CurSpec} {m : PMode} {c2 : CurSpec}
    {s : String} (h : commitCur c m = some c2) (hm : notColonMode m = true) :
    pstep ⟨done, some c, m⟩ (.ID s) =
      .ok ⟨finishCur c2 :: done, some ⟨emptyNode s, [], false⟩, .postName⟩ := by
  cases m <;> simp_all [commitCur, pstep, itemStep, notColonMode]

theorem pstep_commit_AT {done : List RawSpec} {c : CurSpec} {m : PMode} {c2 : CurSpec}
    (h : commitCur c m = some c2) (hm : m ≠ .postPct) :
    pstep ⟨done, some c, m⟩ .AT = .ok ⟨done, some c2, .verStart .node⟩ := by
  cases m <;> simp_all [commitCur, pstep, itemStep]

theorem finalize_commit {done : List RawSpec} {c : CurSpec} {m : PMode} {c2 : CurSpec}
    (h : commitCur c m = some c2) :
    finalize ⟨done, some c, m⟩ = .ok ((finishCur c2 :: done).reverse) := by
  cases m <;> simp_all [commitCur, finalize]

theorem tokensOfRange_ne_nil (r : VRange) : tokensOfRange r ≠ [] := by
  obtain ⟨lo, hi⟩ := r
  cases lo <;> cases hi <;> simp [tokensOfRange]
  split_ifs <;> simp

theorem tokensOfVL_ne_nil : ∀ (v : VRange) (vs : List VRange),
    tokensOfVL (v :: vs) ≠ []
  | v, [] => tokensOfRange_ne_nil v
  | v, s :: t => by
    simp only [tokensOfVL]
    intro hcon
    rcases List.append_eq_nil.mp hcon with ⟨_, h2⟩
    exact List.cons_ne_nil _ _ h2

/-- Running the parser over rendered version-list tokens from a `verStart`
state: all ranges are collected (the last one possibly still pending in the
resulting mode), and the mode ends colon-like exactly when the last rendered
token is a colon. -/
theorem stepAll_vl : ∀ (vs : List VRange) (tg : VTarget) (done : List RawSpec)
    (c : CurSpec), chainB (fun r s => beforeB r.hi s.lo) vs = true →
    vs.all (fun r => !(r.lo.isNone && r.hi.isNone)) = true → vs ≠ [] →
    ∃ c2 m2, stepAll ⟨done, some c, .verStart tg⟩ (tokensOfVL vs) =
        .ok ⟨done, some c2, m2⟩ ∧
      commitCur c2 m2 = some (c.updNode (addRangesTo tg vs)) ∧
      (notColonMode m2 = true ↔ (tokensOfVL vs).getLast? ≠ some Tok.COLON)
  | [], _, _, _ => by
    intro _ _ hne
    exact absurd rfl hne
  | [r], tg, done, c => by
    intro _ hall _
    obtain ⟨lo, hi⟩ := r
    cases lo with
    | some a =>
      cases hi with
      | some b =>
        by_cases hab : a = b
        · subst hab
          refine ⟨c, .verLo tg a, ?_, ?_, ?_⟩
          · show stepAll _ (tokensOfVL [(⟨some a, some a⟩ : VRange)]) = _
            have htr : tokensOfVL [(⟨some a, some a⟩ : VRange)] = [Tok.ID a] := by
              simp [tokensOfVL, tokensOfRange]
            rw [htr]
            rfl
          · rfl
          · have htr : tokensOfVL [(⟨some a, some a⟩ : VRange)] = [Tok.ID a] := by
              simp [tokensOfVL, tokensOfRange]
            rw [htr]
            simp [notColonMode]
        · refine ⟨c.updNode (addRangeTo tg ⟨some a, some b⟩), .verClosed tg, ?_, ?_, ?_⟩
          · have htr : tokensOfVL [(⟨some a, some b⟩ : VRange)] =
                [Tok.ID a, Tok.COLON, Tok.ID b] := by
              simp [tokensOfVL, tokensOfRange, hab]
            rw [htr]
            rfl
          · rfl
          · have htr : tokensOfVL [(⟨some a, some b⟩ : VRange)] =
                [Tok.ID a, Tok.COLON, Tok.ID b] := by
              simp [tokensOfVL, tokensOfRange, hab]
            rw [htr]
            simp [notColonMode]
      | none =>
        refine ⟨c, .verLoColon tg a, ?_, ?_, ?_⟩
        · show stepAll _ (tokensOfVL [(⟨some a, none⟩ : VRange)]) = _
          rfl
        · rfl
        · show notColonMode (PMode.verLoColon tg a) = true ↔
            (tokensOfVL [(⟨some a, none⟩ : VRange)]).getLast? ≠ some Tok.COLON
          have htr : tokensOfVL [(⟨some a, none⟩ : VRange)] = [Tok.ID a, Tok.COLON] := rfl
          rw [htr]
          simp [notColonMode]
    | none =>
      cases hi with
      | some b =>
        refine ⟨c.updNode (addRangeTo tg ⟨none, some b⟩), .verClosed tg, ?_, ?_, ?_⟩
        · rfl
        · rfl
        · have htr : tokensOfVL [(⟨none, some b⟩ : VRange)] = [Tok.COLON, Tok.ID b] := rfl
          rw [htr]
          simp [notColonMode]
      | none =>
        simp at hall
  | r :: sr :: t, tg, done, c => by
    intro hch hall _
    simp only [chainB, Bool.and_eq_true] at hch
    simp only [List.all_cons, Bool.and_eq_true] at hall
    have hall2 : (sr :: t).all (fun r => !(r.lo.isNone && r.hi.isNone)) = true := by
      simp only [List.all_cons, Bool.and_eq_true]
      exact ⟨hall.2.1, hall.2.2⟩
    obtain ⟨lo, hi⟩ := r
    cases hi with
    | none => simp [beforeB] at hch
    | some b =>
      have htail := stepAll_vl (sr :: t) tg done
        (c.updNode (addRangeTo tg ⟨lo, some b⟩)) hch.2 hall2 (by simp)
      obtain ⟨c2, m2, hrun, hcom, hncl⟩ := htail
      refine ⟨c2, m2, ?_, ?_, ?_⟩
      · show stepAll _ (tokensOfRange ⟨lo, some b⟩ ++ .COMMA :: tokensOfVL (sr :: t)) = _
        cases lo with
        | some a =>
          by_cases hab : a = b
          · subst hab
            have htr : tokensOfRange (⟨some a, some a⟩ : VRange) = [Tok.ID a] := by
              simp [tokensOfRange]
            rw [htr]
            show stepAll ⟨done, some (c.updNode (addRangeTo tg ⟨some a, some a⟩)),
              .verStart tg⟩ (tokensOfVL (sr :: t)) = _
            exact hrun
          · have htr : tokensOfRange (⟨some a, some b⟩ : VRange) =
                [Tok.ID a, Tok.COLON, Tok.ID b] := by
              simp [tokensOfRange, hab]
            rw [htr]
            show stepAll ⟨done, some (c.updNode (addRangeTo tg ⟨some a, some b⟩)),
              .verStart tg⟩ (tokensOfVL (sr :: t)) = _
            exact hrun
        | none =>
          show stepAll ⟨done, some (c.updNode (addRangeTo tg ⟨none, some b⟩)),
            .verStart tg⟩ (tokensOfVL (sr :: t)) = _
          exact hrun
      · rw [hcom, updNode_comp]
        rfl
      · rw [hncl]
        have hlast : (tokensOfRange ⟨lo, some b⟩ ++ .COMMA :: tokensOfVL (sr :: t)).getLast? =
            (tokensOfVL (sr :: t)).getLast? := by
          rw [List.getLast?_append_of_ne_nil _ (by simp)]
          cases hvl : tokensOfVL (sr :: t) with
          | nil => exact absurd hvl (tokensOfVL_ne_nil sr t)
          | cons x xs => simp [List.getLast?_cons, List.getLastD_cons]
        show _ ↔ (tokensOfRange ⟨lo, some b⟩ ++ .COMMA :: tokensOfVL (sr :: t)).getLast? ≠
          some Tok.COLON
        rw [hlast]

theorem updNode_id (c : CurSpec) : c.updNode (fun n => n) = c := by
  obtain ⟨root, deps, inDep⟩ := c
  cases inDep with
  | false => rfl
  | true =>
    cases deps with
    | nil => rfl
    | cons d ds => rfl

theorem canonVLb_chain {vs : List VRange} (h : canonVLb vs = true) :
    chainB (fun r s => beforeB r.hi s.lo) vs = true := by
  simp only [canonVLb, Bool.and_eq_true] at h
  exact h.2

theorem canonVLb_notBothNone {vs : List VRange} (h : canonVLb vs = true) :
    vs.all (fun r => !(r.lo.isNone && r.hi.isNone)) = true := by
  simp only [canonVLb, Bool.and_eq_true] at h
  rw [List.all_eq_true]
  intro r hr
  have := List.all_eq_true.mp h.1 r hr
  simp only [Bool.and_eq_true] at this
  exact this.2

/-- Processing the rendered architecture tokens from the post-name state. -/
theorem stepAll_arch (a : Option String) (done : List RawSpec) (cs : CurSpec)
    (rest : List Tok) :
    ∃ cs1 m1, stepAll ⟨done, some cs, .postName⟩
        (archToks a ++ rest) = stepAll ⟨done, some cs1, m1⟩ rest ∧
      commitCur cs1 m1 = some cs1 ∧ cs1 = cs.updNode (archFill a) ∧
      m1 ≠ .postPct ∧ notColonMode m1 = true ∧
      (archToks a).getLast? ≠ some Tok.COLON ∧
      (a = none → cs1 = cs ∧ m1 = .postName) := by
  cases a with
  | none =>
    refine ⟨cs, .postName, rfl, rfl, ?_, by simp, rfl, by simp [archToks], fun _ => ⟨rfl, rfl⟩⟩
    rw [show archFill none = (fun n => n) from rfl, updNode_id]
  | some x =>
    refine ⟨cs.updNode (archFill (some x)), .items, rfl, rfl, rfl, by simp, rfl,
      by simp [archToks], by simp⟩

/-- Processing a (possibly empty) rendered node version list, with its `@`
introducer, from a committing non-compiler state. -/
theorem stepAll_atvl_node (vs : List VRange) (done : List RawSpec) (c : CurSpec)
    (m : PMode) (c2 : CurSpec) (rest : List Tok) (hc : commitCur c m = some c2)
    (hm : m ≠ .postPct) (hvl : canonVLb vs = true) :
    ∃ c3 m3, stepAll ⟨done, some c, m⟩
        (vlToks vs ++ rest) = stepAll ⟨done, some c3, m3⟩ rest ∧
      commitCur c3 m3 = some (c2.updNode (addRangesTo .node vs)) ∧
      (vs = [] → c3 = c ∧ m3 = m) ∧
      (vs ≠ [] →
        (notColonMode m3 = true ↔ (tokensOfVL vs).getLast? ≠ some Tok.COLON)) := by
  cases vs with
  | nil =>
    refine ⟨c, m, rfl, ?_, fun _ => ⟨rfl, rfl⟩, by simp⟩
    rw [hc, show (addRangesTo VTarget.node [] : RawNode → RawNode) = (fun n => n)
      from rfl, updNode_id]
  | cons r vtail =>
    obtain ⟨c3, m3, hrun, hcom, hncl⟩ := stepAll_vl (r :: vtail) .node done c2
      (canonVLb_chain hvl) (canonVLb_notBothNone hvl) (by simp)
    refine ⟨c3, m3, ?_, hcom, by simp, fun _ => hncl⟩
    show stepAll ⟨done, some c, m⟩ (Tok.AT :: (tokensOfVL (r :: vtail) ++ rest)) = _
    rw [stepAll, pstep_commit_AT hc hm]
    show stepAll ⟨done, some c2, .verStart .node⟩ (tokensOfVL (r :: vtail) ++ rest) = _
    rw [stepAll_append, hrun]

theorem getLast?_cons_of_ne_nil {α : Type} {l : List α} (x : α) (h : l ≠ []) :
    (x :: l).getLast? = l.getLast? := by
  cases l with
  | nil => exact absurd rfl h
  | cons y ys => simp [List.getLast?_cons, List.getLastD_cons]

/-- Processing the rendered compiler segment from a committing state. -/
theorem stepAll_compseg (cop : Option CompilerSpec) (done : List RawSpec) (c : CurSpec)
    (m : PMode) (c2 : CurSpec) (rest : List Tok) (hc : commitCur c m = some c2)
    (hcw : canonCompilerB cop = true) :
    ∃ c3 m3, stepAll ⟨done, some c, m⟩ (compToks cop ++ rest) =
          stepAll ⟨done, some c3, m3⟩ rest ∧
      commitCur c3 m3 = some (c2.updNode (compFill cop)) ∧
      (cop = none → c3 = c ∧ m3 = m) ∧
      (cop ≠ none → (notColonMode m3 = true ↔
        (compToks cop).getLast? ≠ some Tok.COLON)) := by
  cases cop with
  | none =>
    refine ⟨c, m, rfl, ?_, fun _ => ⟨rfl, rfl⟩, by simp⟩
    rw [hc, show (compFill none : RawNode → RawNode) = fun n => n from rfl, updNode_id]
  | some cc =>
    simp only [canonCompilerB, Bool.and_eq_true] at hcw
    obtain ⟨ccn, ccv⟩ := cc
    simp only at hcw
    cases hv : ccv with
    | nil =>
      subst hv
      refine ⟨c2.updNode (fun n => { n with comps := (ccn, []) :: n.comps }), .postPct,
        ?_, rfl, by simp, ?_⟩
      · show stepAll ⟨done, some c, m⟩
          (Tok.PCT :: Tok.ID ccn :: ([] ++ rest)) = _
        rw [stepAll, pstep_commit_PCT hc]
        rfl
      · intro _
        simp [notColonMode, compToks, vlToks]
    | cons r vtail =>
      subst hv
      have hcanon : canonVLb (r :: vtail) = true := hcw.2
      obtain ⟨c3, m3, hrun, hcom, hncl⟩ := stepAll_vl (r :: vtail) .comp done
        (c2.updNode (fun n => { n with comps := (ccn, []) :: n.comps }))
        (canonVLb_chain hcanon) (canonVLb_notBothNone hcanon) (by simp)
      refine ⟨c3, m3, ?_, ?_, by simp, ?_⟩
      · show stepAll ⟨done, some c, m⟩
          (Tok.PCT :: Tok.ID ccn :: ((Tok.AT :: tokensOfVL (r :: vtail)) ++ rest)) = _
        rw [stepAll, pstep_commit_PCT hc]
        show stepAll ⟨done, some (c2.updNode
          (fun n => { n with comps := (ccn, []) :: n.comps })), .verStart .comp⟩
          (tokensOfVL (r :: vtail) ++ rest) = _
        rw [stepAll_append, hrun]
      · rw [hcom, updNode_comp]
        rfl
      · intro _
        rw [hncl]
        have h1 : tokensOfVL (r :: vtail) ≠ [] := tokensOfVL_ne_nil r vtail
        show _ ↔ (Tok.PCT :: Tok.ID ccn ::
            ((Tok.AT :: tokensOfVL (r :: vtail)) : List Tok)).getLast? ≠ some Tok.COLON
        rw [getLast?_cons_of_ne_nil _ (by simp), getLast?_cons_of_ne_nil _ (by simp),
          getLast?_cons_of_ne_nil _ h1]

/-- Processing the rendered variant tokens from a committing state. -/
theorem stepAll_varseg : ∀ (vars : List (String × Bool)) (done : List RawSpec)
    (c : CurSpec) (m : PMode) (c2 : CurSpec) (rest : List Tok),
    commitCur c m = some c2 →
    ∃ c3 m3, stepAll ⟨done, some c, m⟩ (tokensOfVariants vars ++ rest) =
        stepAll ⟨done, some c3, m3⟩ rest ∧
      commitCur c3 m3 = some (c2.updNode (addVarsTo vars)) ∧
      (vars = [] → c3 = c ∧ m3 = m) ∧
      (vars ≠ [] → m3 = .items ∧
        ∃ s2, (tokensOfVariants vars).getLast? = some (Tok.ID s2))
  | [], done, c, m, c2, rest => by
    intro hc
    refine ⟨c, m, rfl, ?_, fun _ => ⟨rfl, rfl⟩, by simp⟩
    rw [hc, show (addVarsTo [] : RawNode → RawNode) = fun n => n from rfl, updNode_id]
  | (vn, vb) :: vtail, done, c, m, c2, rest => by
    intro hc
    have hstep1 : stepAll ⟨done, some c, m⟩
        (tokensOfVariants ((vn, vb) :: vtail) ++ rest) =
        stepAll ⟨done, some (c2.updNode
          (fun n => { n with variants := (vn, vb) :: n.variants })), .items⟩
          (tokensOfVariants vtail ++ rest) := by
      cases vb with
      | false =>
        show stepAll ⟨done, some c, m⟩
          (Tok.OFF :: Tok.ID vn :: (tokensOfVariants vtail ++ rest)) = _
        rw [stepAll, pstep_commit_OFF hc]
        rfl
      | true =>
        show stepAll ⟨done, some c, m⟩
          (Tok.ON :: Tok.ID vn :: (tokensOfVariants vtail ++ rest)) = _
        rw [stepAll, pstep_commit_ON hc]
        rfl
    rw [hstep1]
    cases vtail with
    | nil =>
      refine ⟨c2.updNode (fun n => { n with variants := (vn, vb) :: n.variants }),
        .items, rfl, rfl, by simp, ?_⟩
      intro _
      refine ⟨rfl, vn, ?_⟩
      cases vb <;> rfl
    | cons w wtail =>
      obtain ⟨c3, m3, hrun, hcom, _, hne⟩ := stepAll_varseg (w :: wtail) done
        (c2.updNode (fun n => { n with variants := (vn, vb) :: n.variants })) .items
        (c2.updNode (fun n => { n with variants := (vn, vb) :: n.variants })) rest rfl
      refine ⟨c3, m3, hrun, ?_, by simp, ?_⟩
      · rw [hcom, updNode_comp]
        rfl
      · intro _
        obtain ⟨hm3, s2, hlast⟩ := hne (by simp)
        refine ⟨hm3, s2, ?_⟩
        have hne2 : tokensOfVariants (w :: wtail) ≠ [] := by
          obtain ⟨wn, wb⟩ := w
          cases wb <;> simp [tokensOfVariants]
        show (tokensOfVariants ((vn, vb) :: w :: wtail)).getLast? = some (Tok.ID s2)
        have hexp : tokensOfVariants ((vn, vb) :: w :: wtail) =
            (if vb then Tok.ON else Tok.OFF) :: Tok.ID vn ::
              tokensOfVariants (w :: wtail) := rfl
        rw [hexp, getLast?_cons_of_ne_nil _ (by simp [hne2]),
          getLast?_cons_of_ne_nil _ hne2, hlast]

theorem addRangesTo_node_eq : ∀ (vs : List VRange) (n : RawNode),
    addRangesTo .node vs n = { n with ranges := n.ranges ++ vs }
  | [], n => by simp [addRangesTo]
  | r :: rs, n => by
    show addRangesTo .node rs { n with ranges := n.ranges ++ [r] } = _
    rw [addRangesTo_node_eq rs]
    simp

theorem addRangesTo_comp_eq : ∀ (rs : List VRange) (nm : String) (a : Option String)
    (rg : List VRange) (cn : String) (cv : List VRange)
    (cs0 : List (String × List VRange)) (vrs : List (String × Bool)),
    addRangesTo .comp rs ⟨nm, a, rg, (cn, cv) :: cs0, vrs⟩ =
      ⟨nm, a, rg, (cn, cv ++ rs) :: cs0, vrs⟩
  | [], nm, a, rg, cn, cv, cs0, vrs => by simp [addRangesTo]
  | r :: rs, nm, a, rg, cn, cv, cs0, vrs => by
    show addRangesTo .comp rs ⟨nm, a, rg, (cn, cv ++ [r]) :: cs0, vrs⟩ = _
    rw [addRangesTo_comp_eq rs]
    simp

theorem addVarsTo_eq : ∀ (vars : List (String × Bool)) (n : RawNode),
    addVarsTo vars n = { n with variants := vars.reverse ++ n.variants }
  | [], n => by simp [addVarsTo]
  | v :: vs, n => by
    show addVarsTo vs { n with variants := v :: n.variants } = _
    rw [addVarsTo_eq vs]
    simp

/-- The parser recovers exactly the raw node of a rendered canonical node. -/
theorem nodeFill_emptyNode (nm : String) (vs : List VRange)
    (cop : Option CompilerSpec) (vars : List (String × Bool)) (a : Option String)
    (d : Deps) :
    nodeFill vs cop vars a (emptyNode nm) = rawNodeOf (.mk nm vs cop vars a d) := by
  unfold nodeFill rawNodeOf emptyNode
  cases a with
  | none =>
    cases cop with
    | none =>
      show addVarsTo vars (compFill none (addRangesTo .node vs ⟨nm, none, [], [], []⟩)) = _
      rw [addRangesTo_node_eq]
      show addVarsTo vars ⟨nm, none, [] ++ vs, [], []⟩ = _
      rw [addVarsTo_eq]
      simp
    | some cc =>
      obtain ⟨ccn, ccv⟩ := cc
      show addVarsTo vars (compFill (some ⟨ccn, ccv⟩)
        (addRangesTo .node vs ⟨nm, none, [], [], []⟩)) = _
      rw [addRangesTo_node_eq]
      show addVarsTo vars (addRangesTo .comp ccv ⟨nm, none, [] ++ vs, [(ccn, [])], []⟩) = _
      rw [addRangesTo_comp_eq, addVarsTo_eq]
      simp
  | some x =>
    cases cop with
    | none =>
      show addVarsTo vars (compFill none (addRangesTo .node vs ⟨nm, some x, [], [], []⟩)) = _
      rw [addRangesTo_node_eq]
      show addVarsTo vars ⟨nm, some x, [] ++ vs, [], []⟩ = _
      rw [addVarsTo_eq]
      simp
    | some cc =>
      obtain ⟨ccn, ccv⟩ := cc
      show addVarsTo vars (compFill (some ⟨ccn, ccv⟩)
        (addRangesTo .node vs ⟨nm, some x, [], [], []⟩)) = _
      rw [addRangesTo_node_eq]
      show addVarsTo vars (addRangesTo .comp ccv ⟨nm, some x, [] ++ vs, [(ccn, [])], []⟩) = _
      rw [addRangesTo_comp_eq, addVarsTo_eq]
      simp

theorem tokensOfNode_eq (nm : String) (vs : List VRange) (cop : Option CompilerSpec)
    (vars : List (String × Bool)) (a : Option String) :
    tokensOfNode nm vs cop vars a =
      Tok.ID nm :: (archToks a ++ vlToks vs ++ compToks cop ++ tokensOfVariants vars) := by
  cases a <;> cases vs <;> rcases cop with _ | ⟨ccn, ccv⟩ <;> first
    | rfl
    | (cases ccv <;> rfl)

/-- Processing the rendered tail of a node (everything after its name) from
the post-name state: the parser fills the current node with exactly the
rendered contents; the resulting mode is colon-pending exactly when the node
tokens end in a colon. -/
theorem stepAll_nodeTail (done : List RawSpec) (cs : CurSpec) (nm : String)
    (vs : List VRange) (cop : Option CompilerSpec) (vars : List (String × Bool))
    (a : Option String) (rest : List Tok)
    (hvl : canonVLb vs = true) (hcw : canonCompilerB cop = true) :
    ∃ c4 m4, stepAll ⟨done, some cs, .postName⟩
        ((archToks a ++ vlToks vs ++ compToks cop ++ tokensOfVariants vars) ++ rest) =
        stepAll ⟨done, some c4, m4⟩ rest ∧
      commitCur c4 m4 = some (cs.updNode (nodeFill vs cop vars a)) ∧
      (notColonMode m4 = true ↔
        (tokensOfNode nm vs cop vars a).getLast? ≠ some Tok.COLON) := by
  obtain ⟨cs1, m1, hrun1, hcm1, hcs1, hnp1, hnc1, hlA, hnil1⟩ :=
    stepAll_arch a done cs
      (vlToks vs ++ (compToks cop ++ (tokensOfVariants vars ++ rest)))
  obtain ⟨c3a, m3a, hrun2, hcm2, hnil2, hne2⟩ :=
    stepAll_atvl_node vs done cs1 m1 cs1
      (compToks cop ++ (tokensOfVariants vars ++ rest)) hcm1 hnp1 hvl
  obtain ⟨c3c, m3c, hrun3, hcm3, hnil3, hne3⟩ :=
    stepAll_compseg cop done c3a m3a (cs1.updNode (addRangesTo .node vs))
      (tokensOfVariants vars ++ rest) hcm2 hcw
  obtain ⟨c4, m4, hrun4, hcm4, hnil4, hne4⟩ :=
    stepAll_varseg vars done c3c m3c
      ((cs1.updNode (addRangesTo .node vs)).updNode (compFill cop)) rest hcm3
  refine ⟨c4, m4, ?_, ?_, ?_⟩
  · simp only [List.append_assoc]
    rw [hrun1, hrun2, hrun3, hrun4]
  · rw [hcm4, hcs1, updNode_comp, updNode_comp, updNode_comp]
    rfl
  · rw [tokensOfNode_eq]
    by_cases hvars : vars = []
    · subst hvars
      obtain ⟨hceq4, hmeq4⟩ := hnil4 rfl
      subst hmeq4
      by_cases hcop : cop = none
      · subst hcop
        obtain ⟨hceq3, hmeq3⟩ := hnil3 rfl
        subst hmeq3
        by_cases hvs : vs = []
        · subst hvs
          obtain ⟨hceq2, hmeq2⟩ := hnil2 rfl
          subst hmeq2
          cases a with
          | none =>
            obtain ⟨hceq1, hmeq1⟩ := hnil1 rfl
            subst hmeq1
            simp [notColonMode, archToks, vlToks, compToks, tokensOfVariants]
          | some x =>
            rw [hnc1]
            simp [archToks, vlToks, compToks, tokensOfVariants]
        · rw [hne2 hvs]
          rcases hvsl : vs with _ | ⟨r, vt⟩
          · exact absurd hvsl hvs
          · have hlg : (Tok.ID nm ::
                (archToks a ++ vlToks (r :: vt) ++ compToks none ++
                  tokensOfVariants [])).getLast? = (tokensOfVL (r :: vt)).getLast? := by
              show (Tok.ID nm ::
                (archToks a ++ (Tok.AT :: tokensOfVL (r :: vt)) ++ [] ++ [])).getLast? = _
              simp only [List.append_nil]
              rw [getLast?_cons_of_ne_nil _ (by simp),
                List.getLast?_append_of_ne_nil _ (by simp),
                getLast?_cons_of_ne_nil _ (tokensOfVL_ne_nil r vt)]
            rw [hlg]
      · rcases cop with _ | cc
        · exact absurd rfl hcop
        · rw [hne3 (by simp)]
          have hlg : (Tok.ID nm ::
              (archToks a ++ vlToks vs ++ compToks (some cc) ++
                tokensOfVariants [])).getLast? = (compToks (some cc)).getLast? := by
            show (Tok.ID nm ::
              (archToks a ++ vlToks vs ++ compToks (some cc) ++ [])).getLast? = _
            simp only [List.append_nil]
            rw [getLast?_cons_of_ne_nil _ (by simp [compToks]),
              List.getLast?_append_of_ne_nil _ (by simp [compToks])]
          rw [hlg]
    · obtain ⟨hm4, s2, hlast⟩ := hne4 hvars
      subst hm4
      have hD : tokensOfVariants vars ≠ [] := by
        rcases vars with _ | ⟨⟨wn, wb⟩, wt⟩
        · exact absurd rfl hvars
        · cases wb <;> simp [tokensOfVariants]
      have hlg : (Tok.ID nm ::
          (archToks a ++ vlToks vs ++ compToks cop ++
            tokensOfVariants vars)).getLast? = some (Tok.ID s2) := by
        rw [getLast?_cons_of_ne_nil _ (by
            intro hc
            exact hD (List.append_eq_nil.mp hc).2),
          List.getLast?_append_of_ne_nil _ hD, hlast]
      rw [hlg]
      simp [notColonMode]

theorem tokensOfDeps_cons_ne_nil (s : Spec) (r : Deps) :
    tokensOfDeps (.cons s r) ≠ [] := by
  show (Tok.DEP :: tokensOfSpec s) ++ tokensOfDeps r ≠ []
  simp

/-- Processing a rendered dependency sequence from a committing state: each
`^name node` block adds the recovered raw node to the current spec. -/
theorem stepAll_depsrun : ∀ (d : Deps) (done : List RawSpec) (c : CurSpec) (m : PMode)
    (c2 : CurSpec) (rest : List Tok), commitCur c m = some c2 → canonDepsB d = true →
    ∃ c3 m3 c3', stepAll ⟨done, some c, m⟩ (tokensOfDeps d ++ rest) =
        stepAll ⟨done, some c3, m3⟩ rest ∧
      commitCur c3 m3 = some c3' ∧
      c3'.root = c2.root ∧
      c3'.deps = ((Deps.toList d).map rawNodeOf).reverse ++ c2.deps ∧
      (d = .nil → c3 = c ∧ m3 = m) ∧
      (d ≠ .nil → (notColonMode m3 = true ↔
        (tokensOfDeps d).getLast? ≠ some Tok.COLON))
  | .nil, done, c, m, c2, rest => by
    intro hc _
    exact ⟨c, m, c2, rfl, hc, rfl, by simp [Deps.toList], fun _ => ⟨rfl, rfl⟩, by simp⟩
  | .cons s dtail, done, c, m, c2, rest => by
    intro hc hd
    simp only [canonDepsB, Bool.and_eq_true] at hd
    obtain ⟨⟨hws, hnil⟩, hdt⟩ := hd
    obtain ⟨nm, svs, scop, svars, sa, sd⟩ := s
    have hsd : sd = .nil := by
      cases sd with
      | nil => rfl
      | cons _ _ => simp [depsIsNil, Spec.deps] at hnil
    subst hsd
    simp only [canonWFb, Bool.and_eq_true] at hws
    obtain ⟨⟨⟨⟨⟨⟨hid, hcvl⟩, hccw⟩, hcvr⟩, hca⟩, _⟩, _⟩ := hws
    obtain ⟨c4, m4, hrun4, hcm4, hncl4⟩ :=
      stepAll_nodeTail done ⟨c2.root, emptyNode nm :: c2.deps, true⟩ nm svs scop svars sa
        (tokensOfDeps dtail ++ rest) hcvl hccw
    obtain ⟨c5, m5, c5', hrun5, hcm5, hroot5, hdeps5, hnil5, hne5⟩ :=
      stepAll_depsrun dtail done c4 m4
        ⟨c2.root, nodeFill svs scop svars sa (emptyNode nm) :: c2.deps, true⟩ rest
        hcm4 hdt
    refine ⟨c5, m5, c5', ?_, hcm5, hroot5, ?_, by simp, ?_⟩
    · show stepAll ⟨done, some c, m⟩
        (((Tok.DEP :: tokensOfSpec (Spec.mk nm svs scop svars sa .nil)) ++
          tokensOfDeps dtail) ++ rest) = _
      simp only [List.cons_append, List.append_assoc]
      rw [stepAll, pstep_commit_DEP hc]
      have hT : tokensOfSpec (Spec.mk nm svs scop svars sa .nil) =
          tokensOfNode nm svs scop svars sa ++ [] := rfl
      rw [hT, List.append_nil, tokensOfNode_eq]
      show stepAll ⟨done, some c2, .depName⟩
        (Tok.ID nm :: ((archToks sa ++ vlToks svs ++ compToks scop ++
          tokensOfVariants svars) ++ (tokensOfDeps dtail ++ rest))) = _
      rw [stepAll]
      have hps : pstep ⟨done, some c2, .depName⟩ (Tok.ID nm) =
          .ok ⟨done, some ⟨c2.root, emptyNode nm :: c2.deps, true⟩, .postName⟩ := rfl
      rw [hps]
      show stepAll ⟨done, some ⟨c2.root, emptyNode nm :: c2.deps, true⟩, .postName⟩
        ((archToks sa ++ vlToks svs ++ compToks scop ++ tokensOfVariants svars) ++
          (tokensOfDeps dtail ++ rest)) = _
      rw [hrun4, hrun5]
    · rw [hdeps5, nodeFill_emptyNode nm svs scop svars sa .nil]
      simp [Deps.toList]
    · intro _
      cases dtail with
      | nil =>
        obtain ⟨hceq, hmeq⟩ := hnil5 rfl
        subst hmeq
        rw [hncl4]
        have hsp : tokensOfSpec (Spec.mk nm svs scop svars sa .nil) =
            tokensOfNode nm svs scop svars sa ++ [] := rfl
        have hlg : (tokensOfDeps (Deps.cons (Spec.mk nm svs scop svars sa .nil)
            Deps.nil)).getLast? = (tokensOfNode nm svs scop svars sa).getLast? := by
          show ((Tok.DEP :: tokensOfSpec (Spec.mk nm svs scop svars sa .nil)) ++
            tokensOfDeps Deps.nil).getLast? = _
          rw [show tokensOfDeps Deps.nil = ([] : List Tok) from rfl, List.append_nil,
            hsp, List.append_nil]
          rw [getLast?_cons_of_ne_nil _ (by rw [tokensOfNode_eq]; simp)]
        rw [hlg]
      | cons s2 dt2 =>
        rw [hne5 (by simp)]
        have hlg : (tokensOfDeps (Deps.cons (Spec.mk nm svs scop svars sa .nil)
            (Deps.cons s2 dt2))).getLast? = (tokensOfDeps (Deps.cons s2 dt2)).getLast? := by
          show ((Tok.DEP :: tokensOfSpec (Spec.mk nm svs scop svars sa .nil)) ++
            tokensOfDeps (Deps.cons s2 dt2)).getLast? = _
          rw [List.getLast?_append_of_ne_nil _ (tokensOfDeps_cons_ne_nil s2 dt2)]
        rw [hlg]

theorem lastTok_ne {s : Spec} (h : lastTokNotColon s = true) :
    (tokensOfSpec s).getLast? ≠ some Tok.COLON := by
  unfold lastTokNotColon at h
  intro hc
  rw [hc] at h
  simp at h

/-- Processing a rendered canonical spec list from a committing, non-colon
state, then finalizing: the parser returns exactly the recovered raw specs. -/
theorem stepAll_specs : ∀ (l : List Spec) (doneAcc : List RawSpec) (c : CurSpec)
    (m : PMode) (c2 : CurSpec), commitCur c m = some c2 → notColonMode m = true →
    canonList l = true →
    (match stepAll ⟨doneAcc, some c, m⟩ (tokensOfSpecs l) with
     | .ok st2 => finalize st2
     | .error e => .error e) =
      .ok (((l.map rawSpecOf).reverse ++ (finishCur c2 :: doneAcc)).reverse)
  | [], doneAcc, c, m, c2 => by
    intro hc _ _
    show finalize ⟨doneAcc, some c, m⟩ = _
    rw [finalize_commit hc]
    simp
  | s :: tl, doneAcc, c, m, c2 => by
    intro hc hm hcl
    obtain ⟨nm, vs, cop, vars, a, d⟩ := s
    have hws : canonWFb (.mk nm vs cop vars a d) = true := by
      cases tl with
      | nil => exact hcl
      | cons t2 tl2 =>
        simp only [canonList, Bool.and_eq_true] at hcl
        exact hcl.1.1
    have hlt : tl ≠ [] → lastTokNotColon (.mk nm vs cop vars a d) = true := by
      intro hne
      cases tl with
      | nil => exact absurd rfl hne
      | cons t2 tl2 =>
        simp only [canonList, Bool.and_eq_true] at hcl
        exact hcl.1.2
    have hcltl : canonList tl = true := by
      cases tl with
      | nil => rfl
      | cons t2 tl2 =>
        simp only [canonList, Bool.and_eq_true] at hcl
        exact hcl.2
    simp only [canonWFb, Bool.and_eq_true] at hws
    obtain ⟨⟨⟨⟨⟨⟨hid, hcvl⟩, hccw⟩, hcvr⟩, hca⟩, hchain⟩, hcd⟩ := hws
    obtain ⟨c4, m4, hrun4, hcm4, hncl4⟩ := stepAll_nodeTail (finishCur c2 :: doneAcc)
      ⟨emptyNode nm, [], false⟩ nm vs cop vars a
      (tokensOfDeps d ++ tokensOfSpecs tl) hcvl hccw
    obtain ⟨c5, m5, c5', hrun5, hcm5, hroot5, hdeps5, hnil5, hne5⟩ := stepAll_depsrun d
      (finishCur c2 :: doneAcc) c4 m4
      (CurSpec.updNode ⟨emptyNode nm, [], false⟩ (nodeFill vs cop vars a))
      (tokensOfSpecs tl) hcm4 hcd
    have hfc : finishCur c5' = rawSpecOf (.mk nm vs cop vars a d) := by
      have hr : c5'.root = rawNodeOf (.mk nm vs cop vars a d) := by
        rw [hroot5]
        show nodeFill vs cop vars a (emptyNode nm) = _
        exact nodeFill_emptyNode nm vs cop vars a d
      have hd : c5'.deps = ((Deps.toList d).map rawNodeOf).reverse := by
        rw [hdeps5]
        show ((Deps.toList d).map rawNodeOf).reverse ++ [] = _
        simp
      show (⟨c5'.root, c5'.deps.reverse⟩ : RawSpec) = _
      rw [hr, hd, List.reverse_reverse]
      rfl
    have hncm5 : tl ≠ [] → notColonMode m5 = true := by
      intro hne
      have hlast := lastTok_ne (hlt hne)
      cases d with
      | nil =>
        obtain ⟨_, hmeq⟩ := hnil5 rfl
        rw [hmeq, hncl4]
        intro hcon
        apply hlast
        show (tokensOfNode nm vs cop vars a ++ tokensOfDeps Deps.nil).getLast? = _
        rw [show tokensOfDeps Deps.nil = ([] : List Tok) from rfl, List.append_nil]
        exact hcon
      | cons s2 d2 =>
        rw [hne5 (by simp)]
        intro hcon
        apply hlast
        show (tokensOfNode nm vs cop vars a ++ tokensOfDeps (Deps.cons s2 d2)).getLast? = _
        rw [List.getLast?_append_of_ne_nil _ (tokensOfDeps_cons_ne_nil s2 d2)]
        exact hcon
    have hts : tokensOfSpecs (Spec.mk nm vs cop vars a d :: tl) =
        tokensOfSpec (.mk nm vs cop vars a d) ++ tokensOfSpecs tl := rfl
    rw [hts]
    have hsp : tokensOfSpec (.mk nm vs cop vars a d) =
        tokensOfNode nm vs cop vars a ++ tokensOfDeps d := rfl
    rw [hsp, tokensOfNode_eq, List.append_assoc, List.cons_append]
    rw [stepAll, pstep_commit_ID hc hm]
    show (match stepAll ⟨finishCur c2 :: doneAcc, some ⟨emptyNode nm, [], false⟩,
        .postName⟩ ((archToks a ++ vlToks vs ++ compToks cop ++ tokensOfVariants vars) ++
        (tokensOfDeps d ++ tokensOfSpecs tl)) with
      | .ok st2 => finalize st2
      | .error e => .error e) = _
    rw [hrun4, hrun5]
    cases tl with
    | nil =>
      show finalize ⟨finishCur c2 :: doneAcc, some c5, m5⟩ = _
      rw [finalize_commit hcm5, hfc]
      simp
    | cons t2 tl2 =>
      rw [stepAll_specs (t2 :: tl2) (finishCur c2 :: doneAcc) c5 m5 c5' hcm5
        (hncm5 (by simp)) hcltl]
      rw [hfc]
      simp [List.append_assoc]

/-- Token-level round-trip: parsing the rendered tokens of a canonical spec
list recovers exactly the corresponding raw specs. -/
theorem parseToks_render : ∀ (l : List Spec), canonList l = true →
    parseToks (tokensOfSpecs l) = .ok (l.map rawSpecOf)
  | [], _ => rfl
  | s :: tl, hcl => by
    obtain ⟨nm, vs, cop, vars, a, d⟩ := s
    have hws : canonWFb (.mk nm vs cop vars a d) = true := by
      cases tl with
      | nil => exact hcl
      | cons t2 tl2 =>
        simp only [canonList, Bool.and_eq_true] at hcl
        exact hcl.1.1
    have hlt : tl ≠ [] → lastTokNotColon (.mk nm vs cop vars a d) = true := by
      intro hne
      cases tl with
      | nil => exact absurd rfl hne
      | cons t2 tl2 =>
        simp only [canonList, Bool.and_eq_true] at hcl
        exact hcl.1.2
    have hcltl : canonList tl = true := by
      cases tl with
      | nil => rfl
      | cons t2 tl2 =>
        simp only [canonList, Bool.and_eq_true] at hcl
        exact hcl.2
    simp only [canonWFb, Bool.and_eq_true] at hws
    obtain ⟨⟨⟨⟨⟨⟨hid, hcvl⟩, hccw⟩, hcvr⟩, hca⟩, hchain⟩, hcd⟩ := hws
    obtain ⟨c4, m4, hrun4, hcm4, hncl4⟩ := stepAll_nodeTail []
      ⟨emptyNode nm, [], false⟩ nm vs cop vars a
      (tokensOfDeps d ++ tokensOfSpecs tl) hcvl hccw
    obtain ⟨c5, m5, c5', hrun5, hcm5, hroot5, hdeps5, hnil5, hne5⟩ := stepAll_depsrun d
      [] c4 m4
      (CurSpec.updNode ⟨emptyNode nm, [], false⟩ (nodeFill vs cop vars a))
      (tokensOfSpecs tl) hcm4 hcd
    have hfc : finishCur c5' = rawSpecOf (.mk nm vs cop vars a d) := by
      have hr : c5'.root = rawNodeOf (.mk nm vs cop vars a d) := by
        rw [hroot5]
        show nodeFill vs cop vars a (emptyNode nm) = _
        exact nodeFill_emptyNode nm vs cop vars a d
      have hd : c5'.deps = ((Deps.toList d).map rawNodeOf).reverse := by
        rw [hdeps5]
        show ((Deps.toList d).map rawNodeOf).reverse ++ [] = _
        simp
      show (⟨c5'.root, c5'.deps.reverse⟩ : RawSpec) = _
      rw [hr, hd, List.reverse_reverse]
      rfl
    have hncm5 : tl ≠ [] → notColonMode m5 = true := by
      intro hne
      have hlast := lastTok_ne (hlt hne)
      cases d with
      | nil =>
        obtain ⟨_, hmeq⟩ := hnil5 rfl
        rw [hmeq, hncl4]
        intro hcon
        apply hlast
        show (tokensOfNode nm vs cop vars a ++ tokensOfDeps Deps.nil).getLast? = _
        rw [show tokensOfDeps Deps.nil = ([] : List Tok) from rfl, List.append_nil]
        exact hcon
      | cons s2 d2 =>
        rw [hne5 (by simp)]
        intro hcon
        apply hlast
        show (tokensOfNode nm vs cop vars a ++ tokensOfDeps (Deps.cons s2 d2)).getLast? = _
        rw [List.getLast?_append_of_ne_nil _ (tokensOfDeps_cons_ne_nil s2 d2)]
        exact hcon
    unfold parseToks
    have hts : tokensOfSpecs (Spec.mk nm vs cop vars a d :: tl) =
        (tokensOfNode nm vs cop vars a ++ tokensOfDeps d) ++ tokensOfSpecs tl := rfl
    rw [hts, tokensOfNode_eq, List.append_assoc, List.cons_append]
    rw [stepAll]
    have hps : pstep ⟨[], none, .start⟩ (Tok.ID nm) =
        .ok ⟨[], some ⟨emptyNode nm, [], false⟩, .postName⟩ := rfl
    rw [hps]
    show (match stepAll ⟨[], some ⟨emptyNode nm, [], false⟩, .postName⟩
        ((archToks a ++ vlToks vs ++ compToks cop ++ tokensOfVariants vars) ++
        (tokensOfDeps d ++ tokensOfSpecs tl)) with
      | .ok st2 => finalize st2
      | .error e => .error e) = _
    rw [hrun4, hrun5]
    cases tl with
    | nil =>
      show finalize ⟨[], some c5, m5⟩ = _
      rw [finalize_commit hcm5, hfc]
      simp
    | cons t2 tl2 =>
      rw [stepAll_specs (t2 :: tl2) [] c5 m5 c5' hcm5 (hncm5 (by simp)) hcltl]
      rw [hfc]
      simp [List.append_assoc]

theorem canonVLb_all_rNonempty {vs : List VRange} (h : canonVLb vs = true) :
    vs.all rNonempty = true := by
  simp only [canonVLb, Bool.and_eq_true] at h
  rw [List.all_eq_true]
  intro r hr
  have hx := List.all_eq_true.mp h.1 r hr
  simp only [Bool.and_eq_true] at hx
  exact hx.1.2

theorem before_rLE {r s : VRange} (hne : rNonempty r = true)
    (hb : beforeB r.hi s.lo = true) : rCmp r s = .lt := by
  obtain ⟨rlo, rhi⟩ := r
  obtain ⟨slo, shi⟩ := s
  cases rhi with
  | none => simp [beforeB] at hb
  | some H =>
    cases slo with
    | none => simp [beforeB] at hb
    | some L =>
      simp only [beforeB, obeq_iff] at hb
      have hlo : loCmp rlo (some L) = .lt := by
        cases rlo with
        | none => rfl
        | some A =>
          simp only [rNonempty, obne_iff] at hne
          have hAL : vcmp A.data L.data = .lt := vcmp_le_lt_trans hne hb
          show vcmpT A L = .lt
          show (match vcmp A.data L.data with
            | Ordering.eq => strCmp A L
            | o => o) = .lt
          rw [hAL]
      show (match loCmp rlo (some L) with
        | Ordering.eq => hiCmp (some H) shi
        | o => o) = .lt
      rw [hlo]

theorem sorted_rLE_of_canon {vs : List VRange} (h : canonVLb vs = true) :
    List.Sorted rLE vs := by
  have hall := canonVLb_all_rNonempty h
  have hpw := chainB_pairwise_before vs hall (canonVLb_chain h)
  refine hpw.imp_of_mem ?_
  intro r s hr _ hb
  have hner : rNonempty r = true := List.all_eq_true.mp hall r hr
  unfold rLE
  rw [before_rLE hner hb]
  simp

theorem coalesceGo_id : ∀ (t : List VRange) (cur : VRange),
    chainB (fun r s => beforeB r.hi s.lo) (cur :: t) = true →
    coalesceGo cur t = cur :: t
  | [], cur => fun _ => rfl
  | s :: t, cur => by
    intro h
    simp only [chainB, Bool.and_eq_true] at h
    show (if rOverlap cur s then _ else cur :: coalesceGo s t) = _
    rw [if_neg (by simp [rOverlap, h.1]), coalesceGo_id t s]
    exact h.2

theorem coalesce_id {vs : List VRange}
    (hch : chainB (fun r s => beforeB r.hi s.lo) vs = true) : coalesce vs = vs := by
  cases vs with
  | nil => rfl
  | cons r t => exact coalesceGo_id t r hch

theorem normalizeVL_canon_id {vs : List VRange} (h : canonVLb vs = true) :
    normalizeVL vs = vs := by
  have hfil : vs.filter rNonempty = vs := by
    rw [List.filter_eq_self]
    intro r hr
    exact List.all_eq_true.mp (canonVLb_all_rNonempty h) r hr
  have hsort : List.insertionSort rLE vs = vs :=
    List.Sorted.insertionSort_eq (sorted_rLE_of_canon h)
  have hcoal : coalesce vs = vs := coalesce_id (canonVLb_chain h)
  have hne : vs ≠ [(⟨none, none⟩ : VRange)] := by
    intro hcon
    simp only [canonVLb, Bool.and_eq_true] at h
    have := List.all_eq_true.mp h.1 ⟨none, none⟩ (by rw [hcon]; simp)
    simp at this
  unfold normalizeVL
  simp only [hfil, hsort, hcoal]
  rw [if_neg hne]

theorem depNames_map : ∀ d : Deps, depNames d = (Deps.toList d).map Spec.name
  | .nil => rfl
  | .cons s rest => by
    show s.name :: depNames rest = s.name :: (Deps.toList rest).map Spec.name
    rw [depNames_map rest]

theorem nodeErr_rawNodeOf {nm : String} {vs : List VRange} {cop : Option CompilerSpec}
    {vars : List (String × Bool)} {a : Option String} {d : Deps}
    (hvr : canonVariantsB vars = true) :
    nodeErr (rawNodeOf (.mk nm vs cop vars a d)) = none := by
  have hnd : ((rawNodeOf (.mk nm vs cop vars a d)).variants.map Prod.fst).Nodup := by
    show (vars.reverse.map Prod.fst).Nodup
    simp only [canonVariantsB, Bool.and_eq_true] at hvr
    have hn := pairwise_keys_nodup Prod.fst (chain_vr_pairwise hvr.2)
    rw [List.map_reverse, List.nodup_reverse]
    exact hn
  unfold nodeErr
  rw [(firstDup_eq_none_iff _).mpr hnd]
  cases cop <;> rfl

theorem mkNode_rawNodeOf {nm : String} {vs : List VRange} {cop : Option CompilerSpec}
    {vars : List (String × Bool)} {a : Option String} (d0 : Deps) (ds : List Spec)
    (hvl : canonVLb vs = true) (hcw : canonCompilerB cop = true)
    (hvr : canonVariantsB vars = true) :
    mkNode (rawNodeOf (.mk nm vs cop vars a d0)) ds =
      .mk nm vs cop vars a (Deps.ofList ds) := by
  have hvars : sortVariants vars.reverse = vars := by
    rw [sortVariants_perm (List.reverse_perm vars)]
    simp only [canonVariantsB, Bool.and_eq_true] at hvr
    exact sortVariants_eq_of_pairwise_lt (chain_vr_pairwise hvr.2)
  cases cop with
  | none =>
    show Spec.mk nm (normalizeVL vs) none (sortVariants vars.reverse) a (Deps.ofList ds) = _
    rw [normalizeVL_canon_id hvl, hvars]
  | some cc =>
    obtain ⟨ccn, ccv⟩ := cc
    simp only [canonCompilerB, Bool.and_eq_true] at hcw
    show Spec.mk nm (normalizeVL vs) (some ⟨ccn, normalizeVL ccv⟩)
      (sortVariants vars.reverse) a (Deps.ofList ds) = _
    rw [normalizeVL_canon_id hvl, normalizeVL_canon_id hcw.2, hvars]

theorem buildDeps_rawNodeOf : ∀ d : Deps, canonDepsB d = true →
    buildDeps ((Deps.toList d).map rawNodeOf) = .ok (Deps.toList d)
  | .nil => fun _ => rfl
  | .cons s rest => by
    intro h
    simp only [canonDepsB, Bool.and_eq_true] at h
    obtain ⟨⟨hws, hnil⟩, hrest⟩ := h
    obtain ⟨nm, vs, cop, vars, a, sd⟩ := s
    have hsd : sd = .nil := by
      cases sd with
      | nil => rfl
      | cons _ _ => simp [depsIsNil, Spec.deps] at hnil
    subst hsd
    simp only [canonWFb, Bool.and_eq_true] at hws
    obtain ⟨⟨⟨⟨⟨⟨hid, hcvl⟩, hccw⟩, hcvr⟩, hca⟩, _⟩, _⟩ := hws
    show buildDeps (rawNodeOf (.mk nm vs cop vars a .nil) ::
      (Deps.toList rest).map rawNodeOf) = _
    show ((buildNode (rawNodeOf (.mk nm vs cop vars a .nil)) []) >>= fun s2 =>
      (buildDeps ((Deps.toList rest).map rawNodeOf)) >>= fun r2 =>
        Except.ok (s2 :: r2)) = _
    unfold buildNode
    rw [nodeErr_rawNodeOf hcvr, mkNode_rawNodeOf Deps.nil [] hcvl hccw hcvr]
    rw [ok_bind, buildDeps_rawNodeOf rest hrest, ok_bind]
    rfl

theorem buildSpec_rawSpecOf (s : Spec) (h : canonWFb s = true) :
    buildSpec (rawSpecOf s) = .ok s := by
  obtain ⟨nm, vs, cop, vars, a, d⟩ := s
  simp only [canonWFb, Bool.and_eq_true] at h
  obtain ⟨⟨⟨⟨⟨⟨hid, hcvl⟩, hccw⟩, hcvr⟩, hca⟩, hchain⟩, hcd⟩ := h
  have hnames : (((Deps.toList d).map rawNodeOf).map RawNode.name) = depNames d := by
    rw [List.map_map, depNames_map]
    apply List.map_congr_left
    intro x _
    obtain ⟨xn, xv, xc, xvr, xa, xd⟩ := x
    rfl
  unfold buildSpec
  show (match nodeErr (rawNodeOf (.mk nm vs cop vars a d)) with
    | some e => Except.error e
    | none =>
      (buildDeps ((Deps.toList d).map rawNodeOf)) >>= fun ds =>
        match firstDup (((Deps.toList d).map rawNodeOf).map RawNode.name) with
        | some d2 => Except.error (.dupDependency d2)
        | none => Except.ok (mkNode (rawNodeOf (.mk nm vs cop vars a d))
            (sortSpecs ds))) = _
  rw [nodeErr_rawNodeOf hcvr, buildDeps_rawNodeOf d hcd, ok_bind, hnames]
  have hnd : (depNames d).Nodup := pairwise_lt_nodup (chain_keys_pairwise hchain)
  rw [(firstDup_eq_none_iff _).mpr hnd]
  have hsort : sortSpecs (Deps.toList d) = Deps.toList d := by
    unfold sortSpecs
    apply List.Sorted.insertionSort_eq
    have hpw := chain_keys_pairwise hchain
    rw [depNames_map, List.pairwise_map] at hpw
    refine hpw.imp ?_
    intro x y hxy
    unfold sLE
    rw [hxy]
    simp
  rw [hsort, mkNode_rawNodeOf d (Deps.toList d) hcvl hccw hcvr, ofList_toList]

theorem buildAll_rawSpecOf : ∀ l : List Spec, canonList l = true →
    buildAll (l.map rawSpecOf) = .ok l
  | [] => fun _ => rfl
  | s :: tl => by
    intro hcl
    have hws : canonWFb s = true := by
      cases tl with
      | nil => exact hcl
      | cons t2 tl2 =>
        simp only [canonList, Bool.and_eq_true] at hcl
        exact hcl.1.1
    have hcltl : canonList tl = true := by
      cases tl with
      | nil => rfl
      | cons t2 tl2 =>
        simp only [canonList, Bool.and_eq_true] at hcl
        exact hcl.2
    show ((buildSpec (rawSpecOf s)) >>= fun s2 =>
      (buildAll (tl.map rawSpecOf)) >>= fun r2 => Except.ok (s2 :: r2)) = _
    rw [buildSpec_rawSpecOf s hws, ok_bind, buildAll_rawSpecOf tl hcltl, ok_bind]

theorem canonVLb_validBounds {vs : List VRange} (h : canonVLb vs = true) :
    ∀ r ∈ vs, validBound r.lo = true ∧ validBound r.hi = true := by
  intro r hr
  simp only [canonVLb, Bool.and_eq_true] at h
  have hx := List.all_eq_true.mp h.1 r hr
  simp only [Bool.and_eq_true] at hx
  exact ⟨hx.1.1.1, hx.1.1.2⟩

theorem tokWF_range {r : VRange} (hlo : validBound r.lo = true)
    (hhi : validBound r.hi = true) : (tokensOfRange r).all tokWF = true := by
  obtain ⟨lo, hi⟩ := r
  cases lo with
  | none =>
    cases hi with
    | none => rfl
    | some b =>
      show ([Tok.COLON, Tok.ID b].all tokWF) = true
      simp [tokWF]
      exact hhi
  | some a =>
    cases hi with
    | none =>
      show ([Tok.ID a, Tok.COLON].all tokWF) = true
      simp [tokWF]
      exact hlo
    | some b =>
      show ((if a = b then [Tok.ID a] else [Tok.ID a, Tok.COLON, Tok.ID b]).all tokWF) = true
      split_ifs
      · simp [tokWF]
        exact hlo
      · simp [tokWF]
        exact ⟨hlo, hhi⟩

theorem tokWF_vl : ∀ vs : List VRange,
    (∀ r ∈ vs, validBound r.lo = true ∧ validBound r.hi = true) →
    (tokensOfVL vs).all tokWF = true
  | [] => fun _ => rfl
  | [r] => fun h => tokWF_range (h r (by simp)).1 (h r (by simp)).2
  | r :: sr :: t => fun h => by
    show ((tokensOfRange r ++ .COMMA :: tokensOfVL (sr :: t)).all tokWF) = true
    simp only [List.all_append, List.all_cons, Bool.and_eq_true]
    refine ⟨tokWF_range (h r (by simp)).1 (h r (by simp)).2, rfl, ?_⟩
    exact tokWF_vl (sr :: t) (fun q hq => h q (by simp [List.mem_cons] at hq ⊢; tauto))

theorem tokWF_vlToks {vs : List VRange} (h : canonVLb vs = true) :
    (vlToks vs).all tokWF = true := by
  cases vs with
  | nil => rfl
  | cons r t =>
    show ((Tok.AT :: tokensOfVL (r :: t)).all tokWF) = true
    simp only [List.all_cons, Bool.and_eq_true]
    exact ⟨rfl, tokWF_vl (r :: t) (canonVLb_validBounds h)⟩

theorem tokWF_variants : ∀ vars : List (String × Bool),
    (∀ p ∈ vars, validId p.1 = true) → (tokensOfVariants vars).all tokWF = true
  | [] => fun _ => rfl
  | v :: vs => fun h => by
    show (((if v.2 then Tok.ON else Tok.OFF) :: Tok.ID v.1 ::
      tokensOfVariants vs).all tokWF) = true
    simp only [List.all_cons, Bool.and_eq_true]
    refine ⟨?_, h v (by simp), tokWF_variants vs (fun q hq => h q (by simp [hq]))⟩
    cases v.2 <;> rfl

theorem tokWF_node {nm : String} {vs : List VRange} {cop : Option CompilerSpec}
    {vars : List (String × Bool)} {a : Option String}
    (hid : validId nm = true) (hvl : canonVLb vs = true)
    (hcw : canonCompilerB cop = true) (hvr : canonVariantsB vars = true)
    (ha : validOptId a = true) :
    (tokensOfNode nm vs cop vars a).all tokWF = true := by
  rw [tokensOfNode_eq]
  simp only [List.all_cons, List.all_append, Bool.and_eq_true]
  refine ⟨hid, ⟨⟨?_, tokWF_vlToks hvl⟩, ?_⟩, ?_⟩
  · cases a with
    | none => rfl
    | some x =>
      show ([Tok.EQ, Tok.ID x].all tokWF) = true
      simp [tokWF]
      exact ha
  · cases cop with
    | none => rfl
    | some cc =>
      simp only [canonCompilerB, Bool.and_eq_true] at hcw
      show ((Tok.PCT :: Tok.ID cc.name :: vlToks cc.versions).all tokWF) = true
      simp only [List.all_cons, Bool.and_eq_true]
      exact ⟨rfl, hcw.1, tokWF_vlToks hcw.2⟩
  · simp only [canonVariantsB, Bool.and_eq_true] at hvr
    exact tokWF_variants vars (fun p hp => List.all_eq_true.mp hvr.1 p hp)

theorem tokWF_deps : ∀ d : Deps, canonDepsB d = true →
    (tokensOfDeps d).all tokWF = true
  | .nil => fun _ => rfl
  | .cons s rest => by
    intro h
    simp only [canonDepsB, Bool.and_eq_true] at h
    obtain ⟨⟨hws, hnil⟩, hrest⟩ := h
    obtain ⟨nm, vs, cop, vars, a, sd⟩ := s
    have hsd : sd = .nil := by
      cases sd with
      | nil => rfl
      | cons _ _ => simp [depsIsNil, Spec.deps] at hnil
    subst hsd
    simp only [canonWFb, Bool.and_eq_true] at hws
    obtain ⟨⟨⟨⟨⟨⟨hid, hcvl⟩, hccw⟩, hcvr⟩, hca⟩, _⟩, _⟩ := hws
    show (((Tok.DEP :: tokensOfSpec (Spec.mk nm vs cop vars a .nil)) ++
      tokensOfDeps rest).all tokWF) = true
    simp only [List.all_append, List.all_cons, Bool.and_eq_true]
    refine ⟨⟨rfl, ?_⟩, tokWF_deps rest hrest⟩
    show ((tokensOfNode nm vs cop vars a ++ tokensOfDeps Deps.nil).all tokWF) = true
    rw [show tokensOfDeps Deps.nil = ([] : List Tok) from rfl, List.append_nil]
    exact tokWF_node hid hcvl hccw hcvr hca

theorem tokWF_spec {s : Spec} (h : canonWFb s = true) :
    (tokensOfSpec s).all tokWF = true := by
  obtain ⟨nm, vs, cop, vars, a, d⟩ := s
  simp only [canonWFb, Bool.and_eq_true] at h
  obtain ⟨⟨⟨⟨⟨⟨hid, hcvl⟩, hccw⟩, hcvr⟩, hca⟩, _⟩, hcd⟩ := h
  show ((tokensOfNode nm vs cop vars a ++ tokensOfDeps d).all tokWF) = true
  simp only [List.all_append, Bool.and_eq_true]
  exact ⟨tokWF_node hid hcvl hccw hcvr hca, tokWF_deps d hcd⟩

theorem tokWF_specs : ∀ l : List Spec, canonList l = true →
    (tokensOfSpecs l).all tokWF = true
  | [] => fun _ => rfl
  | s :: tl => by
    intro hcl
    have hws : canonWFb s = true := by
      cases tl with
      | nil => exact hcl
      | cons t2 tl2 =>
        simp only [canonList, Bool.and_eq_true] at hcl
        exact hcl.1.1
    have hcltl : canonList tl = true := by
      cases tl with
      | nil => rfl
      | cons t2 tl2 =>
        simp only [canonList, Bool.and_eq_true] at hcl
        exact hcl.2
    show ((tokensOfSpec s ++ tokensOfSpecs tl).all tokWF) = true
    simp only [List.all_append, Bool.and_eq_true]
    exact ⟨tokWF_spec hws, tokWF_specs tl hcltl⟩

/-- C2: for every spec string in canonical form — the rendering of a
canonically well-formed spec list — parsing and rendering back yields
exactly the same string (`render (parse s) == s`). -/
theorem C2_round_trip (s : String) (l : List Spec) (hc : canonList l = true)
    (hr : render l = s) : ∃ out, parse s = .ok out ∧ render out = s := by
  subst hr
  refine ⟨l, ?_, rfl⟩
  unfold parse render
  rw [lex_strOfToks (tokWF_specs l hc)]
  show (match parseToks (tokensOfSpecs l) with
    | .error e => Except.error e
    | .ok raws => buildAll raws) = _
  rw [parseToks_render l hc]
  exact buildAll_rawSpecOf l hc

/-- Witness for C2 at the full-spec round-trip string of the test suite. -/
theorem C2_round_trip_witness :
    canonList [specOf
      "mvapich_foo^_openmpi@1.2:1.4,1.6%intel@12.1:12.6+debug~qt_4^stackwalker@8.1_1e"] =
      true ∧
    ∃ out, parse
        "mvapich_foo^_openmpi@1.2:1.4,1.6%intel@12.1:12.6+debug~qt_4^stackwalker@8.1_1e" =
        .ok out ∧
      render out =
        "mvapich_foo^_openmpi@1.2:1.4,1.6%intel@12.1:12.6+debug~qt_4^stackwalker@8.1_1e" :=
  ⟨by decide, C2_round_trip _ [specOf
      "mvapich_foo^_openmpi@1.2:1.4,1.6%intel@12.1:12.6+debug~qt_4^stackwalker@8.1_1e"]
    (by decide) (by decide)⟩

end Spack
